import Mathlib

/-!
Shallow embedding of the search-algorithm layer of the
search-algorithm-visualizer repository (the modules under
src/backend/algorithms): the shared result record, the five traversal
algorithms, the state-space tree generator and the algorithm factory,
together with correctness theorems about them.

Modelling conventions:
* Python dicts are insertion-ordered association lists; dict assignment is
  `dset` (update in place when the key exists, append otherwise), lookup is
  `afind`.
* Python sets that are only tested for membership are lists with
  deduplicating insertion (`sadd`).
* Edge weights and heuristic values are natural numbers (every claim under
  consideration restricts to non-negative weights, and Python integers are
  exact).
* `heapq` is modelled by `popMin`, which removes a minimal element of the
  entry list under the lexicographic order Python uses on the
  `(priority, node, path)` tuples the algorithms push.
* The per-step trace (`steps`, and the `opened`/`closed` id bookkeeping that
  feeds only that trace) is write-only logging in the source: it is never
  read back by any algorithm and does not influence any returned field of
  the result, so it is omitted from the state.
* Loops are fuel-indexed and return `none` on fuel exhaustion; each `search`
  entry point supplies fuel that is proved sufficient, so termination of the
  Python loop corresponds to the search returning `some`.
-/

abbrev Node := String

/-- Adjacency-list graph, `Dict[str, List[str]]`. -/
abbrev Graph := List (Node × List Node)

/-- Association-list lookup, modelling a Python `dict` read. -/
def afind {α β : Type} [DecidableEq α] : List (α × β) → α → Option β
  | [], _ => none
  | (k, v) :: m, a => if a = k then some v else afind m a

/-- Python `dict` assignment `m[k] = v`: overwrite in place when the key is
present, append otherwise (insertion order preserved). -/
def dset {α β : Type} [DecidableEq α] (m : List (α × β)) (k : α) (v : β) :
    List (α × β) :=
  if (afind m k).isSome then m.map (fun p => if p.1 = k then (k, v) else p)
  else m ++ [(k, v)]

/-- Python `set.add` on a membership-only set. -/
def sadd (s : List Node) (x : Node) : List Node :=
  if x ∈ s then s else s ++ [x]

/-- `self.graph.get(current, [])`. -/
def adjL (g : Graph) (v : Node) : List Node := (afind g v).getD []

/-- `weights.get((node1, node2), 1)`: absent pairs default to weight 1. -/
def wget (w : List ((Node × Node) × Nat)) (e : Node × Node) : Nat :=
  (afind w e).getD 1

/-- `heuristic.get(node, 0)`: absent nodes default to 0. -/
def hget (h : List (Node × Nat)) (v : Node) : Nat :=
  (afind h v).getD 0

/-- The `SearchResult` record of base.py, restricted to the fields the
algorithms actually populate.  Tree edges `[p, c]` are modelled as pairs
`(p, c)`; the `extra` kwargs dict carries the algorithm-specific numbers
(`distance` for Dijkstra, `cost` for A*). -/
structure SearchResult where
  path : List Node
  visited : List Node
  success : Bool
  algorithm : String
  parent : List (Node × Option Node)
  tree_edges : List (Node × Node)
  extra : List (String × Nat)
deriving Repr, DecidableEq

/-! ### Priority-queue model

Python's `heapq.heappop` removes a minimal tuple under lexicographic
comparison of `(priority : int, node : str, path : List[str])`.  Entries that
compare equal are indistinguishable values, so popping the first minimal
occurrence is an exact model of the heap's observable behaviour. -/

/-- Python `<` on lists of strings (lexicographic, shorter prefix first). -/
def pLtB : List Node → List Node → Bool
  | _, [] => false
  | [], _ :: _ => true
  | a :: as, b :: bs => if a < b then true else if b < a then false else pLtB as bs

/-- Python `<` on the `(priority, node, path)` tuples pushed by the
weighted/informed searches. -/
def entLtB (a b : Nat × Node × List Node) : Bool :=
  if a.1 < b.1 then true
  else if b.1 < a.1 then false
  else if a.2.1 < b.2.1 then true
  else if b.2.1 < a.2.1 then false
  else pLtB a.2.2 b.2.2

/-- `heapq.heappop`: remove a minimal entry, returning it and the rest. -/
def popMin : List (Nat × Node × List Node) →
    Option ((Nat × Node × List Node) × List (Nat × Node × List Node))
  | [] => none
  | e :: es =>
    match popMin es with
    | none => some (e, es)
    | some (m, rest) => if entLtB m e then some (m, e :: rest) else some (e, es)

/-! ### Fuel bounds

All node labels that can ever enter a frontier come from `nodesOf`; the fuel
supplied to each loop is computed from it and later proved sufficient. -/

/-- Every node label occurring in the graph, plus the start node. -/
def nodesOf (g : Graph) (s : Node) : List Node :=
  (s :: g.flatMap (fun kv => kv.1 :: kv.2)).dedup

/-- Total length of all adjacency lists. -/
def totalAdj (g : Graph) : Nat := (g.map (fun kv => kv.2.length)).sum

/-- Fuel for the stack/priority-queue loops. -/
def fuelB (g : Graph) (s : Node) : Nat :=
  (totalAdj g + 2) * ((nodesOf g s).length + 1)

/-! ### breadth_first_search.py -/

structure BfsState where
  visited : List Node
  visitedSet : List Node
  parent : List (Node × Option Node)
  tree_edges : List (Node × Node)
  /-- queue entries `(node, path, depth)`; the display-only `node_id`
  strings derived from `path` and `depth` feed only the omitted step log. -/
  queue : List (Node × List Node × Nat)
deriving Repr

/-- The `for neighbor in self.graph.get(current, [])` body of BFS: mark the
neighbor discovered, record parent and tree edge, and enqueue it. -/
def bfsDiscover (current : Node) (path : List Node) (ndepth : Nat) :
    List Node → BfsState → BfsState
  | [], st => st
  | n :: ns, st =>
    if n ∈ st.visitedSet then bfsDiscover current path ndepth ns st
    else
      bfsDiscover current path ndepth ns
        { st with
          visitedSet := st.visitedSet ++ [n]
          parent := dset st.parent n (some current)
          tree_edges := st.tree_edges ++ [(current, n)]
          queue := st.queue ++ [(n, path ++ [n], ndepth)] }

/-- The BFS main loop.  Note the source checks `current == goal` after the
neighbor expansion, and appends `current` to `visited` only when absent. -/
def bfsLoop (g : Graph) (goal : Node) : Nat → BfsState → Option SearchResult
  | 0, _ => none
  | fuel + 1, st =>
    match st.queue with
    | [] =>
      some ⟨[], st.visited, false, "BreadthFirstSearch", st.parent, st.tree_edges, []⟩
    | (current, path, depth) :: rest =>
      let st1 : BfsState :=
        { st with
          queue := rest
          visited :=
            if current ∈ st.visited then st.visited else st.visited ++ [current] }
      let st2 := bfsDiscover current path (depth + 1) (adjL g current) st1
      if current = goal then
        some ⟨path, st2.visited, true, "BreadthFirstSearch", st2.parent,
          st2.tree_edges, []⟩
      else bfsLoop g goal fuel st2

def bfsInit (s : Node) : BfsState :=
  { visited := [s], visitedSet := [s], parent := [(s, none)], tree_edges := []
    queue := [(s, [s], 0)] }

/-- `BreadthFirstSearch.search` of breadth_first_search.py. -/
def BreadthFirstSearch.search (g : Graph) (s t : Node) : Option SearchResult :=
  bfsLoop g t ((nodesOf g s).length + 2) (bfsInit s)

/-! ### depth_first_search.py -/

structure DfsState where
  visited : List Node
  visitedSet : List Node
  parent : List (Node × Option Node)
  tree_edges : List (Node × Node)
  /-- stack entries `(node, path)`, head = top of stack. -/
  stack : List (Node × List Node)
deriving Repr

/-- The `for neighbor in reversed(self.graph.get(current, []))` body of DFS:
the caller passes the reversed adjacency list, and each push goes to the top
of the stack, so the first-listed neighbor ends up on top. -/
def dfsPush (current : Node) (path : List Node) :
    List Node → DfsState → DfsState
  | [], st => st
  | n :: ns, st =>
    if n ∈ st.visitedSet then dfsPush current path ns st
    else
      let st' :=
        if (afind st.parent n).isSome then st
        else
          { st with
            parent := st.parent ++ [(n, some current)]
            tree_edges := st.tree_edges ++ [(current, n)] }
      dfsPush current path ns { st' with stack := (n, path ++ [n]) :: st'.stack }

/-- The DFS main loop: lazy deletion (skip a popped node already in the
closed set), goal test on pop before expansion. -/
def dfsLoop (g : Graph) (goal : Node) : Nat → DfsState → Option SearchResult
  | 0, _ => none
  | fuel + 1, st =>
    match st.stack with
    | [] =>
      some ⟨[], st.visited, false, "DepthFirstSearch", st.parent, st.tree_edges, []⟩
    | (current, path) :: rest =>
      if current ∈ st.visitedSet then dfsLoop g goal fuel { st with stack := rest }
      else
        let st1 : DfsState :=
          { st with
            stack := rest
            visitedSet := st.visitedSet ++ [current]
            visited := st.visited ++ [current] }
        if current = goal then
          some ⟨path, st1.visited, true, "DepthFirstSearch", st1.parent,
            st1.tree_edges, []⟩
        else dfsLoop g goal fuel (dfsPush current path (adjL g current).reverse st1)

def dfsInit (s : Node) : DfsState :=
  { visited := [], visitedSet := [], parent := [(s, none)], tree_edges := []
    stack := [(s, [s])] }

/-- `DepthFirstSearch.search` of depth_first_search.py. -/
def DepthFirstSearch.search (g : Graph) (s t : Node) : Option SearchResult :=
  dfsLoop g t (fuelB g s) (dfsInit s)

/-! ### weighted_search.py (Dijkstra) -/

structure DijState where
  visited : List Node
  visitedSet : List Node
  parent : List (Node × Option Node)
  tree_edges : List (Node × Node)
  distances : List (Node × Nat)
  pq : List (Nat × Node × List Node)
deriving Repr

/-- The relaxation loop of Dijkstra: update the distance when the tentative
distance strictly improves (or the neighbor is new), record parent and tree
edge only when the neighbor has no parent yet, and push the new entry. -/
def dijRelax (w : List ((Node × Node) × Nat)) (current : Node) (curDist : Nat)
    (path : List Node) : List Node → DijState → DijState
  | [], st => st
  | n :: ns, st =>
    if n ∈ st.visitedSet then dijRelax w current curDist path ns st
    else
      let weight := wget w (current, n)
      let newDist := curDist + weight
      let improves :=
        match afind st.distances n with
        | none => true
        | some dn => decide (newDist < dn)
      if improves then
        let stP :=
          if (afind st.parent n).isSome then st
          else
            { st with
              parent := st.parent ++ [(n, some current)]
              tree_edges := st.tree_edges ++ [(current, n)] }
        dijRelax w current curDist path ns
          { stP with
            distances := dset stP.distances n newDist
            pq := stP.pq ++ [(newDist, n, path ++ [n])] }
      else dijRelax w current curDist path ns st

/-- The Dijkstra main loop: lazy deletion, goal test on pop (first closure of
the goal), result carries the popped distance. -/
def dijLoop (g : Graph) (w : List ((Node × Node) × Nat)) (goal : Node) :
    Nat → DijState → Option SearchResult
  | 0, _ => none
  | fuel + 1, st =>
    match popMin st.pq with
    | none =>
      some ⟨[], st.visited, false, "DijkstraSearch", st.parent, st.tree_edges, []⟩
    | some ((curDist, current, path), rest) =>
      if current ∈ st.visitedSet then dijLoop g w goal fuel { st with pq := rest }
      else
        let st1 : DijState :=
          { st with
            pq := rest
            visitedSet := st.visitedSet ++ [current]
            visited := st.visited ++ [current] }
        if current = goal then
          some ⟨path, st1.visited, true, "DijkstraSearch", st1.parent,
            st1.tree_edges, [("distance", curDist)]⟩
        else dijLoop g w goal fuel (dijRelax w current curDist path (adjL g current) st1)

def dijInit (s : Node) : DijState :=
  { visited := [], visitedSet := [], parent := [(s, none)], tree_edges := []
    distances := [(s, 0)], pq := [(0, s, [s])] }

/-- `DijkstraSearch.search` of weighted_search.py. -/
def DijkstraSearch.search (g : Graph) (w : List ((Node × Node) × Nat))
    (s t : Node) : Option SearchResult :=
  dijLoop g w t (fuelB g s) (dijInit s)

/-! ### informed_search.py (A* and Greedy best-first) -/

structure AstState where
  visited : List Node
  visitedSet : List Node
  parent : List (Node × Option Node)
  tree_edges : List (Node × Node)
  g_score : List (Node × Nat)
  f_score : List (Node × Nat)
  pq : List (Nat × Node × List Node)
deriving Repr

/-- The relaxation loop of A*: `tentative_g = g_score[current] + weight`,
scored by `f = tentative_g + h(neighbor)`; same parent-recording policy as
Dijkstra.  `g_score[current]` is a plain dict access in the source; the
popped node always has a `g_score` entry, and the lookup is modelled with a
default of 0. -/
def astRelax (w : List ((Node × Node) × Nat)) (h : List (Node × Nat))
    (current : Node) (path : List Node) : List Node → AstState → AstState
  | [], st => st
  | n :: ns, st =>
    if n ∈ st.visitedSet then astRelax w h current path ns st
    else
      let weight := wget w (current, n)
      let tg := (afind st.g_score current).getD 0 + weight
      let improves :=
        match afind st.g_score n with
        | none => true
        | some gn => decide (tg < gn)
      if improves then
        let f := tg + hget h n
        let stP :=
          if (afind st.parent n).isSome then st
          else
            { st with
              parent := st.parent ++ [(n, some current)]
              tree_edges := st.tree_edges ++ [(current, n)] }
        astRelax w h current path ns
          { stP with
            g_score := dset stP.g_score n tg
            f_score := dset stP.f_score n f
            pq := stP.pq ++ [(f, n, path ++ [n])] }
      else astRelax w h current path ns st

/-- The A* main loop; the success result carries `cost = g_score[current]`. -/
def astLoop (g : Graph) (w : List ((Node × Node) × Nat)) (h : List (Node × Nat))
    (goal : Node) : Nat → AstState → Option SearchResult
  | 0, _ => none
  | fuel + 1, st =>
    match popMin st.pq with
    | none =>
      some ⟨[], st.visited, false, "AStarSearch", st.parent, st.tree_edges, []⟩
    | some ((_, current, path), rest) =>
      if current ∈ st.visitedSet then astLoop g w h goal fuel { st with pq := rest }
      else
        let st1 : AstState :=
          { st with
            pq := rest
            visitedSet := st.visitedSet ++ [current]
            visited := st.visited ++ [current] }
        if current = goal then
          some ⟨path, st1.visited, true, "AStarSearch", st1.parent, st1.tree_edges,
            [("cost", (afind st1.g_score current).getD 0)]⟩
        else astLoop g w h goal fuel (astRelax w h current path (adjL g current) st1)

def astInit (h : List (Node × Nat)) (s : Node) : AstState :=
  { visited := [], visitedSet := [], parent := [(s, none)], tree_edges := []
    g_score := [(s, 0)], f_score := [(s, hget h s)], pq := [(hget h s, s, [s])] }

/-- `AStarSearch.search` of informed_search.py. -/
def AStarSearch.search (g : Graph) (w : List ((Node × Node) × Nat))
    (h : List (Node × Nat)) (s t : Node) : Option SearchResult :=
  astLoop g w h t (fuelB g s) (astInit h s)

structure GreedyState where
  visited : List Node
  visitedSet : List Node
  parent : List (Node × Option Node)
  tree_edges : List (Node × Node)
  pq : List (Nat × Node × List Node)
deriving Repr

/-- The neighbor loop of greedy best-first search: every unclosed neighbor is
pushed, keyed purely by its heuristic value. -/
def greedyPush (h : List (Node × Nat)) (current : Node) (path : List Node) :
    List Node → GreedyState → GreedyState
  | [], st => st
  | n :: ns, st =>
    if n ∈ st.visitedSet then greedyPush h current path ns st
    else
      let hv := hget h n
      let stP :=
        if (afind st.parent n).isSome then st
        else
          { st with
            parent := st.parent ++ [(n, some current)]
            tree_edges := st.tree_edges ++ [(current, n)] }
      greedyPush h current path ns { stP with pq := stP.pq ++ [(hv, n, path ++ [n])] }

/-- The greedy best-first main loop. -/
def greedyLoop (g : Graph) (h : List (Node × Nat)) (goal : Node) :
    Nat → GreedyState → Option SearchResult
  | 0, _ => none
  | fuel + 1, st =>
    match popMin st.pq with
    | none =>
      some ⟨[], st.visited, false, "GreedyBestFirstSearch", st.parent,
        st.tree_edges, []⟩
    | some ((_, current, path), rest) =>
      if current ∈ st.visitedSet then greedyLoop g h goal fuel { st with pq := rest }
      else
        let st1 : GreedyState :=
          { st with
            pq := rest
            visitedSet := st.visitedSet ++ [current]
            visited := st.visited ++ [current] }
        if current = goal then
          some ⟨path, st1.visited, true, "GreedyBestFirstSearch", st1.parent,
            st1.tree_edges, []⟩
        else greedyLoop g h goal fuel (greedyPush h current path (adjL g current) st1)

def greedyInit (h : List (Node × Nat)) (s : Node) : GreedyState :=
  { visited := [], visitedSet := [], parent := [(s, none)], tree_edges := []
    pq := [(hget h s, s, [s])] }

/-- `GreedyBestFirstSearch.search` of informed_search.py. -/
def GreedyBestFirstSearch.search (g : Graph) (h : List (Node × Nat))
    (s t : Node) : Option SearchResult :=
  greedyLoop g h t (fuelB g s) (greedyInit h s)

/-! ### factory.py -/

inductive AlgorithmKind | bfs | dfs | dijkstra | astar | greedy
deriving DecidableEq, Repr

/-- The `_algorithms` registry dict, in definition order. -/
def AlgorithmFactory.algorithms : List (String × AlgorithmKind) :=
  [("bfs", .bfs), ("dfs", .dfs), ("dijkstra", .dijkstra), ("astar", .astar),
   ("greedy", .greedy)]

/-- `str.lower()`: character-wise lower-casing of the name. -/
def pyLower (s : String) : String := ⟨s.data.map Char.toLower⟩

/-- `AlgorithmFactory.create`: resolve the lower-cased name, or raise a
`ValueError` whose message lists the registry keys. -/
def AlgorithmFactory.create (name : String) : Except String AlgorithmKind :=
  match afind AlgorithmFactory.algorithms (pyLower name) with
  | some k => .ok k
  | none =>
    .error ("Unknown algorithm: " ++ name ++ ". Available algorithms: " ++
      String.intercalate ", " (AlgorithmFactory.algorithms.map (fun kv => kv.1)))

/-- `AlgorithmFactory.available_algorithms`. -/
def AlgorithmFactory.available_algorithms : List String :=
  AlgorithmFactory.algorithms.map (fun kv => kv.1)

/-! ### tree_generator.py -/

/-- The `{tree_edges, nodes, max_depth}` dict returned by the generator.
`all_nodes` is a Python set; it is modelled as an insertion-ordered list. -/
structure TreeResult where
  tree_edges : List (Node × Node)
  nodes : List Node
  max_depth : Nat
deriving Repr, DecidableEq

structure TreeGenState where
  tree_edges : List (Node × Node)
  all_nodes : List Node
  /-- queue entries `(node, depth, path_so_far)`. -/
  queue : List (Node × Nat × List Node)
deriving Repr, DecidableEq

/-- The neighbor loop of the generator: an edge is added (and the branch
extended) exactly when the neighbor does not occur in `path`, the list of
strict ancestors of `current` in this branch. -/
def tgExpand (current : Node) (depth : Nat) (path : List Node) :
    List Node → TreeGenState → TreeGenState
  | [], st => st
  | n :: ns, st =>
    if n ∈ path then tgExpand current depth path ns st
    else
      tgExpand current depth path ns
        { st with
          tree_edges := st.tree_edges ++ [(current, n)]
          all_nodes := sadd st.all_nodes n
          queue := st.queue ++ [(n, depth + 1, path ++ [current])] }

/-- One iteration of the generator's `while queue` loop. -/
def tgStep (g : Graph) (maxd : Nat) (st : TreeGenState) : TreeGenState :=
  match st.queue with
  | [] => st
  | (current, depth, path) :: rest =>
    if maxd ≤ depth then { st with queue := rest }
    else tgExpand current depth path (adjL g current) { st with queue := rest }

def tgLoop (g : Graph) (maxd : Nat) : Nat → TreeGenState → Option TreeGenState
  | 0, _ => none
  | fuel + 1, st =>
    match st.queue with
    | [] => some st
    | _ :: _ => tgLoop g maxd fuel (tgStep g maxd st)

def tgInit (s : Node) : TreeGenState :=
  { tree_edges := [], all_nodes := [s], queue := [(s, 0, [])] }

def tgFuel (g : Graph) (maxd : Nat) : Nat := (totalAdj g + 2) ^ (maxd + 1) + 1

/-- `StateSpaceTreeGenerator.generate` of tree_generator.py. -/
def StateSpaceTreeGenerator.generate (g : Graph) (s : Node) (maxd : Nat) :
    Option TreeResult :=
  (tgLoop g maxd (tgFuel g maxd) (tgInit s)).map
    (fun st => ⟨st.tree_edges, st.all_nodes, maxd⟩)

/-! ## Basic lemmas about the dictionary and set models -/

theorem afind_append {α β : Type} [DecidableEq α] (m m' : List (α × β)) (a : α) :
    afind (m ++ m') a = ((afind m a).or (afind m' a)) := by
  induction m with
  | nil => simp [afind]
  | cons p m ih =>
    obtain ⟨k, v⟩ := p
    by_cases h : a = k <;> simp [afind, h, ih]

theorem afind_eq_none {α β : Type} [DecidableEq α] {m : List (α × β)} {a : α} :
    afind m a = none ↔ a ∉ m.map Prod.fst := by
  induction m with
  | nil => simp [afind]
  | cons p m ih =>
    obtain ⟨k, v⟩ := p
    by_cases h : a = k <;> simp [afind, h, ih]

theorem afind_mem {α β : Type} [DecidableEq α] {m : List (α × β)} {a : α} {b : β}
    (h : afind m a = some b) : (a, b) ∈ m := by
  induction m with
  | nil => simp [afind] at h
  | cons p m ih =>
    obtain ⟨k, v⟩ := p
    by_cases hk : a = k
    · subst hk
      simp [afind] at h
      simp [h]
    · simp [afind, hk] at h
      simp [ih h]

theorem afind_isSome {α β : Type} [DecidableEq α] {m : List (α × β)} {a : α} :
    (afind m a).isSome ↔ a ∈ m.map Prod.fst := by
  cases h : afind m a with
  | none => simp [h, afind_eq_none.mp h]
  | some b =>
    simp [h]
    exact ⟨b, afind_mem h⟩

theorem dset_of_none {α β : Type} [DecidableEq α] {m : List (α × β)} {k : α}
    (h : afind m k = none) (v : β) : dset m k v = m ++ [(k, v)] := by
  simp [dset, h]

theorem afind_map_update_self {α β : Type} [DecidableEq α] :
    ∀ (m : List (α × β)) (k : α) (v : β), (afind m k).isSome →
      afind (m.map (fun p => if p.1 = k then (k, v) else p)) k = some v
  | [], k, v, hs => by simp [afind] at hs
  | (k', v') :: m, k, v, hs => by
    simp only [List.map_cons]
    by_cases h : k' = k
    · subst h
      rw [show (if ((k', v') : α × β).1 = k' then ((k', v) : α × β) else (k', v')) =
          (k', v) from if_pos rfl]
      simp [afind]
    · rw [show (if ((k', v') : α × β).1 = k then ((k, v) : α × β) else (k', v')) =
          (k', v') from if_neg h]
      have hk : ¬ k = k' := fun e => h e.symm
      rw [afind, if_neg hk]
      rw [afind, if_neg hk] at hs
      exact afind_map_update_self m k v hs

theorem afind_map_update_ne {α β : Type} [DecidableEq α] :
    ∀ (m : List (α × β)) {a k : α}, a ≠ k → ∀ (v : β),
      afind (m.map (fun p => if p.1 = k then (k, v) else p)) a = afind m a
  | [], _, _, _, _ => rfl
  | (k', v') :: m, a, k, h, v => by
    simp only [List.map_cons]
    by_cases hk : k' = k
    · subst hk
      rw [show (if ((k', v') : α × β).1 = k' then ((k', v) : α × β) else (k', v')) =
          (k', v) from if_pos rfl]
      rw [afind, afind, if_neg h, if_neg h]
      exact afind_map_update_ne m h v
    · rw [show (if ((k', v') : α × β).1 = k then ((k, v) : α × β) else (k', v')) =
          (k', v') from if_neg hk]
      by_cases ha : a = k'
      · rw [afind, afind, if_pos ha, if_pos ha]
      · rw [afind, afind, if_neg ha, if_neg ha]
        exact afind_map_update_ne m h v

theorem afind_dset_self {α β : Type} [DecidableEq α] (m : List (α × β)) (k : α)
    (v : β) : afind (dset m k v) k = some v := by
  unfold dset
  split
  · exact afind_map_update_self m k v ‹_›
  · rw [afind_append]
    rename_i hs
    rw [Option.not_isSome_iff_eq_none] at hs
    simp [hs, afind]

theorem afind_dset_ne {α β : Type} [DecidableEq α] (m : List (α × β)) {a k : α}
    (h : a ≠ k) (v : β) : afind (dset m k v) a = afind m a := by
  unfold dset
  split
  · exact afind_map_update_ne m h v
  · rw [afind_append]
    cases hm : afind m a
    · simp [afind, h]
    · simp

theorem mem_sadd {s : List Node} {x a : Node} :
    a ∈ sadd s x ↔ a ∈ s ∨ a = x := by
  unfold sadd
  split
  · rename_i hx
    constructor
    · exact Or.inl
    · rintro (h | rfl)
      · exact h
      · exact hx
  · simp

/-! ## The heap order: lemmas about `pLtB`, `entLtB` and `popMin` -/

theorem pLtB_nil_right : ∀ p : List Node, pLtB p [] = false
  | [] => rfl
  | _ :: _ => rfl

theorem pLtB_cons_cons (a b : Node) (as bs : List Node) :
    pLtB (a :: as) (b :: bs) =
      (if a < b then true else if b < a then false else pLtB as bs) := rfl

theorem pLtB_cons_self (a : Node) (as bs : List Node) :
    pLtB (a :: as) (a :: bs) = pLtB as bs := by
  rw [pLtB_cons_cons, if_neg (lt_irrefl a), if_neg (lt_irrefl a)]

theorem pLtB_irrefl : ∀ p : List Node, pLtB p p = false
  | [] => rfl
  | a :: as => by rw [pLtB_cons_self]; exact pLtB_irrefl as

theorem pLtB_asymm : ∀ p q : List Node, pLtB p q = true → pLtB q p = false
  | p, [], h => by rw [pLtB_nil_right] at h; exact absurd h (by simp)
  | [], _ :: _, _ => rfl
  | a :: as, b :: bs, h => by
    rw [pLtB_cons_cons] at h
    rw [pLtB_cons_cons]
    by_cases hab : a < b
    · rw [if_neg (lt_asymm hab), if_pos hab]
    · by_cases hba : b < a
      · rw [if_neg hab, if_pos hba] at h
        exact absurd h (by simp)
      · have e : a = b := le_antisymm (le_of_not_lt hba) (le_of_not_lt hab)
        subst e
        rw [if_neg hab, if_neg hba] at h
        rw [if_neg hab, if_neg hba]
        exact pLtB_asymm as bs h

theorem pLtB_negtrans : ∀ p q r : List Node,
    pLtB p q = false → pLtB q r = false → pLtB p r = false
  | p, q, [], _, _ => pLtB_nil_right p
  | p, [], c :: cs, h1, h2 => by simp [pLtB] at h2
  | [], b :: bs, _ :: _, h1, _ => by simp [pLtB] at h1
  | a :: as, b :: bs, c :: cs, h1, h2 => by
    rw [pLtB_cons_cons] at h1 h2
    rw [pLtB_cons_cons]
    by_cases hab : a < b
    · rw [if_pos hab] at h1
      exact absurd h1 (by simp)
    · by_cases hbc : b < c
      · rw [if_pos hbc] at h2
        exact absurd h2 (by simp)
      · have hba : b ≤ a := le_of_not_lt hab
        have hcb : c ≤ b := le_of_not_lt hbc
        have hac : ¬ a < c := not_lt_of_ge (le_trans hcb hba)
        rw [if_neg hac]
        by_cases hca : c < a
        · rw [if_pos hca]
        · rw [if_neg hca]
          have eac : a = c := le_antisymm (le_of_not_lt hca) (le_trans hcb hba)
          have eab : a = b := le_antisymm (by rw [eac]; exact hcb) hba
          have hba' : ¬ b < a := by rw [← eab]; exact lt_irrefl a
          have hcb' : ¬ c < b := by rw [← eab, eac]; exact lt_irrefl c
          rw [if_neg hab, if_neg hba'] at h1
          rw [if_neg hbc, if_neg hcb'] at h2
          exact pLtB_negtrans as bs cs h1 h2

/-- Characterization of a `true` tuple comparison. -/
theorem entLtB_true_iff (x y : Nat × Node × List Node) :
    entLtB x y = true ↔
      (x.1 < y.1 ∨ (x.1 = y.1 ∧ (x.2.1 < y.2.1 ∨
        (x.2.1 = y.2.1 ∧ pLtB x.2.2 y.2.2 = true)))) := by
  unfold entLtB
  by_cases h1 : x.1 < y.1
  · simp [h1]
  · by_cases h2 : y.1 < x.1
    · have ne : x.1 ≠ y.1 := by omega
      simp [h1, h2, ne]
    · have e : x.1 = y.1 := by omega
      by_cases h3 : x.2.1 < y.2.1
      · simp [h1, h2, h3, e]
      · by_cases h4 : y.2.1 < x.2.1
        · simp [h1, h2, h3, h4, e, ne_of_gt h4]
        · have e2 : x.2.1 = y.2.1 :=
            le_antisymm (le_of_not_lt h4) (le_of_not_lt h3)
          simp [h1, h2, h3, h4, e, e2]

/-- Characterization of a `false` tuple comparison. -/
theorem entLtB_false_iff (x y : Nat × Node × List Node) :
    entLtB x y = false ↔
      (y.1 < x.1 ∨ (y.1 = x.1 ∧ (y.2.1 < x.2.1 ∨
        (y.2.1 = x.2.1 ∧ pLtB x.2.2 y.2.2 = false)))) := by
  rw [← Bool.not_eq_true, entLtB_true_iff]
  constructor
  · intro h
    push_neg at h
    obtain ⟨hle, h2⟩ := h
    rcases Nat.lt_trichotomy y.1 x.1 with hn | hn | hn
    · exact Or.inl hn
    · refine Or.inr ⟨hn, ?_⟩
      obtain ⟨hsle, h4⟩ := h2 hn.symm
      rcases lt_trichotomy y.2.1 x.2.1 with hs | hs | hs
      · exact Or.inl hs
      · exact Or.inr ⟨hs, by simpa using h4 hs.symm⟩
      · exact absurd hs (not_lt_of_ge hsle)
    · exact absurd hn (not_lt_of_ge hle)
  · intro h
    push_neg
    rcases h with hn | ⟨hn, h⟩
    · exact ⟨le_of_lt hn, fun e => absurd e (by omega)⟩
    · refine ⟨le_of_eq hn, fun _ => ?_⟩
      rcases h with hs | ⟨hs, hp⟩
      · exact ⟨le_of_lt hs, fun e => absurd e (ne_of_gt hs)⟩
      · exact ⟨le_of_eq hs, fun _ => by simp [hp]⟩

theorem entLtB_irrefl (x : Nat × Node × List Node) : entLtB x x = false := by
  rw [entLtB_false_iff]
  exact Or.inr ⟨rfl, Or.inr ⟨rfl, pLtB_irrefl _⟩⟩

theorem entLtB_asymm {x y : Nat × Node × List Node} (h : entLtB x y = true) :
    entLtB y x = false := by
  rw [entLtB_true_iff] at h
  rw [entLtB_false_iff]
  rcases h with hn | ⟨hn, h⟩
  · exact Or.inl hn
  · refine Or.inr ⟨hn, ?_⟩
    rcases h with hs | ⟨hs, hp⟩
    · exact Or.inl hs
    · exact Or.inr ⟨hs, pLtB_asymm _ _ hp⟩

theorem entLtB_negtrans {x y z : Nat × Node × List Node}
    (h1 : entLtB x y = false) (h2 : entLtB y z = false) : entLtB x z = false := by
  rw [entLtB_false_iff] at h1 h2
  rw [entLtB_false_iff]
  rcases h1 with hn1 | ⟨hn1, h1⟩
  · rcases h2 with hn2 | ⟨hn2, h2⟩
    · exact Or.inl (by omega)
    · exact Or.inl (by omega)
  · rcases h2 with hn2 | ⟨hn2, h2⟩
    · exact Or.inl (by omega)
    · refine Or.inr ⟨by omega, ?_⟩
      rcases h1 with hs1 | ⟨hs1, hp1⟩
      · rcases h2 with hs2 | ⟨hs2, hp2⟩
        · exact Or.inl (lt_trans hs2 hs1)
        · exact Or.inl (hs2 ▸ hs1)
      · rcases h2 with hs2 | ⟨hs2, hp2⟩
        · exact Or.inl (hs1 ▸ hs2)
        · exact Or.inr ⟨by rw [hs2, hs1], pLtB_negtrans _ _ _ hp1 hp2⟩

theorem key_le_of_not_entLtB {x m : Nat × Node × List Node}
    (h : entLtB x m = false) : m.1 ≤ x.1 := by
  rw [entLtB_false_iff] at h
  rcases h with hn | ⟨hn, _⟩
  · omega
  · omega

theorem popMin_eq_none {l : List (Nat × Node × List Node)} :
    popMin l = none ↔ l = [] := by
  cases l with
  | nil => simp [popMin]
  | cons e es =>
    simp only [popMin]
    cases popMin es with
    | none => simp
    | some p =>
      obtain ⟨m, rest⟩ := p
      by_cases h : entLtB m e <;> simp [h]

theorem popMin_perm : ∀ {l : List (Nat × Node × List Node)} {m rest},
    popMin l = some (m, rest) → l.Perm (m :: rest)
  | [], _, _, h => by simp [popMin] at h
  | e :: es, m, rest, h => by
    simp only [popMin] at h
    cases hp : popMin es with
    | none =>
      rw [hp] at h
      rw [popMin_eq_none] at hp
      subst hp
      simp at h
      obtain ⟨rfl, rfl⟩ := h
      exact List.Perm.refl _
    | some p =>
      obtain ⟨m', rest'⟩ := p
      rw [hp] at h
      have ih := popMin_perm hp
      by_cases hlt : entLtB m' e
      · simp [hlt] at h
        obtain ⟨rfl, rfl⟩ := h
        exact (List.Perm.cons e ih).trans (List.Perm.swap m' e rest')
      · simp [hlt] at h
        obtain ⟨rfl, rfl⟩ := h
        exact List.Perm.refl _

theorem popMin_not_lt : ∀ {l : List (Nat × Node × List Node)} {m rest},
    popMin l = some (m, rest) → ∀ x ∈ l, entLtB x m = false
  | [], _, _, h => by simp [popMin] at h
  | e :: es, m, rest, h => by
    simp only [popMin] at h
    cases hp : popMin es with
    | none =>
      rw [hp] at h
      rw [popMin_eq_none] at hp
      subst hp
      simp at h
      obtain ⟨rfl, rfl⟩ := h
      intro x hx
      simp at hx
      subst hx
      exact entLtB_irrefl x
    | some p =>
      obtain ⟨m', rest'⟩ := p
      rw [hp] at h
      have ih := popMin_not_lt hp
      by_cases hlt : entLtB m' e
      · simp [hlt] at h
        obtain ⟨rfl, rfl⟩ := h
        intro x hx
        rcases List.mem_cons.mp hx with rfl | hx
        · exact entLtB_asymm hlt
        · exact ih x hx
      · simp [hlt] at h
        obtain ⟨rfl, rfl⟩ := h
        intro x hx
        rcases List.mem_cons.mp hx with rfl | hx
        · exact entLtB_irrefl x
        · have hx' := ih x hx
          exact entLtB_negtrans hx' (Bool.not_eq_true _ ▸ fun hc => by
            rw [hc] at hlt; exact hlt rfl)

theorem popMin_mem {l : List (Nat × Node × List Node)} {m rest}
    (h : popMin l = some (m, rest)) : m ∈ l :=
  (popMin_perm h).symm.subset (List.mem_cons_self m rest)

theorem popMin_rest_subset {l : List (Nat × Node × List Node)} {m rest}
    (h : popMin l = some (m, rest)) : ∀ x ∈ rest, x ∈ l :=
  fun x hx => (popMin_perm h).symm.subset (List.mem_cons_of_mem m hx)

theorem popMin_mem_or {l : List (Nat × Node × List Node)} {m rest}
    (h : popMin l = some (m, rest)) : ∀ x ∈ l, x = m ∨ x ∈ rest := by
  intro x hx
  have := (popMin_perm h).subset hx
  simpa using this

theorem popMin_length {l : List (Nat × Node × List Node)} {m rest}
    (h : popMin l = some (m, rest)) : l.length = rest.length + 1 := by
  have := (popMin_perm h).length_eq
  simpa using this

/-! ## Paths and reachability -/

/-- A non-empty walk in the graph from `s` to `t`: consecutive elements are
edges of the adjacency structure. -/
def validPath (g : Graph) (s t : Node) (p : List Node) : Prop :=
  p ≠ [] ∧ p.head? = some s ∧ p.getLast? = some t ∧
    List.Chain' (fun a b => b ∈ adjL g a) p

/-- Executable edge-chain check, used to decide `validPath`. -/
def chainB (g : Graph) : List Node → Bool
  | [] => true
  | [_] => true
  | a :: b :: rest => decide (b ∈ adjL g a) && chainB g (b :: rest)

theorem chainB_iff (g : Graph) :
    ∀ p : List Node, chainB g p = true ↔
      List.Chain' (fun a b => b ∈ adjL g a) p
  | [] => by simp [chainB]
  | [a] => by simp [chainB]
  | a :: b :: rest => by
    rw [List.chain'_cons]
    simp only [chainB, Bool.and_eq_true, decide_eq_true_eq]
    rw [chainB_iff g (b :: rest)]

instance (g : Graph) (s t : Node) (p : List Node) :
    Decidable (validPath g s t p) :=
  decidable_of_iff
    (p ≠ [] ∧ p.head? = some s ∧ p.getLast? = some t ∧ chainB g p = true)
    (by rw [chainB_iff]; exact Iff.rfl)

inductive Reachable (g : Graph) (s : Node) : Node → Prop
  | refl : Reachable g s s
  | step {u v : Node} : Reachable g s u → v ∈ adjL g u → Reachable g s v

/-- Total weight of a walk under the defaulting weight lookup. -/
def pathWeight (w : List ((Node × Node) × Nat)) : List Node → Nat
  | [] => 0
  | [_] => 0
  | a :: b :: rest => wget w (a, b) + pathWeight w (b :: rest)

theorem reachable_of_chain (g : Graph) (s : Node) :
    ∀ (p : List Node) (u t : Node), p.head? = some u → p.getLast? = some t →
      List.Chain' (fun a b => b ∈ adjL g a) p → Reachable g s u → Reachable g s t
  | [], u, t, hh, _, _, _ => by simp at hh
  | [a], u, t, hh, hl, _, hr => by
    simp at hh hl
    subst hh; subst hl
    exact hr
  | a :: b :: rest, u, t, hh, hl, hc, hr => by
    simp at hh
    subst hh
    rw [List.chain'_cons] at hc
    refine reachable_of_chain g s (b :: rest) b t rfl ?_ hc.2 (hr.step hc.1)
    simpa using hl

theorem validPath_reachable {g : Graph} {s t : Node} {p : List Node}
    (h : validPath g s t p) : Reachable g s t :=
  reachable_of_chain g s p s t h.2.1 h.2.2.1 h.2.2.2 Reachable.refl

theorem reachable_validPath {g : Graph} {s t : Node} (h : Reachable g s t) :
    ∃ p, validPath g s t p := by
  induction h with
  | refl => exact ⟨[s], by simp [validPath]⟩
  | @step u v _ hedge ih =>
    obtain ⟨p, hne, hh, hl, hc⟩ := ih
    refine ⟨p ++ [v], by simp, ?_, by simp, ?_⟩
    · rcases p with _ | ⟨a, p⟩
      · simp at hne
      · simpa using hh
    · rw [List.chain'_append]
      refine ⟨hc, List.chain'_singleton v, ?_⟩
      intro x hx y hy
      simp at hy
      subst hy
      rw [hl] at hx
      simp at hx
      subst hx
      exact hedge

/-! ## The factory (claim C8) -/

/-- C8: `AlgorithmFactory.create` resolves the algorithm name
case-insensitively against the five registered constructors; any other name
yields an invalid-argument error whose message enumerates exactly the five
valid names, and no default algorithm is ever substituted. -/
theorem algorithm_factory_create_spec (name : String) :
    (pyLower name ∈ AlgorithmFactory.available_algorithms →
      ∃ k, AlgorithmFactory.create name = Except.ok k ∧
        afind AlgorithmFactory.algorithms (pyLower name) = some k) ∧
    (pyLower name ∉ AlgorithmFactory.available_algorithms →
      AlgorithmFactory.create name = Except.error ("Unknown algorithm: " ++ name ++
        ". Available algorithms: " ++ "bfs, dfs, dijkstra, astar, greedy")) := by
  have hkeys : AlgorithmFactory.available_algorithms =
      AlgorithmFactory.algorithms.map Prod.fst := rfl
  constructor
  · intro hm
    rw [hkeys] at hm
    have hs : (afind AlgorithmFactory.algorithms (pyLower name)).isSome :=
      afind_isSome.mpr hm
    cases hc : afind AlgorithmFactory.algorithms (pyLower name) with
    | none => rw [hc] at hs; simp at hs
    | some k =>
      refine ⟨k, ?_, rfl⟩
      unfold AlgorithmFactory.create
      rw [hc]
  · intro hm
    cases hc : afind AlgorithmFactory.algorithms (pyLower name) with
    | some k =>
      exact absurd (hkeys ▸ afind_isSome.mp (by rw [hc]; rfl)) hm
    | none =>
      unfold AlgorithmFactory.create
      rw [hc]
      rfl

theorem algorithm_factory_create_spec_witness :
    (∃ k, AlgorithmFactory.create "BFS" = Except.ok k ∧
      afind AlgorithmFactory.algorithms (pyLower "BFS") = some k) ∧
    AlgorithmFactory.create "quantum" = Except.error ("Unknown algorithm: " ++
      "quantum" ++ ". Available algorithms: " ++ "bfs, dfs, dijkstra, astar, greedy") :=
  ⟨(algorithm_factory_create_spec "BFS").1 (by decide),
   (algorithm_factory_create_spec "quantum").2 (by decide)⟩

/-! ## The tree generator (claim C9) -/

theorem tgExpand_edges (current : Node) (depth : Nat) (path : List Node) :
    ∀ (ns : List Node) (st : TreeGenState),
      (tgExpand current depth path ns st).tree_edges =
        st.tree_edges ++
          (ns.filter (fun n => decide (¬ n ∈ path))).map (fun n => (current, n))
  | [], st => by simp [tgExpand]
  | n :: ns, st => by
    by_cases h : n ∈ path
    · simp only [tgExpand, if_pos h]
      rw [tgExpand_edges current depth path ns st]
      simp [h]
    · simp only [tgExpand, if_neg h]
      rw [tgExpand_edges current depth path ns _]
      simp [h]

theorem tgExpand_queue (current : Node) (depth : Nat) (path : List Node) :
    ∀ (ns : List Node) (st : TreeGenState),
      (tgExpand current depth path ns st).queue =
        st.queue ++
          (ns.filter (fun n => decide (¬ n ∈ path))).map
            (fun n => (n, depth + 1, path ++ [current]))
  | [], st => by simp [tgExpand]
  | n :: ns, st => by
    by_cases h : n ∈ path
    · simp only [tgExpand, if_pos h]
      rw [tgExpand_queue current depth path ns st]
      simp [h]
    · simp only [tgExpand, if_neg h]
      rw [tgExpand_queue current depth path ns _]
      simp [h]

/-- C9 (amended): when the generator expands a queue entry below the depth
bound, a neighbor is excluded (no edge appended, branch not extended) exactly
when it occurs in the entry's recorded ancestor `path`, the list of strict
ancestors of `current` — a list that does not contain `current` itself on
first reaching it, so a self-loop neighbor is not excluded at that first
expansion; it is excluded one level deeper, once `current` has been appended
to the branch path. -/
theorem tree_generator_excludes_iff (g : Graph) (maxd : Nat) (st : TreeGenState)
    (current : Node) (depth : Nat) (path : List Node)
    (rest : List (Node × Nat × List Node))
    (hq : st.queue = (current, depth, path) :: rest) (hd : depth < maxd) :
    (tgStep g maxd st).tree_edges =
      st.tree_edges ++
        ((adjL g current).filter (fun n => decide (¬ n ∈ path))).map
          (fun n => (current, n)) ∧
    (tgStep g maxd st).queue =
      rest ++
        ((adjL g current).filter (fun n => decide (¬ n ∈ path))).map
          (fun n => (n, depth + 1, path ++ [current])) := by
  have hred : tgStep g maxd st =
      tgExpand current depth path (adjL g current) { st with queue := rest } := by
    unfold tgStep
    rw [hq]
    exact if_neg (by omega)
  rw [hred]
  constructor
  · rw [tgExpand_edges]
  · rw [tgExpand_queue]

theorem tree_generator_excludes_iff_witness :
    (tgStep [("A", ["A", "B"])] 1 (tgInit "A")).tree_edges =
      (tgInit "A").tree_edges ++
        ((adjL [("A", ["A", "B"])] "A").filter
          (fun n => decide (¬ n ∈ ([] : List Node)))).map (fun n => ("A", n)) ∧
    (tgStep [("A", ["A", "B"])] 1 (tgInit "A")).queue =
      [] ++
        ((adjL [("A", ["A", "B"])] "A").filter
          (fun n => decide (¬ n ∈ ([] : List Node)))).map
          (fun n => (n, 0 + 1, [] ++ ["A"])) :=
  tree_generator_excludes_iff [("A", ["A", "B"])] 1 (tgInit "A") "A" 0 [] []
    rfl (by decide)

/-- C9 counterexample: on the one-node graph with a self-loop the generator
adds the edge `A → A` — the self-loop neighbor is *not* treated as an
ancestor on first expansion, contradicting the claim that it is excluded. -/
theorem tree_generator_selfloop_counterexample :
    StateSpaceTreeGenerator.generate [("A", ["A"])] "A" 1 =
      some ⟨[("A", "A")], ["A"], 1⟩ := by decide

/-! ## Dijkstra's relaxation policy (claim C7) -/

/-- C7 (amended): in the relaxation step of `DijkstraSearch.search` for an
unclosed neighbor `n` of `current`, the tentative distance is written (and
the entry pushed) exactly when it strictly improves the best known distance
or the neighbor has no distance yet; the parent pointer and tree edge are
recorded exactly when, in addition, the neighbor has no parent yet.  A
strict improvement for a neighbor that already has a parent updates the
distance but never re-records parent or tree edge. -/
theorem dijkstra_relax_policy (w : List ((Node × Node) × Nat)) (current : Node)
    (curDist : Nat) (path : List Node) (n : Node) (ns : List Node) (st : DijState)
    (hn : ¬ n ∈ st.visitedSet) :
    ∃ st' : DijState,
      dijRelax w current curDist path (n :: ns) st =
        dijRelax w current curDist path ns st' ∧
      ((afind st.distances n = none ∨
          (∃ dn, afind st.distances n = some dn ∧
            curDist + wget w (current, n) < dn)) →
        afind st'.distances n = some (curDist + wget w (current, n)) ∧
        st'.pq = st.pq ++ [(curDist + wget w (current, n), n, path ++ [n])]) ∧
      (¬ (afind st.distances n = none ∨
          (∃ dn, afind st.distances n = some dn ∧
            curDist + wget w (current, n) < dn)) →
        st' = st) ∧
      ((afind st.distances n = none ∨
          (∃ dn, afind st.distances n = some dn ∧
            curDist + wget w (current, n) < dn)) →
        afind st.parent n = none →
        st'.parent = st.parent ++ [(n, some current)] ∧
        st'.tree_edges = st.tree_edges ++ [(current, n)]) ∧
      (afind st.parent n ≠ none →
        st'.parent = st.parent ∧ st'.tree_edges = st.tree_edges) := by
  cases hd : afind st.distances n with
  | none =>
    by_cases hp : (afind st.parent n).isSome
    · refine ⟨{ st with
          distances := dset st.distances n (curDist + wget w (current, n))
          pq := st.pq ++ [(curDist + wget w (current, n), n, path ++ [n])] },
        ?_, ?_, ?_, ?_, ?_⟩
      · simp only [dijRelax, if_neg hn, hd, if_pos hp, if_true]
      · intro _
        exact ⟨afind_dset_self _ _ _, rfl⟩
      · intro h
        exact absurd (Or.inl rfl) h
      · intro _ hpn
        rw [hpn] at hp
        simp at hp
      · intro _
        exact ⟨rfl, rfl⟩
    · refine ⟨{ st with
          parent := st.parent ++ [(n, some current)]
          tree_edges := st.tree_edges ++ [(current, n)]
          distances := dset st.distances n (curDist + wget w (current, n))
          pq := st.pq ++ [(curDist + wget w (current, n), n, path ++ [n])] },
        ?_, ?_, ?_, ?_, ?_⟩
      · simp only [dijRelax, if_neg hn, hd, if_neg hp, if_true]
      · intro _
        exact ⟨afind_dset_self _ _ _, rfl⟩
      · intro h
        exact absurd (Or.inl rfl) h
      · intro _ _
        exact ⟨rfl, rfl⟩
      · intro hpn
        rw [Option.not_isSome_iff_eq_none] at hp
        exact absurd hp hpn
  | some dn =>
    by_cases hlt : curDist + wget w (current, n) < dn
    · by_cases hp : (afind st.parent n).isSome
      · refine ⟨{ st with
            distances := dset st.distances n (curDist + wget w (current, n))
            pq := st.pq ++ [(curDist + wget w (current, n), n, path ++ [n])] },
          ?_, ?_, ?_, ?_, ?_⟩
        · simp only [dijRelax, if_neg hn, hd, if_pos hp, decide_eq_true hlt, if_true]
        · intro _
          exact ⟨afind_dset_self _ _ _, rfl⟩
        · intro h
          exact absurd (Or.inr ⟨dn, rfl, hlt⟩) h
        · intro _ hpn
          rw [hpn] at hp
          simp at hp
        · intro _
          exact ⟨rfl, rfl⟩
      · refine ⟨{ st with
            parent := st.parent ++ [(n, some current)]
            tree_edges := st.tree_edges ++ [(current, n)]
            distances := dset st.distances n (curDist + wget w (current, n))
            pq := st.pq ++ [(curDist + wget w (current, n), n, path ++ [n])] },
          ?_, ?_, ?_, ?_, ?_⟩
        · simp only [dijRelax, if_neg hn, hd, if_neg hp, decide_eq_true hlt, if_true]
        · intro _
          exact ⟨afind_dset_self _ _ _, rfl⟩
        · intro h
          exact absurd (Or.inr ⟨dn, rfl, hlt⟩) h
        · intro _ _
          exact ⟨rfl, rfl⟩
        · intro hpn
          rw [Option.not_isSome_iff_eq_none] at hp
          exact absurd hp hpn
    · refine ⟨st, ?_, ?_, ?_, ?_, ?_⟩
      · simp [dijRelax, hn, hd, hlt]
      · intro h
        rcases h with he | ⟨dn', hsome, hlt'⟩
        · exact absurd he (by simp)
        · injection hsome with hd'
          subst hd'
          exact absurd hlt' hlt
      · intro _
        rfl
      · intro h _
        rcases h with he | ⟨dn', hsome, hlt'⟩
        · exact absurd he (by simp)
        · injection hsome with hd'
          subst hd'
          exact absurd hlt' hlt
      · intro _
        exact ⟨rfl, rfl⟩

/-- Weights of the three-node counterexample graph for C7. -/
def dijC7w : List ((Node × Node) × Nat) :=
  [(("A", "B"), 5), (("A", "C"), 1), (("C", "B"), 1)]

/-- The state of `DijkstraSearch.search` on the graph
`A → [B, C], C → [B]` with weights `dijC7w` just before relaxing the
neighbors of `C` (the second node closed, at distance 1). -/
def dijC7st : DijState :=
  { visited := ["A", "C"], visitedSet := ["A", "C"]
    parent := [("A", none), ("B", some "A"), ("C", some "A")]
    tree_edges := [("A", "B"), ("A", "C")]
    distances := [("A", 0), ("B", 5), ("C", 1)]
    pq := [(5, "B", ["A", "B"])] }

/-- C7 counterexample: in `DijkstraSearch.search` on
`A → B (weight 5), A → C (weight 1), C → B (weight 1)`, relaxing `B` from
`C` strictly improves the best known distance (2 < 5) and updates it, yet
the parent pointer of `B` stays `A` and no tree edge `C → B` is recorded —
the claimed "(re)recorded" behaviour does not happen.  The full search
confirms it: reported distance 2 with parent `B ↦ A`. -/
theorem dijkstra_relax_counterexample :
    (1 + wget dijC7w ("C", "B") < 5) ∧
    afind (dijRelax dijC7w "C" 1 ["A", "C"] ["B"] dijC7st).distances "B" = some 2 ∧
    afind (dijRelax dijC7w "C" 1 ["A", "C"] ["B"] dijC7st).parent "B" =
      some (some "A") ∧
    (dijRelax dijC7w "C" 1 ["A", "C"] ["B"] dijC7st).tree_edges =
      [("A", "B"), ("A", "C")] ∧
    DijkstraSearch.search [("A", ["B", "C"]), ("B", []), ("C", ["B"])] dijC7w
        "A" "B" =
      some ⟨["A", "C", "B"], ["A", "C", "B"], true, "DijkstraSearch",
        [("A", none), ("B", some "A"), ("C", some "A")],
        [("A", "B"), ("A", "C")], [("distance", 2)]⟩ := by decide

theorem dijkstra_relax_policy_witness :
    (¬ "B" ∈ dijC7st.visitedSet) ∧
    ∃ st' : DijState,
      dijRelax dijC7w "C" 1 ["A", "C"] ["B"] dijC7st =
        dijRelax dijC7w "C" 1 ["A", "C"] [] st' ∧
      ((afind dijC7st.distances "B" = none ∨
          (∃ dn, afind dijC7st.distances "B" = some dn ∧
            1 + wget dijC7w ("C", "B") < dn)) →
        afind st'.distances "B" = some (1 + wget dijC7w ("C", "B")) ∧
        st'.pq = dijC7st.pq ++ [(1 + wget dijC7w ("C", "B"), "B", ["A", "C"] ++ ["B"])]) ∧
      (¬ (afind dijC7st.distances "B" = none ∨
          (∃ dn, afind dijC7st.distances "B" = some dn ∧
            1 + wget dijC7w ("C", "B") < dn)) →
        st' = dijC7st) ∧
      ((afind dijC7st.distances "B" = none ∨
          (∃ dn, afind dijC7st.distances "B" = some dn ∧
            1 + wget dijC7w ("C", "B") < dn)) →
        afind dijC7st.parent "B" = none →
        st'.parent = dijC7st.parent ++ [("B", some "C")] ∧
        st'.tree_edges = dijC7st.tree_edges ++ [("C", "B")]) ∧
      (afind dijC7st.parent "B" ≠ none →
        st'.parent = dijC7st.parent ∧ st'.tree_edges = dijC7st.tree_edges) :=
  ⟨by decide, dijkstra_relax_policy dijC7w "C" 1 ["A", "C"] "B" [] dijC7st (by decide)⟩

/-! ## Parent map / tree edge consistency (claim C6)

Every algorithm starts from `parent = {start: None}` and, on first discovery
of a neighbor, appends the parent entry and the tree edge together, so the
parent map is always `(start, none)` followed by one entry per tree edge, in
edge order. -/

def parentConsistent (s : Node) (parent : List (Node × Option Node))
    (edges : List (Node × Node)) : Prop :=
  parent = (s, none) :: edges.map (fun e => (e.2, some e.1)) ∧
  (edges.map Prod.snd).Nodup ∧ ∀ e ∈ edges, e.2 ≠ s

theorem parentConsistent_keys {s parent edges}
    (h : parentConsistent s parent edges) :
    parent.map Prod.fst = s :: edges.map Prod.snd := by
  rw [h.1]
  simp

theorem parentConsistent_extend (s c n : Node)
    {parent : List (Node × Option Node)} {edges : List (Node × Node)}
    (h : parentConsistent s parent edges) (hn : afind parent n = none) :
    parentConsistent s (parent ++ [(n, some c)]) (edges ++ [(c, n)]) := by
  obtain ⟨heq, hnd, hns⟩ := h
  have hkeys : n ∉ parent.map Prod.fst := afind_eq_none.mp hn
  rw [parentConsistent_keys ⟨heq, hnd, hns⟩] at hkeys
  have hns' : n ≠ s := fun e => hkeys (e ▸ List.mem_cons_self s _)
  have hnc : n ∉ edges.map Prod.snd := fun hm => hkeys (List.mem_cons_of_mem s hm)
  refine ⟨by rw [heq]; simp, ?_, ?_⟩
  · simp only [List.map_append]
    refine List.Nodup.append hnd (by simp) ?_
    intro x hx hxn
    simp at hxn
    subst hxn
    exact hnc hx
  · intro e he
    rcases List.mem_append.mp he with he | he
    · exact hns e he
    · simp at he
      subst he
      exact hns'

theorem afind_childMap :
    ∀ {edges : List (Node × Node)} {pc : Node × Node},
      (edges.map Prod.snd).Nodup → pc ∈ edges →
      afind (edges.map (fun e => (e.2, some e.1))) pc.2 = some (some pc.1) := by
  intro edges
  induction edges with
  | nil => intro pc _ hmem; simp at hmem
  | cons e es ih =>
    intro pc hnd hmem
    rw [List.map_cons] at hnd
    have hnd' := List.nodup_cons.mp hnd
    rcases List.mem_cons.mp hmem with rfl | hmem'
    · simp [afind]
    · have hne : pc.2 ≠ e.2 := fun heq2 =>
        hnd'.1 (heq2 ▸ List.mem_map.mpr ⟨pc, hmem', rfl⟩)
      simp only [List.map_cons, afind, if_neg hne]
      exact ih hnd'.2 hmem'

/-- The four consequences of `parentConsistent` that claim C6 asserts. -/
theorem parentConsistent_props {s parent edges}
    (h : parentConsistent s parent edges) :
    afind parent s = some none ∧
    (∀ pc ∈ edges, afind parent pc.2 = some (some pc.1)) ∧
    parent.map Prod.fst = s :: edges.map Prod.snd ∧
    (parent.map Prod.fst).Nodup := by
  obtain ⟨heq, hnd, hns⟩ := h
  refine ⟨by rw [heq]; simp [afind], ?_, parentConsistent_keys ⟨heq, hnd, hns⟩, ?_⟩
  · intro pc hpc
    rw [heq]
    have hcs : ¬ pc.2 = s := hns pc hpc
    simp only [afind, if_neg hcs]
    exact afind_childMap hnd hpc
  · rw [parentConsistent_keys ⟨heq, hnd, hns⟩]
    exact List.nodup_cons.mpr
      ⟨fun hs => by
        obtain ⟨e, he, he2⟩ := List.mem_map.mp hs
        exact hns e he he2, hnd⟩

theorem dfsPush_parent (s c : Node) (path : List Node) :
    ∀ (ns : List Node) (st : DfsState),
      parentConsistent s st.parent st.tree_edges →
      parentConsistent s (dfsPush c path ns st).parent
        (dfsPush c path ns st).tree_edges
  | [], st, h => h
  | n :: ns, st, h => by
    simp only [dfsPush]
    by_cases hv : n ∈ st.visitedSet
    · rw [if_pos hv]
      exact dfsPush_parent s c path ns st h
    · rw [if_neg hv]
      by_cases hp : (afind st.parent n).isSome
      · rw [if_pos hp]
        exact dfsPush_parent s c path ns _ h
      · rw [if_neg hp]
        rw [Option.not_isSome_iff_eq_none] at hp
        exact dfsPush_parent s c path ns _ (parentConsistent_extend s c n h hp)

theorem dijRelax_parent (s : Node) (w : List ((Node × Node) × Nat)) (c : Node)
    (d : Nat) (path : List Node) :
    ∀ (ns : List Node) (st : DijState),
      parentConsistent s st.parent st.tree_edges →
      parentConsistent s (dijRelax w c d path ns st).parent
        (dijRelax w c d path ns st).tree_edges
  | [], st, h => h
  | n :: ns, st, h => by
    by_cases hv : n ∈ st.visitedSet
    · simp only [dijRelax, if_pos hv]
      exact dijRelax_parent s w c d path ns st h
    · cases hd : afind st.distances n with
      | none =>
        by_cases hp : (afind st.parent n).isSome
        · simp only [dijRelax, if_neg hv, hd, if_pos hp, if_true]
          exact dijRelax_parent s w c d path ns _ h
        · simp only [dijRelax, if_neg hv, hd, if_neg hp, if_true]
          rw [Option.not_isSome_iff_eq_none] at hp
          exact dijRelax_parent s w c d path ns _
            (parentConsistent_extend s c n h hp)
      | some dn =>
        by_cases hlt : d + wget w (c, n) < dn
        · by_cases hp : (afind st.parent n).isSome
          · simp only [dijRelax, if_neg hv, hd, decide_eq_true hlt, if_pos hp,
              if_true]
            exact dijRelax_parent s w c d path ns _ h
          · simp only [dijRelax, if_neg hv, hd, decide_eq_true hlt, if_neg hp,
              if_true]
            rw [Option.not_isSome_iff_eq_none] at hp
            exact dijRelax_parent s w c d path ns _
              (parentConsistent_extend s c n h hp)
        · simp only [dijRelax, if_neg hv, hd, decide_eq_false hlt,
            Bool.false_eq_true, if_false]
          exact dijRelax_parent s w c d path ns st h

theorem astRelax_parent (s : Node) (w : List ((Node × Node) × Nat))
    (h : List (Node × Nat)) (c : Node) (path : List Node) :
    ∀ (ns : List Node) (st : AstState),
      parentConsistent s st.parent st.tree_edges →
      parentConsistent s (astRelax w h c path ns st).parent
        (astRelax w h c path ns st).tree_edges
  | [], st, hc => hc
  | n :: ns, st, hc => by
    by_cases hv : n ∈ st.visitedSet
    · simp only [astRelax, if_pos hv]
      exact astRelax_parent s w h c path ns st hc
    · cases hd : afind st.g_score n with
      | none =>
        by_cases hp : (afind st.parent n).isSome
        · simp only [astRelax, if_neg hv, hd, if_pos hp, if_true]
          exact astRelax_parent s w h c path ns _ hc
        · simp only [astRelax, if_neg hv, hd, if_neg hp, if_true]
          rw [Option.not_isSome_iff_eq_none] at hp
          exact astRelax_parent s w h c path ns _
            (parentConsistent_extend s c n hc hp)
      | some gn =>
        by_cases hlt : (afind st.g_score c).getD 0 + wget w (c, n) < gn
        · by_cases hp : (afind st.parent n).isSome
          · simp only [astRelax, if_neg hv, hd, decide_eq_true hlt, if_pos hp,
              if_true]
            exact astRelax_parent s w h c path ns _ hc
          · simp only [astRelax, if_neg hv, hd, decide_eq_true hlt, if_neg hp,
              if_true]
            rw [Option.not_isSome_iff_eq_none] at hp
            exact astRelax_parent s w h c path ns _
              (parentConsistent_extend s c n hc hp)
        · simp only [astRelax, if_neg hv, hd, decide_eq_false hlt,
            Bool.false_eq_true, if_false]
          exact astRelax_parent s w h c path ns st hc

theorem greedyPush_parent (s : Node) (h : List (Node × Nat)) (c : Node)
    (path : List Node) :
    ∀ (ns : List Node) (st : GreedyState),
      parentConsistent s st.parent st.tree_edges →
      parentConsistent s (greedyPush h c path ns st).parent
        (greedyPush h c path ns st).tree_edges
  | [], st, hc => hc
  | n :: ns, st, hc => by
    simp only [greedyPush]
    by_cases hv : n ∈ st.visitedSet
    · rw [if_pos hv]
      exact greedyPush_parent s h c path ns st hc
    · rw [if_neg hv]
      by_cases hp : (afind st.parent n).isSome
      · rw [if_pos hp]
        exact greedyPush_parent s h c path ns _ hc
      · rw [if_neg hp]
        rw [Option.not_isSome_iff_eq_none] at hp
        exact greedyPush_parent s h c path ns _
          (parentConsistent_extend s c n hc hp)

/-- The BFS discovery loop needs the extra invariant that all parent keys are
already discovered (true throughout BFS), since its guard is membership in
`visited_set` rather than in `parent`. -/
def bfsPInv (s : Node) (st : BfsState) : Prop :=
  parentConsistent s st.parent st.tree_edges ∧
  (∀ k ∈ st.parent.map Prod.fst, k ∈ st.visitedSet)

theorem bfsDiscover_pinv (s c : Node) (path : List Node) (d : Nat) :
    ∀ (ns : List Node) (st : BfsState),
      bfsPInv s st → bfsPInv s (bfsDiscover c path d ns st)
  | [], st, h => h
  | n :: ns, st, h => by
    obtain ⟨hc, hkeys⟩ := h
    simp only [bfsDiscover]
    by_cases hv : n ∈ st.visitedSet
    · rw [if_pos hv]
      exact bfsDiscover_pinv s c path d ns st ⟨hc, hkeys⟩
    · rw [if_neg hv]
      have hnone : afind st.parent n = none := by
        rw [afind_eq_none]
        intro hmem
        exact hv (hkeys n hmem)
      refine bfsDiscover_pinv s c path d ns _ ⟨?_, ?_⟩
      · rw [dset_of_none hnone]
        exact parentConsistent_extend s c n hc hnone
      · rw [dset_of_none hnone]
        intro k hk
        simp at hk
        rcases hk with hk | hk
        · simp [hkeys k (List.mem_map.mpr (by
            obtain ⟨v, hv'⟩ := hk
            exact ⟨(k, v), hv', rfl⟩))]
        · simp [hk]

theorem bfsLoop_parent (g : Graph) (goal s : Node) :
    ∀ (fuel : Nat) (st : BfsState) (r : SearchResult), bfsPInv s st →
      bfsLoop g goal fuel st = some r →
      parentConsistent s r.parent r.tree_edges
  | 0, st, r, _, h => by simp [bfsLoop] at h
  | fuel + 1, st, r, hinv, h => by
    cases hq : st.queue with
    | nil =>
      simp only [bfsLoop, hq] at h
      injection h with h'
      subst h'
      exact hinv.1
    | cons e rest =>
      obtain ⟨current, path, depth⟩ := e
      simp only [bfsLoop, hq] at h
      have hinv2 := bfsDiscover_pinv s current path (depth + 1) (adjL g current)
        { visited := if current ∈ st.visited then st.visited
                     else st.visited ++ [current]
          visitedSet := st.visitedSet, parent := st.parent
          tree_edges := st.tree_edges, queue := rest } hinv
      by_cases hg : current = goal
      · rw [if_pos hg] at h
        injection h with h'
        subst h'
        exact hinv2.1
      · rw [if_neg hg] at h
        exact bfsLoop_parent g goal s fuel _ r hinv2 h

theorem dfsLoop_parent (g : Graph) (goal s : Node) :
    ∀ (fuel : Nat) (st : DfsState) (r : SearchResult),
      parentConsistent s st.parent st.tree_edges →
      dfsLoop g goal fuel st = some r →
      parentConsistent s r.parent r.tree_edges
  | 0, st, r, _, h => by simp [dfsLoop] at h
  | fuel + 1, st, r, hinv, h => by
    cases hq : st.stack with
    | nil =>
      simp only [dfsLoop, hq] at h
      injection h with h'
      subst h'
      exact hinv
    | cons e rest =>
      obtain ⟨current, path⟩ := e
      simp only [dfsLoop, hq] at h
      by_cases hv : current ∈ st.visitedSet
      · rw [if_pos hv] at h
        exact dfsLoop_parent g goal s fuel _ r (by exact hinv) h
      · rw [if_neg hv] at h
        by_cases hg : current = goal
        · rw [if_pos hg] at h
          injection h with h'
          subst h'
          exact hinv
        · rw [if_neg hg] at h
          exact dfsLoop_parent g goal s fuel _ r
            (by exact dfsPush_parent s current path (adjL g current).reverse _ hinv) h

theorem dijLoop_parent (g : Graph) (w : List ((Node × Node) × Nat))
    (goal s : Node) :
    ∀ (fuel : Nat) (st : DijState) (r : SearchResult),
      parentConsistent s st.parent st.tree_edges →
      dijLoop g w goal fuel st = some r →
      parentConsistent s r.parent r.tree_edges
  | 0, st, r, _, h => by simp [dijLoop] at h
  | fuel + 1, st, r, hinv, h => by
    cases hpq : popMin st.pq with
    | none =>
      simp only [dijLoop, hpq] at h
      injection h with h'
      subst h'
      exact hinv
    | some p =>
      obtain ⟨⟨curDist, current, path⟩, rest⟩ := p
      simp only [dijLoop, hpq] at h
      by_cases hv : current ∈ st.visitedSet
      · rw [if_pos hv] at h
        exact dijLoop_parent g w goal s fuel _ r (by exact hinv) h
      · rw [if_neg hv] at h
        by_cases hg : current = goal
        · rw [if_pos hg] at h
          injection h with h'
          subst h'
          exact hinv
        · rw [if_neg hg] at h
          exact dijLoop_parent g w goal s fuel _ r
            (by exact dijRelax_parent s w current curDist path (adjL g current) _ hinv) h

theorem astLoop_parent (g : Graph) (w : List ((Node × Node) × Nat))
    (hh : List (Node × Nat)) (goal s : Node) :
    ∀ (fuel : Nat) (st : AstState) (r : SearchResult),
      parentConsistent s st.parent st.tree_edges →
      astLoop g w hh goal fuel st = some r →
      parentConsistent s r.parent r.tree_edges
  | 0, st, r, _, h => by simp [astLoop] at h
  | fuel + 1, st, r, hinv, h => by
    cases hpq : popMin st.pq with
    | none =>
      simp only [astLoop, hpq] at h
      injection h with h'
      subst h'
      exact hinv
    | some p =>
      obtain ⟨⟨curF, current, path⟩, rest⟩ := p
      simp only [astLoop, hpq] at h
      by_cases hv : current ∈ st.visitedSet
      · rw [if_pos hv] at h
        exact astLoop_parent g w hh goal s fuel _ r (by exact hinv) h
      · rw [if_neg hv] at h
        by_cases hg : current = goal
        · rw [if_pos hg] at h
          injection h with h'
          subst h'
          exact hinv
        · rw [if_neg hg] at h
          exact astLoop_parent g w hh goal s fuel _ r
            (by exact astRelax_parent s w hh current path (adjL g current) _ hinv) h

theorem greedyLoop_parent (g : Graph) (hh : List (Node × Nat)) (goal s : Node) :
    ∀ (fuel : Nat) (st : GreedyState) (r : SearchResult),
      parentConsistent s st.parent st.tree_edges →
      greedyLoop g hh goal fuel st = some r →
      parentConsistent s r.parent r.tree_edges
  | 0, st, r, _, h => by simp [greedyLoop] at h
  | fuel + 1, st, r, hinv, h => by
    cases hpq : popMin st.pq with
    | none =>
      simp only [greedyLoop, hpq] at h
      injection h with h'
      subst h'
      exact hinv
    | some p =>
      obtain ⟨⟨curH, current, path⟩, rest⟩ := p
      simp only [greedyLoop, hpq] at h
      by_cases hv : current ∈ st.visitedSet
      · rw [if_pos hv] at h
        exact greedyLoop_parent g hh goal s fuel _ r (by exact hinv) h
      · rw [if_neg hv] at h
        by_cases hg : current = goal
        · rw [if_pos hg] at h
          injection h with h'
          subst h'
          exact hinv
        · rw [if_neg hg] at h
          exact greedyLoop_parent g hh goal s fuel _ r
            (by exact greedyPush_parent s hh current path (adjL g current) _ hinv) h

/-- The consequences claim C6 asserts of a returned `SearchResult`. -/
def resultParentOk (s : Node) (o : Option SearchResult) : Prop :=
  ∀ r, o = some r →
    afind r.parent s = some none ∧
    (∀ pc ∈ r.tree_edges, afind r.parent pc.2 = some (some pc.1)) ∧
    r.parent.map Prod.fst = s :: r.tree_edges.map Prod.snd ∧
    (r.parent.map Prod.fst).Nodup

theorem parentConsistent_init (s : Node) :
    parentConsistent s [(s, none)] [] := ⟨rfl, List.nodup_nil, by simp⟩

/-- C6: for every algorithm and input, the returned result's parent map sends
start to none, agrees with every tree edge (`parent[c] = p` for each edge
`(p, c)`), and its keys are exactly `start` followed by the tree-edge
children in discovery order, with no key repeated. -/
theorem search_parent_tree_consistent (g : Graph)
    (w : List ((Node × Node) × Nat)) (h : List (Node × Nat)) (s t : Node) :
    resultParentOk s (BreadthFirstSearch.search g s t) ∧
    resultParentOk s (DepthFirstSearch.search g s t) ∧
    resultParentOk s (DijkstraSearch.search g w s t) ∧
    resultParentOk s (AStarSearch.search g w h s t) ∧
    resultParentOk s (GreedyBestFirstSearch.search g h s t) := by
  refine ⟨?_, ?_, ?_, ?_, ?_⟩
  · intro r hr
    exact parentConsistent_props
      (bfsLoop_parent g t s _ _ r ⟨parentConsistent_init s, by simp [bfsInit]⟩ hr)
  · intro r hr
    exact parentConsistent_props
      (dfsLoop_parent g t s _ _ r (parentConsistent_init s) hr)
  · intro r hr
    exact parentConsistent_props
      (dijLoop_parent g w t s _ _ r (parentConsistent_init s) hr)
  · intro r hr
    exact parentConsistent_props
      (astLoop_parent g w h t s _ _ r (parentConsistent_init s) hr)
  · intro r hr
    exact parentConsistent_props
      (greedyLoop_parent g h t s _ _ r (parentConsistent_init s) hr)

/-- The BFS result on the one-edge graph `A → B`. -/
def bfsC6r : SearchResult :=
  ⟨["A", "B"], ["A", "B"], true, "BreadthFirstSearch",
    [("A", none), ("B", some "A")], [("A", "B")], []⟩

theorem search_parent_tree_consistent_witness :
    afind bfsC6r.parent "A" = some none ∧
    (∀ pc ∈ bfsC6r.tree_edges, afind bfsC6r.parent pc.2 = some (some pc.1)) ∧
    bfsC6r.parent.map Prod.fst = "A" :: bfsC6r.tree_edges.map Prod.snd ∧
    (bfsC6r.parent.map Prod.fst).Nodup :=
  (search_parent_tree_consistent [("A", ["B"])] [] [] "A" "B").1 bfsC6r (by decide)

/-! ## Termination: fuel bounds are sufficient (claim C10 and others) -/

theorem adjL_subset_nodesOf (g : Graph) (s v : Node) :
    ∀ n ∈ adjL g v, n ∈ nodesOf g s := by
  intro n hn
  unfold adjL at hn
  cases hf : afind g v with
  | none => rw [hf] at hn; simp at hn
  | some l =>
    rw [hf] at hn
    simp at hn
    have hmem : (v, l) ∈ g := afind_mem hf
    unfold nodesOf
    rw [List.mem_dedup]
    refine List.mem_cons_of_mem s ?_
    rw [List.mem_flatMap]
    exact ⟨(v, l), hmem, List.mem_cons_of_mem v hn⟩

theorem adjL_length_le (g : Graph) (v : Node) :
    (adjL g v).length ≤ totalAdj g := by
  unfold adjL
  cases hf : afind g v with
  | none => simp
  | some l =>
    simp only [Option.getD_some]
    have hmem : (v, l) ∈ g := afind_mem hf
    unfold totalAdj
    have : l.length ∈ g.map (fun kv => kv.2.length) :=
      List.mem_map.mpr ⟨(v, l), hmem, rfl⟩
    exact List.le_sum_of_mem this

/-- Number of universe nodes not yet discovered. -/
def undisc (g : Graph) (s : Node) (vs : List Node) : Nat :=
  ((nodesOf g s).filter (fun v => decide (¬ v ∈ vs))).length

theorem undisc_le (g : Graph) (s : Node) (vs : List Node) :
    undisc g s vs ≤ (nodesOf g s).length :=
  List.length_filter_le _ _

theorem filter_out_one :
    ∀ (l : List Node), l.Nodup → ∀ (vs : List Node) (x : Node), x ∈ l →
      ¬ x ∈ vs →
      (l.filter (fun v => decide (¬ v ∈ vs ++ [x]))).length + 1 =
        (l.filter (fun v => decide (¬ v ∈ vs))).length
  | [], _, vs, x, hx, _ => by simp at hx
  | a :: as, hnd, vs, x, hx, hnvs => by
    have hnd' := List.nodup_cons.mp hnd
    rcases List.mem_cons.mp hx with rfl | hx'
    · simp only [List.filter_cons]
      rw [if_neg (by simp), if_pos (by simpa using hnvs)]
      have hcongr : as.filter (fun v => decide (¬ v ∈ vs ++ [x])) =
          as.filter (fun v => decide (¬ v ∈ vs)) := by
        apply List.filter_congr
        intro v hv
        have hne : v ≠ x := fun e => hnd'.1 (e ▸ hv)
        simp [hne]
      rw [hcongr]
      simp
    · have hax : (decide (¬ a ∈ vs ++ [x])) = (decide (¬ a ∈ vs)) := by
        have hne : a ≠ x := fun e => hnd'.1 (e ▸ hx')
        simp [hne]
      simp only [List.filter_cons, hax]
      by_cases ha : a ∉ vs
      · have hc : decide (a ∉ vs) = true := by simpa using ha
        rw [if_pos hc, if_pos hc]
        simp only [List.length_cons]
        have := filter_out_one as hnd'.2 vs x hx' hnvs
        omega
      · have hc : ¬ (decide (a ∉ vs) = true) := by simpa using ha
        rw [if_neg hc, if_neg hc]
        exact filter_out_one as hnd'.2 vs x hx' hnvs

theorem nodesOf_nodup (g : Graph) (s : Node) : (nodesOf g s).Nodup :=
  List.nodup_dedup _

theorem undisc_add (g : Graph) (s : Node) (vs : List Node) (x : Node)
    (hx : x ∈ nodesOf g s) (hnx : ¬ x ∈ vs) :
    undisc g s (vs ++ [x]) + 1 = undisc g s vs :=
  filter_out_one (nodesOf g s) (nodesOf_nodup g s) vs x hx hnx

theorem undisc_pos (g : Graph) (s : Node) (vs : List Node) (x : Node)
    (hx : x ∈ nodesOf g s) (hnx : ¬ x ∈ vs) : 0 < undisc g s vs := by
  have := undisc_add g s vs x hx hnx
  omega

theorem bfsDiscover_measure (g : Graph) (s c : Node) (path : List Node)
    (d : Nat) :
    ∀ (ns : List Node) (st : BfsState), (∀ n ∈ ns, n ∈ nodesOf g s) →
      undisc g s (bfsDiscover c path d ns st).visitedSet +
          (bfsDiscover c path d ns st).queue.length =
        undisc g s st.visitedSet + st.queue.length
  | [], st, _ => rfl
  | n :: ns, st, hns => by
    simp only [bfsDiscover]
    by_cases hv : n ∈ st.visitedSet
    · rw [if_pos hv]
      exact bfsDiscover_measure g s c path d ns st (fun m hm => hns m (by simp [hm]))
    · rw [if_neg hv]
      rw [bfsDiscover_measure g s c path d ns _ (fun m hm => hns m (by simp [hm]))]
      simp only [List.length_append, List.length_cons, List.length_nil]
      have := undisc_add g s st.visitedSet n (hns n (by simp)) hv
      omega

theorem bfsLoop_some (g : Graph) (goal s : Node) :
    ∀ (fuel : Nat) (st : BfsState),
      undisc g s st.visitedSet + st.queue.length < fuel →
      ∃ r, bfsLoop g goal fuel st = some r
  | 0, st, hf => by omega
  | fuel + 1, st, hf => by
    cases hq : st.queue with
    | nil => exact ⟨_, by simp only [bfsLoop, hq]; rfl⟩
    | cons e rest =>
      obtain ⟨current, path, depth⟩ := e
      by_cases hg : current = goal
      · exact ⟨_, by simp only [bfsLoop, hq, if_pos hg]; rfl⟩
      · have hm := bfsDiscover_measure g s current path (depth + 1)
          (adjL g current)
          { st with
            queue := rest
            visited := if current ∈ st.visited then st.visited
                       else st.visited ++ [current] }
          (adjL_subset_nodesOf g s current)
        rw [hq] at hf
        simp only [List.length_cons] at hf
        have hlt : undisc g s (bfsDiscover current path (depth + 1)
            (adjL g current)
            { st with
              queue := rest
              visited := if current ∈ st.visited then st.visited
                         else st.visited ++ [current] }).visitedSet +
            (bfsDiscover current path (depth + 1) (adjL g current)
              { st with
                queue := rest
                visited := if current ∈ st.visited then st.visited
                           else st.visited ++ [current] }).queue.length < fuel := by
          rw [hm]
          show undisc g s st.visitedSet + rest.length < fuel
          omega
        obtain ⟨r, hr⟩ := bfsLoop_some g goal s fuel _ hlt
        exact ⟨r, by simp only [bfsLoop, hq, if_neg hg]; exact hr⟩

theorem bfs_search_some (g : Graph) (s t : Node) :
    ∃ r, BreadthFirstSearch.search g s t = some r := by
  apply bfsLoop_some g t s
  have h1 := undisc_le g s (bfsInit s).visitedSet
  simp only [bfsInit] at h1
  show undisc g s [s] + 1 < (nodesOf g s).length + 2
  omega

theorem dfsPush_visitedSet (c : Node) (path : List Node) :
    ∀ (ns : List Node) (st : DfsState),
      (dfsPush c path ns st).visitedSet = st.visitedSet
  | [], _ => rfl
  | n :: ns, st => by
    simp only [dfsPush]
    by_cases hv : n ∈ st.visitedSet
    · rw [if_pos hv]
      exact dfsPush_visitedSet c path ns st
    · rw [if_neg hv]
      by_cases hp : (afind st.parent n).isSome
      · rw [if_pos hp, dfsPush_visitedSet c path ns _]
      · rw [if_neg hp, dfsPush_visitedSet c path ns _]

theorem dfsPush_stack_len (c : Node) (path : List Node) :
    ∀ (ns : List Node) (st : DfsState),
      (dfsPush c path ns st).stack.length ≤ st.stack.length + ns.length
  | [], _ => Nat.le_refl _
  | n :: ns, st => by
    simp only [dfsPush]
    by_cases hv : n ∈ st.visitedSet
    · rw [if_pos hv]
      have := dfsPush_stack_len c path ns st
      simp only [List.length_cons]
      omega
    · rw [if_neg hv]
      by_cases hp : (afind st.parent n).isSome
      · rw [if_pos hp]
        have := dfsPush_stack_len c path ns
          { st with stack := (n, path ++ [n]) :: st.stack }
        simp only [List.length_cons] at this ⊢
        omega
      · rw [if_neg hp]
        have := dfsPush_stack_len c path ns
          { st with
            parent := st.parent ++ [(n, some c)]
            tree_edges := st.tree_edges ++ [(c, n)]
            stack := (n, path ++ [n]) :: st.stack }
        simp only [List.length_cons] at this ⊢
        omega

theorem dfsPush_frontier (g : Graph) (s c : Node) (path : List Node) :
    ∀ (ns : List Node) (st : DfsState),
      (∀ e ∈ st.stack, e.1 ∈ nodesOf g s) → (∀ n ∈ ns, n ∈ nodesOf g s) →
      ∀ e ∈ (dfsPush c path ns st).stack, e.1 ∈ nodesOf g s
  | [], st, hst, _ => hst
  | n :: ns, st, hst, hns => by
    simp only [dfsPush]
    by_cases hv : n ∈ st.visitedSet
    · rw [if_pos hv]
      exact dfsPush_frontier g s c path ns st hst
        (fun m hm => hns m (by simp [hm]))
    · rw [if_neg hv]
      have hstack : ∀ e ∈ (n, path ++ [n]) :: st.stack, e.1 ∈ nodesOf g s := by
        intro e he
        rcases List.mem_cons.mp he with rfl | he'
        · exact hns n (by simp)
        · exact hst e he'
      by_cases hp : (afind st.parent n).isSome
      · rw [if_pos hp]
        exact dfsPush_frontier g s c path ns _ hstack
          (fun m hm => hns m (by simp [hm]))
      · rw [if_neg hp]
        exact dfsPush_frontier g s c path ns _ hstack
          (fun m hm => hns m (by simp [hm]))

theorem dfsLoop_some (g : Graph) (goal s : Node) :
    ∀ (fuel : Nat) (st : DfsState),
      (∀ e ∈ st.stack, e.1 ∈ nodesOf g s) →
      undisc g s st.visitedSet * (totalAdj g + 2) + st.stack.length < fuel →
      ∃ r, dfsLoop g goal fuel st = some r
  | 0, st, _, hf => by omega
  | fuel + 1, st, hfr, hf => by
    cases hq : st.stack with
    | nil => exact ⟨_, by simp only [dfsLoop, hq]; rfl⟩
    | cons e rest =>
      obtain ⟨current, path⟩ := e
      rw [hq] at hf
      simp only [List.length_cons] at hf
      by_cases hv : current ∈ st.visitedSet
      · have hfr' : ∀ e ∈ rest, (e : Node × List Node).1 ∈ nodesOf g s :=
          fun e he => hfr e (by rw [hq]; exact List.mem_cons_of_mem _ he)
        obtain ⟨r, hr⟩ := dfsLoop_some g goal s fuel { st with stack := rest }
          hfr' (by show undisc g s st.visitedSet * (totalAdj g + 2) +
            rest.length < fuel; omega)
        exact ⟨r, by simp only [dfsLoop, hq, if_pos hv]; exact hr⟩
      · by_cases hg : current = goal
        · exact ⟨_, by simp only [dfsLoop, hq, if_neg hv, if_pos hg]; rfl⟩
        · have hcur : current ∈ nodesOf g s :=
            hfr (current, path) (by rw [hq]; simp)
          have heq := undisc_add g s st.visitedSet current hcur hv
          have hexp : undisc g s st.visitedSet * (totalAdj g + 2) =
              undisc g s (st.visitedSet ++ [current]) * (totalAdj g + 2) +
                (totalAdj g + 2) := by
            rw [← heq, Nat.add_mul, Nat.one_mul]
          have hlen := dfsPush_stack_len current path (adjL g current).reverse
            { st with
              stack := rest
              visitedSet := st.visitedSet ++ [current]
              visited := st.visited ++ [current] }
          have hrevlen : (adjL g current).reverse.length ≤ totalAdj g := by
            rw [List.length_reverse]
            exact adjL_length_le g current
          have hvs := dfsPush_visitedSet current path (adjL g current).reverse
            { st with
              stack := rest
              visitedSet := st.visitedSet ++ [current]
              visited := st.visited ++ [current] }
          have hfr2 : ∀ e ∈ (dfsPush current path (adjL g current).reverse
              { st with
                stack := rest
                visitedSet := st.visitedSet ++ [current]
                visited := st.visited ++ [current] }).stack,
              (e : Node × List Node).1 ∈ nodesOf g s := by
            refine dfsPush_frontier g s current path (adjL g current).reverse _
              ?_ ?_
            · intro e he
              exact hfr e (by rw [hq]; exact List.mem_cons_of_mem _ he)
            · intro n hn
              exact adjL_subset_nodesOf g s current n (List.mem_reverse.mp hn)
          obtain ⟨r, hr⟩ := dfsLoop_some g goal s fuel _ hfr2 (by
            rw [hvs]
            show undisc g s (st.visitedSet ++ [current]) * (totalAdj g + 2) +
              (dfsPush current path (adjL g current).reverse
                { st with
                  stack := rest
                  visitedSet := st.visitedSet ++ [current]
                  visited := st.visited ++ [current] }).stack.length < fuel
            have hstl : (dfsPush current path (adjL g current).reverse
                { st with
                  stack := rest
                  visitedSet := st.visitedSet ++ [current]
                  visited := st.visited ++ [current] }).stack.length ≤
                rest.length + totalAdj g := by
              refine le_trans hlen ?_
              show rest.length + (adjL g current).reverse.length ≤
                rest.length + totalAdj g
              omega
            omega)
          exact ⟨r, by simp only [dfsLoop, hq, if_neg hv, if_neg hg]; exact hr⟩

theorem dfs_search_some (g : Graph) (s t : Node) :
    ∃ r, DepthFirstSearch.search g s t = some r := by
  apply dfsLoop_some g t s
  · intro e he
    simp only [dfsInit] at he
    simp at he
    subst he
    show s ∈ nodesOf g s
    unfold nodesOf
    rw [List.mem_dedup]
    exact List.mem_cons_self _ _
  · have h1 := undisc_le g s (dfsInit s).visitedSet
    simp only [dfsInit] at h1
    show undisc g s [] * (totalAdj g + 2) + 1 <
      (totalAdj g + 2) * ((nodesOf g s).length + 1)
    have h2 : undisc g s [] * (totalAdj g + 2) ≤
        (nodesOf g s).length * (totalAdj g + 2) :=
      Nat.mul_le_mul_right _ h1
    have h3 : (totalAdj g + 2) * ((nodesOf g s).length + 1) =
        (nodesOf g s).length * (totalAdj g + 2) + (totalAdj g + 2) := by ring
    omega

theorem dijRelax_shape (w : List ((Node × Node) × Nat)) (c : Node) (d : Nat)
    (path : List Node) :
    ∀ (ns : List Node) (st : DijState),
      (dijRelax w c d path ns st).visitedSet = st.visitedSet ∧
      (dijRelax w c d path ns st).pq.length ≤ st.pq.length + ns.length ∧
      (∀ e ∈ (dijRelax w c d path ns st).pq, e ∈ st.pq ∨
        ∃ n, n ∈ ns ∧ e = (d + wget w (c, n), n, path ++ [n]))
  | [], st => ⟨rfl, Nat.le_refl _, fun e he => Or.inl he⟩
  | n :: ns, st => by
    by_cases hv : n ∈ st.visitedSet
    · simp only [dijRelax, if_pos hv]
      obtain ⟨h1, h2, h3⟩ := dijRelax_shape w c d path ns st
      refine ⟨h1, by simp only [List.length_cons]; omega, ?_⟩
      intro e he
      rcases h3 e he with he' | ⟨m, hm, he'⟩
      · exact Or.inl he'
      · exact Or.inr ⟨m, by simp [hm], he'⟩
    · have hstep : ∀ (st' : DijState), st'.visitedSet = st.visitedSet →
          st'.pq.length ≤ st.pq.length + 1 →
          (∀ e ∈ st'.pq, e ∈ st.pq ∨ e = (d + wget w (c, n), n, path ++ [n])) →
          (dijRelax w c d path ns st').visitedSet = st.visitedSet ∧
          (dijRelax w c d path ns st').pq.length ≤
            st.pq.length + (n :: ns).length ∧
          (∀ e ∈ (dijRelax w c d path ns st').pq, e ∈ st.pq ∨
            ∃ m, m ∈ n :: ns ∧ e = (d + wget w (c, m), m, path ++ [m])) := by
        intro st' hvs hlen hmem
        obtain ⟨h1, h2, h3⟩ := dijRelax_shape w c d path ns st'
        refine ⟨h1.trans hvs, ?_, ?_⟩
        · simp only [List.length_cons]
          omega
        · intro e he
          rcases h3 e he with he' | ⟨m, hm, he'⟩
          · rcases hmem e he' with he'' | he''
            · exact Or.inl he''
            · exact Or.inr ⟨n, by simp, he''⟩
          · exact Or.inr ⟨m, by simp [hm], he'⟩
      cases hd : afind st.distances n with
      | none =>
        by_cases hp : (afind st.parent n).isSome
        · simp only [dijRelax, if_neg hv, hd, if_pos hp, if_true]
          refine hstep _ rfl (by simp) ?_
          intro e he
          rcases List.mem_append.mp he with he' | he'
          · exact Or.inl he'
          · simp at he'
            exact Or.inr he'
        · simp only [dijRelax, if_neg hv, hd, if_neg hp, if_true]
          refine hstep _ rfl (by simp) ?_
          intro e he
          rcases List.mem_append.mp he with he' | he'
          · exact Or.inl he'
          · simp at he'
            exact Or.inr he'
      | some dn =>
        by_cases hlt : d + wget w (c, n) < dn
        · by_cases hp : (afind st.parent n).isSome
          · simp only [dijRelax, if_neg hv, hd, decide_eq_true hlt, if_pos hp,
              if_true]
            refine hstep _ rfl (by simp) ?_
            intro e he
            rcases List.mem_append.mp he with he' | he'
            · exact Or.inl he'
            · simp at he'
              exact Or.inr he'
          · simp only [dijRelax, if_neg hv, hd, decide_eq_true hlt, if_neg hp,
              if_true]
            refine hstep _ rfl (by simp) ?_
            intro e he
            rcases List.mem_append.mp he with he' | he'
            · exact Or.inl he'
            · simp at he'
              exact Or.inr he'
        · simp only [dijRelax, if_neg hv, hd, decide_eq_false hlt,
            Bool.false_eq_true, if_false]
          exact hstep st rfl (by omega) (fun e he => Or.inl he)

theorem astRelax_shape (w : List ((Node × Node) × Nat)) (h : List (Node × Nat))
    (c : Node) (path : List Node) :
    ∀ (ns : List Node) (st : AstState),
      (astRelax w h c path ns st).visitedSet = st.visitedSet ∧
      (astRelax w h c path ns st).pq.length ≤ st.pq.length + ns.length ∧
      (∀ e ∈ (astRelax w h c path ns st).pq, e ∈ st.pq ∨
        ∃ n k, n ∈ ns ∧ e = (k, n, path ++ [n]))
  | [], st => ⟨rfl, Nat.le_refl _, fun e he => Or.inl he⟩
  | n :: ns, st => by
    by_cases hv : n ∈ st.visitedSet
    · simp only [astRelax, if_pos hv]
      obtain ⟨h1, h2, h3⟩ := astRelax_shape w h c path ns st
      refine ⟨h1, by simp only [List.length_cons]; omega, ?_⟩
      intro e he
      rcases h3 e he with he' | ⟨m, k, hm, he'⟩
      · exact Or.inl he'
      · exact Or.inr ⟨m, k, by simp [hm], he'⟩
    · have hstep : ∀ (st' : AstState), st'.visitedSet = st.visitedSet →
          st'.pq.length ≤ st.pq.length + 1 →
          (∀ e ∈ st'.pq, e ∈ st.pq ∨ ∃ k, e = (k, n, path ++ [n])) →
          (astRelax w h c path ns st').visitedSet = st.visitedSet ∧
          (astRelax w h c path ns st').pq.length ≤
            st.pq.length + (n :: ns).length ∧
          (∀ e ∈ (astRelax w h c path ns st').pq, e ∈ st.pq ∨
            ∃ m k, m ∈ n :: ns ∧ e = (k, m, path ++ [m])) := by
        intro st' hvs hlen hmem
        obtain ⟨h1, h2, h3⟩ := astRelax_shape w h c path ns st'
        refine ⟨h1.trans hvs, ?_, ?_⟩
        · simp only [List.length_cons]
          omega
        · intro e he
          rcases h3 e he with he' | ⟨m, k, hm, he'⟩
          · rcases hmem e he' with he'' | ⟨k, he''⟩
            · exact Or.inl he''
            · exact Or.inr ⟨n, k, by simp, he''⟩
          · exact Or.inr ⟨m, k, by simp [hm], he'⟩
      cases hd : afind st.g_score n with
      | none =>
        by_cases hp : (afind st.parent n).isSome
        · simp only [astRelax, if_neg hv, hd, if_pos hp, if_true]
          refine hstep _ rfl (by simp) ?_
          intro e he
          rcases List.mem_append.mp he with he' | he'
          · exact Or.inl he'
          · simp at he'
            exact Or.inr ⟨_, he'⟩
        · simp only [astRelax, if_neg hv, hd, if_neg hp, if_true]
          refine hstep _ rfl (by simp) ?_
          intro e he
          rcases List.mem_append.mp he with he' | he'
          · exact Or.inl he'
          · simp at he'
            exact Or.inr ⟨_, he'⟩
      | some gn =>
        by_cases hlt : (afind st.g_score c).getD 0 + wget w (c, n) < gn
        · by_cases hp : (afind st.parent n).isSome
          · simp only [astRelax, if_neg hv, hd, decide_eq_true hlt, if_pos hp,
              if_true]
            refine hstep _ rfl (by simp) ?_
            intro e he
            rcases List.mem_append.mp he with he' | he'
            · exact Or.inl he'
            · simp at he'
              exact Or.inr ⟨_, he'⟩
          · simp only [astRelax, if_neg hv, hd, decide_eq_true hlt, if_neg hp,
              if_true]
            refine hstep _ rfl (by simp) ?_
            intro e he
            rcases List.mem_append.mp he with he' | he'
            · exact Or.inl he'
            · simp at he'
              exact Or.inr ⟨_, he'⟩
        · simp only [astRelax, if_neg hv, hd, decide_eq_false hlt,
            Bool.false_eq_true, if_false]
          exact hstep st rfl (by omega) (fun e he => Or.inl he)

theorem greedyPush_shape (h : List (Node × Nat)) (c : Node) (path : List Node) :
    ∀ (ns : List Node) (st : GreedyState),
      (greedyPush h c path ns st).visitedSet = st.visitedSet ∧
      (greedyPush h c path ns st).pq.length ≤ st.pq.length + ns.length ∧
      (∀ e ∈ (greedyPush h c path ns st).pq, e ∈ st.pq ∨
        ∃ n, n ∈ ns ∧ e = (hget h n, n, path ++ [n]))
  | [], st => ⟨rfl, Nat.le_refl _, fun e he => Or.inl he⟩
  | n :: ns, st => by
    by_cases hv : n ∈ st.visitedSet
    · simp only [greedyPush, if_pos hv]
      obtain ⟨h1, h2, h3⟩ := greedyPush_shape h c path ns st
      refine ⟨h1, by simp only [List.length_cons]; omega, ?_⟩
      intro e he
      rcases h3 e he with he' | ⟨m, hm, he'⟩
      · exact Or.inl he'
      · exact Or.inr ⟨m, by simp [hm], he'⟩
    · have hstep : ∀ (st' : GreedyState), st'.visitedSet = st.visitedSet →
          st'.pq.length ≤ st.pq.length + 1 →
          (∀ e ∈ st'.pq, e ∈ st.pq ∨ e = (hget h n, n, path ++ [n])) →
          (greedyPush h c path ns st').visitedSet = st.visitedSet ∧
          (greedyPush h c path ns st').pq.length ≤
            st.pq.length + (n :: ns).length ∧
          (∀ e ∈ (greedyPush h c path ns st').pq, e ∈ st.pq ∨
            ∃ m, m ∈ n :: ns ∧ e = (hget h m, m, path ++ [m])) := by
        intro st' hvs hlen hmem
        obtain ⟨h1, h2, h3⟩ := greedyPush_shape h c path ns st'
        refine ⟨h1.trans hvs, ?_, ?_⟩
        · simp only [List.length_cons]
          omega
        · intro e he
          rcases h3 e he with he' | ⟨m, hm, he'⟩
          · rcases hmem e he' with he'' | he''
            · exact Or.inl he''
            · exact Or.inr ⟨n, by simp, he''⟩
          · exact Or.inr ⟨m, by simp [hm], he'⟩
      by_cases hp : (afind st.parent n).isSome
      · simp only [greedyPush, if_neg hv, if_pos hp]
        refine hstep _ rfl (by simp) ?_
        intro e he
        rcases List.mem_append.mp he with he' | he'
        · exact Or.inl he'
        · simp at he'
          exact Or.inr he'
      · simp only [greedyPush, if_neg hv, if_neg hp]
        refine hstep _ rfl (by simp) ?_
        intro e he
        rcases List.mem_append.mp he with he' | he'
        · exact Or.inl he'
        · simp at he'
          exact Or.inr he'

theorem dijLoop_some (g : Graph) (w : List ((Node × Node) × Nat))
    (goal s : Node) :
    ∀ (fuel : Nat) (st : DijState),
      (∀ e ∈ st.pq, (e : Nat × Node × List Node).2.1 ∈ nodesOf g s) →
      undisc g s st.visitedSet * (totalAdj g + 2) + st.pq.length < fuel →
      ∃ r, dijLoop g w goal fuel st = some r
  | 0, st, _, hf => by omega
  | fuel + 1, st, hfr, hf => by
    cases hpq : popMin st.pq with
    | none => exact ⟨_, by simp only [dijLoop, hpq]; rfl⟩
    | some p =>
      obtain ⟨⟨curDist, current, path⟩, rest⟩ := p
      have hlen := popMin_length hpq
      rw [hlen] at hf
      have hrestfr : ∀ e ∈ rest, (e : Nat × Node × List Node).2.1 ∈ nodesOf g s :=
        fun e he => hfr e (popMin_rest_subset hpq e he)
      by_cases hv : current ∈ st.visitedSet
      · obtain ⟨r, hr⟩ := dijLoop_some g w goal s fuel { st with pq := rest }
          hrestfr (by show undisc g s st.visitedSet * (totalAdj g + 2) +
            rest.length < fuel; omega)
        exact ⟨r, by simp only [dijLoop, hpq, if_pos hv]; exact hr⟩
      · by_cases hg : current = goal
        · exact ⟨_, by simp only [dijLoop, hpq, if_neg hv, if_pos hg]; rfl⟩
        · have hcur : current ∈ nodesOf g s := hfr _ (popMin_mem hpq)
          have heq := undisc_add g s st.visitedSet current hcur hv
          have hexp : undisc g s st.visitedSet * (totalAdj g + 2) =
              undisc g s (st.visitedSet ++ [current]) * (totalAdj g + 2) +
                (totalAdj g + 2) := by
            rw [← heq, Nat.add_mul, Nat.one_mul]
          obtain ⟨hvs, hlen2, hmem2⟩ := dijRelax_shape w current curDist path
            (adjL g current)
            { st with
              pq := rest
              visitedSet := st.visitedSet ++ [current]
              visited := st.visited ++ [current] }
          have hfr2 : ∀ e ∈ (dijRelax w current curDist path (adjL g current)
              { st with
                pq := rest
                visitedSet := st.visitedSet ++ [current]
                visited := st.visited ++ [current] }).pq,
              (e : Nat × Node × List Node).2.1 ∈ nodesOf g s := by
            intro e he
            rcases hmem2 e he with he' | ⟨n, hn, he'⟩
            · exact hrestfr e he'
            · rw [he']
              exact adjL_subset_nodesOf g s current n hn
          obtain ⟨r, hr⟩ := dijLoop_some g w goal s fuel _ hfr2 (by
            rw [hvs]
            show undisc g s (st.visitedSet ++ [current]) * (totalAdj g + 2) +
              (dijRelax w current curDist path (adjL g current)
                { st with
                  pq := rest
                  visitedSet := st.visitedSet ++ [current]
                  visited := st.visited ++ [current] }).pq.length < fuel
            have hal := adjL_length_le g current
            have hlen3 : (dijRelax w current curDist path (adjL g current)
                { st with
                  pq := rest
                  visitedSet := st.visitedSet ++ [current]
                  visited := st.visited ++ [current] }).pq.length ≤
                rest.length + totalAdj g := by
              refine le_trans hlen2 ?_
              show rest.length + (adjL g current).length ≤
                rest.length + totalAdj g
              omega
            omega)
          exact ⟨r, by simp only [dijLoop, hpq, if_neg hv, if_neg hg]; exact hr⟩

theorem dij_search_some (g : Graph) (w : List ((Node × Node) × Nat))
    (s t : Node) : ∃ r, DijkstraSearch.search g w s t = some r := by
  apply dijLoop_some g w t s
  · intro e he
    simp only [dijInit] at he
    simp at he
    subst he
    show s ∈ nodesOf g s
    unfold nodesOf
    rw [List.mem_dedup]
    exact List.mem_cons_self _ _
  · have h1 := undisc_le g s (dijInit s).visitedSet
    simp only [dijInit] at h1
    show undisc g s [] * (totalAdj g + 2) + 1 <
      (totalAdj g + 2) * ((nodesOf g s).length + 1)
    have h2 : undisc g s [] * (totalAdj g + 2) ≤
        (nodesOf g s).length * (totalAdj g + 2) :=
      Nat.mul_le_mul_right _ h1
    have h3 : (totalAdj g + 2) * ((nodesOf g s).length + 1) =
        (nodesOf g s).length * (totalAdj g + 2) + (totalAdj g + 2) := by ring
    omega

theorem astLoop_some (g : Graph) (w : List ((Node × Node) × Nat))
    (hh : List (Node × Nat)) (goal s : Node) :
    ∀ (fuel : Nat) (st : AstState),
      (∀ e ∈ st.pq, (e : Nat × Node × List Node).2.1 ∈ nodesOf g s) →
      undisc g s st.visitedSet * (totalAdj g + 2) + st.pq.length < fuel →
      ∃ r, astLoop g w hh goal fuel st = some r
  | 0, st, _, hf => by omega
  | fuel + 1, st, hfr, hf => by
    cases hpq : popMin st.pq with
    | none => exact ⟨_, by simp only [astLoop, hpq]; rfl⟩
    | some p =>
      obtain ⟨⟨curF, current, path⟩, rest⟩ := p
      have hlen := popMin_length hpq
      rw [hlen] at hf
      have hrestfr : ∀ e ∈ rest, (e : Nat × Node × List Node).2.1 ∈ nodesOf g s :=
        fun e he => hfr e (popMin_rest_subset hpq e he)
      by_cases hv : current ∈ st.visitedSet
      · obtain ⟨r, hr⟩ := astLoop_some g w hh goal s fuel { st with pq := rest }
          hrestfr (by show undisc g s st.visitedSet * (totalAdj g + 2) +
            rest.length < fuel; omega)
        exact ⟨r, by simp only [astLoop, hpq, if_pos hv]; exact hr⟩
      · by_cases hg : current = goal
        · exact ⟨_, by simp only [astLoop, hpq, if_neg hv, if_pos hg]; rfl⟩
        · have hcur : current ∈ nodesOf g s := hfr _ (popMin_mem hpq)
          have heq := undisc_add g s st.visitedSet current hcur hv
          have hexp : undisc g s st.visitedSet * (totalAdj g + 2) =
              undisc g s (st.visitedSet ++ [current]) * (totalAdj g + 2) +
                (totalAdj g + 2) := by
            rw [← heq, Nat.add_mul, Nat.one_mul]
          obtain ⟨hvs, hlen2, hmem2⟩ := astRelax_shape w hh current path
            (adjL g current)
            { st with
              pq := rest
              visitedSet := st.visitedSet ++ [current]
              visited := st.visited ++ [current] }
          have hfr2 : ∀ e ∈ (astRelax w hh current path (adjL g current)
              { st with
                pq := rest
                visitedSet := st.visitedSet ++ [current]
                visited := st.visited ++ [current] }).pq,
              (e : Nat × Node × List Node).2.1 ∈ nodesOf g s := by
            intro e he
            rcases hmem2 e he with he' | ⟨n, k, hn, he'⟩
            · exact hrestfr e he'
            · rw [he']
              exact adjL_subset_nodesOf g s current n hn
          obtain ⟨r, hr⟩ := astLoop_some g w hh goal s fuel _ hfr2 (by
            rw [hvs]
            show undisc g s (st.visitedSet ++ [current]) * (totalAdj g + 2) +
              (astRelax w hh current path (adjL g current)
                { st with
                  pq := rest
                  visitedSet := st.visitedSet ++ [current]
                  visited := st.visited ++ [current] }).pq.length < fuel
            have hal := adjL_length_le g current
            have hlen3 : (astRelax w hh current path (adjL g current)
                { st with
                  pq := rest
                  visitedSet := st.visitedSet ++ [current]
                  visited := st.visited ++ [current] }).pq.length ≤
                rest.length + totalAdj g := by
              refine le_trans hlen2 ?_
              show rest.length + (adjL g current).length ≤
                rest.length + totalAdj g
              omega
            omega)
          exact ⟨r, by simp only [astLoop, hpq, if_neg hv, if_neg hg]; exact hr⟩

theorem ast_search_some (g : Graph) (w : List ((Node × Node) × Nat))
    (hh : List (Node × Nat)) (s t : Node) :
    ∃ r, AStarSearch.search g w hh s t = some r := by
  apply astLoop_some g w hh t s
  · intro e he
    simp only [astInit] at he
    simp at he
    subst he
    show s ∈ nodesOf g s
    unfold nodesOf
    rw [List.mem_dedup]
    exact List.mem_cons_self _ _
  · have h1 := undisc_le g s (astInit hh s).visitedSet
    simp only [astInit] at h1
    show undisc g s [] * (totalAdj g + 2) + 1 <
      (totalAdj g + 2) * ((nodesOf g s).length + 1)
    have h2 : undisc g s [] * (totalAdj g + 2) ≤
        (nodesOf g s).length * (totalAdj g + 2) :=
      Nat.mul_le_mul_right _ h1
    have h3 : (totalAdj g + 2) * ((nodesOf g s).length + 1) =
        (nodesOf g s).length * (totalAdj g + 2) + (totalAdj g + 2) := by ring
    omega

theorem greedyLoop_some (g : Graph) (hh : List (Node × Nat)) (goal s : Node) :
    ∀ (fuel : Nat) (st : GreedyState),
      (∀ e ∈ st.pq, (e : Nat × Node × List Node).2.1 ∈ nodesOf g s) →
      undisc g s st.visitedSet * (totalAdj g + 2) + st.pq.length < fuel →
      ∃ r, greedyLoop g hh goal fuel st = some r
  | 0, st, _, hf => by omega
  | fuel + 1, st, hfr, hf => by
    cases hpq : popMin st.pq with
    | none => exact ⟨_, by simp only [greedyLoop, hpq]; rfl⟩
    | some p =>
      obtain ⟨⟨curH, current, path⟩, rest⟩ := p
      have hlen := popMin_length hpq
      rw [hlen] at hf
      have hrestfr : ∀ e ∈ rest, (e : Nat × Node × List Node).2.1 ∈ nodesOf g s :=
        fun e he => hfr e (popMin_rest_subset hpq e he)
      by_cases hv : current ∈ st.visitedSet
      · obtain ⟨r, hr⟩ := greedyLoop_some g hh goal s fuel { st with pq := rest }
          hrestfr (by show undisc g s st.visitedSet * (totalAdj g + 2) +
            rest.length < fuel; omega)
        exact ⟨r, by simp only [greedyLoop, hpq, if_pos hv]; exact hr⟩
      · by_cases hg : current = goal
        · exact ⟨_, by simp only [greedyLoop, hpq, if_neg hv, if_pos hg]; rfl⟩
        · have hcur : current ∈ nodesOf g s := hfr _ (popMin_mem hpq)
          have heq := undisc_add g s st.visitedSet current hcur hv
          have hexp : undisc g s st.visitedSet * (totalAdj g + 2) =
              undisc g s (st.visitedSet ++ [current]) * (totalAdj g + 2) +
                (totalAdj g + 2) := by
            rw [← heq, Nat.add_mul, Nat.one_mul]
          obtain ⟨hvs, hlen2, hmem2⟩ := greedyPush_shape hh current path
            (adjL g current)
            { st with
              pq := rest
              visitedSet := st.visitedSet ++ [current]
              visited := st.visited ++ [current] }
          have hfr2 : ∀ e ∈ (greedyPush hh current path (adjL g current)
              { st with
                pq := rest
                visitedSet := st.visitedSet ++ [current]
                visited := st.visited ++ [current] }).pq,
              (e : Nat × Node × List Node).2.1 ∈ nodesOf g s := by
            intro e he
            rcases hmem2 e he with he' | ⟨n, hn, he'⟩
            · exact hrestfr e he'
            · rw [he']
              exact adjL_subset_nodesOf g s current n hn
          obtain ⟨r, hr⟩ := greedyLoop_some g hh goal s fuel _ hfr2 (by
            rw [hvs]
            show undisc g s (st.visitedSet ++ [current]) * (totalAdj g + 2) +
              (greedyPush hh current path (adjL g current)
                { st with
                  pq := rest
                  visitedSet := st.visitedSet ++ [current]
                  visited := st.visited ++ [current] }).pq.length < fuel
            have hal := adjL_length_le g current
            have hlen3 : (greedyPush hh current path (adjL g current)
                { st with
                  pq := rest
                  visitedSet := st.visitedSet ++ [current]
                  visited := st.visited ++ [current] }).pq.length ≤
                rest.length + totalAdj g := by
              refine le_trans hlen2 ?_
              show rest.length + (adjL g current).length ≤
                rest.length + totalAdj g
              omega
            omega)
          exact ⟨r, by simp only [greedyLoop, hpq, if_neg hv, if_neg hg]; exact hr⟩

theorem greedy_search_some (g : Graph) (hh : List (Node × Nat)) (s t : Node) :
    ∃ r, GreedyBestFirstSearch.search g hh s t = some r := by
  apply greedyLoop_some g hh t s
  · intro e he
    simp only [greedyInit] at he
    simp at he
    subst he
    show s ∈ nodesOf g s
    unfold nodesOf
    rw [List.mem_dedup]
    exact List.mem_cons_self _ _
  · have h1 := undisc_le g s (greedyInit hh s).visitedSet
    simp only [greedyInit] at h1
    show undisc g s [] * (totalAdj g + 2) + 1 <
      (totalAdj g + 2) * ((nodesOf g s).length + 1)
    have h2 : undisc g s [] * (totalAdj g + 2) ≤
        (nodesOf g s).length * (totalAdj g + 2) :=
      Nat.mul_le_mul_right _ h1
    have h3 : (totalAdj g + 2) * ((nodesOf g s).length + 1) =
        (nodesOf g s).length * (totalAdj g + 2) + (totalAdj g + 2) := by ring
    omega

theorem adjL_none {g : Graph} {s : Node} (hs : afind g s = none) :
    adjL g s = [] := by
  unfold adjL
  rw [hs]
  rfl

theorem fuelB_ge_two (g : Graph) (s : Node) : 2 ≤ fuelB g s := by
  unfold fuelB
  calc 2 = 2 * 1 := by omega
  _ ≤ (totalAdj g + 2) * ((nodesOf g s).length + 1) :=
      Nat.mul_le_mul (by omega) (by omega)

theorem bfs_missing_start (g : Graph) (s t : Node) (hs : afind g s = none) :
    BreadthFirstSearch.search g s t =
      some (if s = t then
        ⟨[s], [s], true, "BreadthFirstSearch", [(s, none)], [], []⟩
      else ⟨[], [s], false, "BreadthFirstSearch", [(s, none)], [], []⟩) := by
  show bfsLoop g t ((nodesOf g s).length + 1 + 1) (bfsInit s) = _
  by_cases hst : s = t
  · subst hst
    simp [bfsLoop, bfsInit, adjL_none hs, bfsDiscover]
  · simp [bfsLoop, bfsInit, adjL_none hs, bfsDiscover, hst]

theorem dfs_missing_start (g : Graph) (s t : Node) (hs : afind g s = none) :
    DepthFirstSearch.search g s t =
      some (if s = t then
        ⟨[s], [s], true, "DepthFirstSearch", [(s, none)], [], []⟩
      else ⟨[], [s], false, "DepthFirstSearch", [(s, none)], [], []⟩) := by
  obtain ⟨k, hk⟩ : ∃ k, fuelB g s = k + 1 + 1 :=
    ⟨fuelB g s - 2, by have := fuelB_ge_two g s; omega⟩
  show dfsLoop g t (fuelB g s) (dfsInit s) = _
  rw [hk]
  by_cases hst : s = t
  · subst hst
    simp [dfsLoop, dfsInit, adjL_none hs, dfsPush]
  · simp [dfsLoop, dfsInit, adjL_none hs, dfsPush, hst]

theorem dij_missing_start (g : Graph) (w : List ((Node × Node) × Nat))
    (s t : Node) (hs : afind g s = none) :
    DijkstraSearch.search g w s t =
      some (if s = t then
        ⟨[s], [s], true, "DijkstraSearch", [(s, none)], [], [("distance", 0)]⟩
      else ⟨[], [s], false, "DijkstraSearch", [(s, none)], [], []⟩) := by
  obtain ⟨k, hk⟩ : ∃ k, fuelB g s = k + 1 + 1 :=
    ⟨fuelB g s - 2, by have := fuelB_ge_two g s; omega⟩
  show dijLoop g w t (fuelB g s) (dijInit s) = _
  rw [hk]
  by_cases hst : s = t
  · subst hst
    simp [dijLoop, dijInit, popMin, adjL_none hs, dijRelax]
  · simp [dijLoop, dijInit, popMin, adjL_none hs, dijRelax, hst]

theorem ast_missing_start (g : Graph) (w : List ((Node × Node) × Nat))
    (hh : List (Node × Nat)) (s t : Node) (hs : afind g s = none) :
    AStarSearch.search g w hh s t =
      some (if s = t then
        ⟨[s], [s], true, "AStarSearch", [(s, none)], [], [("cost", 0)]⟩
      else ⟨[], [s], false, "AStarSearch", [(s, none)], [], []⟩) := by
  obtain ⟨k, hk⟩ : ∃ k, fuelB g s = k + 1 + 1 :=
    ⟨fuelB g s - 2, by have := fuelB_ge_two g s; omega⟩
  show astLoop g w hh t (fuelB g s) (astInit hh s) = _
  rw [hk]
  by_cases hst : s = t
  · subst hst
    simp [astLoop, astInit, popMin, adjL_none hs, astRelax, afind]
  · simp [astLoop, astInit, popMin, adjL_none hs, astRelax, hst]

theorem greedy_missing_start (g : Graph) (hh : List (Node × Nat)) (s t : Node)
    (hs : afind g s = none) :
    GreedyBestFirstSearch.search g hh s t =
      some (if s = t then
        ⟨[s], [s], true, "GreedyBestFirstSearch", [(s, none)], [], []⟩
      else ⟨[], [s], false, "GreedyBestFirstSearch", [(s, none)], [], []⟩) := by
  obtain ⟨k, hk⟩ : ∃ k, fuelB g s = k + 1 + 1 :=
    ⟨fuelB g s - 2, by have := fuelB_ge_two g s; omega⟩
  show greedyLoop g hh t (fuelB g s) (greedyInit hh s) = _
  rw [hk]
  by_cases hst : s = t
  · subst hst
    simp [greedyLoop, greedyInit, popMin, adjL_none hs, greedyPush]
  · simp [greedyLoop, greedyInit, popMin, adjL_none hs, greedyPush, hst]

/-- What claim C10 asserts of one algorithm's result. -/
def totalAndMissingStartOk (g : Graph) (s t : Node)
    (o : Option SearchResult) : Prop :=
  ∃ r, o = some r ∧ (afind g s = none →
    r.visited = [s] ∧ (r.success = true ↔ s = t) ∧ (s = t → r.path = [s]))

/-- C10: every one of the five searches returns a result (never raises, never
diverges) on every input; when the start node has no entry in the graph it is
treated as having no outgoing edges, so the result visits exactly `[start]`
and succeeds (with path `[start]`) exactly when start equals goal. -/
theorem search_total_missing_start (g : Graph)
    (w : List ((Node × Node) × Nat)) (h : List (Node × Nat)) (s t : Node) :
    totalAndMissingStartOk g s t (BreadthFirstSearch.search g s t) ∧
    totalAndMissingStartOk g s t (DepthFirstSearch.search g s t) ∧
    totalAndMissingStartOk g s t (DijkstraSearch.search g w s t) ∧
    totalAndMissingStartOk g s t (AStarSearch.search g w h s t) ∧
    totalAndMissingStartOk g s t (GreedyBestFirstSearch.search g h s t) := by
  refine ⟨?_, ?_, ?_, ?_, ?_⟩
  · by_cases hsn : afind g s = none
    · rw [bfs_missing_start g s t hsn]
      refine ⟨_, rfl, fun _ => ?_⟩
      by_cases hst : s = t <;> simp [hst]
    · obtain ⟨r, hr⟩ := bfs_search_some g s t
      exact ⟨r, hr, fun hs2 => absurd hs2 hsn⟩
  · by_cases hsn : afind g s = none
    · rw [dfs_missing_start g s t hsn]
      refine ⟨_, rfl, fun _ => ?_⟩
      by_cases hst : s = t <;> simp [hst]
    · obtain ⟨r, hr⟩ := dfs_search_some g s t
      exact ⟨r, hr, fun hs2 => absurd hs2 hsn⟩
  · by_cases hsn : afind g s = none
    · rw [dij_missing_start g w s t hsn]
      refine ⟨_, rfl, fun _ => ?_⟩
      by_cases hst : s = t <;> simp [hst]
    · obtain ⟨r, hr⟩ := dij_search_some g w s t
      exact ⟨r, hr, fun hs2 => absurd hs2 hsn⟩
  · by_cases hsn : afind g s = none
    · rw [ast_missing_start g w h s t hsn]
      refine ⟨_, rfl, fun _ => ?_⟩
      by_cases hst : s = t <;> simp [hst]
    · obtain ⟨r, hr⟩ := ast_search_some g w h s t
      exact ⟨r, hr, fun hs2 => absurd hs2 hsn⟩
  · by_cases hsn : afind g s = none
    · rw [greedy_missing_start g h s t hsn]
      refine ⟨_, rfl, fun _ => ?_⟩
      by_cases hst : s = t <;> simp [hst]
    · obtain ⟨r, hr⟩ := greedy_search_some g h s t
      exact ⟨r, hr, fun hs2 => absurd hs2 hsn⟩

theorem search_total_missing_start_witness :
    ∃ r, BreadthFirstSearch.search [("B", ["B"])] "A" "Z" = some r ∧
      r.visited = ["A"] ∧ (r.success = true ↔ ("A" : Node) = "Z") ∧
      (("A" : Node) = "Z" → r.path = ["A"]) := by
  obtain ⟨r, hr, himp⟩ :=
    (search_total_missing_start [("B", ["B"])] [] [] "A" "Z").1
  exact ⟨r, hr, himp (by decide)⟩

/-! ## Depth-first search finds a path; visited has no duplicates (claim C4) -/

theorem validPath_singleton (g : Graph) (s : Node) : validPath g s s [s] := by
  simp [validPath]

theorem validPath_extend {g : Graph} {s c n : Node} {p : List Node}
    (h : validPath g s c p) (hn : n ∈ adjL g c) :
    validPath g s n (p ++ [n]) := by
  obtain ⟨hne, hh, hl, hc⟩ := h
  refine ⟨by simp, ?_, by simp, ?_⟩
  · rcases p with _ | ⟨a, p⟩
    · simp at hne
    · simpa using hh
  · rw [List.chain'_append]
    refine ⟨hc, List.chain'_singleton n, ?_⟩
    intro x hx y hy
    simp at hy
    subst hy
    rw [hl] at hx
    simp at hx
    subst hx
    exact hn

theorem reachable_subset_closed (g : Graph) (s : Node) (X : Node → Prop)
    (hs : X s) (hcl : ∀ v, X v → ∀ n ∈ adjL g v, X n) :
    ∀ v, Reachable g s v → X v := by
  intro v hv
  induction hv with
  | refl => exact hs
  | step hu he ih => exact hcl _ ih _ he

theorem dfsPush_visited (c : Node) (path : List Node) :
    ∀ (ns : List Node) (st : DfsState),
      (dfsPush c path ns st).visited = st.visited
  | [], _ => rfl
  | n :: ns, st => by
    simp only [dfsPush]
    by_cases hv : n ∈ st.visitedSet
    · rw [if_pos hv]
      exact dfsPush_visited c path ns st
    · rw [if_neg hv]
      by_cases hp : (afind st.parent n).isSome
      · rw [if_pos hp, dfsPush_visited c path ns _]
      · rw [if_neg hp, dfsPush_visited c path ns _]

theorem dfsPush_stack_mono (c : Node) (path : List Node) :
    ∀ (ns : List Node) (st : DfsState) (e : Node × List Node),
      e ∈ st.stack → e ∈ (dfsPush c path ns st).stack
  | [], _, _, he => he
  | n :: ns, st, e, he => by
    simp only [dfsPush]
    by_cases hv : n ∈ st.visitedSet
    · rw [if_pos hv]
      exact dfsPush_stack_mono c path ns st e he
    · rw [if_neg hv]
      by_cases hp : (afind st.parent n).isSome
      · rw [if_pos hp]
        exact dfsPush_stack_mono c path ns _ e (List.mem_cons_of_mem _ he)
      · rw [if_neg hp]
        exact dfsPush_stack_mono c path ns _ e (List.mem_cons_of_mem _ he)

theorem dfsPush_stack_mem (c : Node) (path : List Node) :
    ∀ (ns : List Node) (st : DfsState) (e : Node × List Node),
      e ∈ (dfsPush c path ns st).stack →
      e ∈ st.stack ∨ ∃ n, n ∈ ns ∧ e = (n, path ++ [n])
  | [], _, _, he => Or.inl he
  | n :: ns, st, e, he => by
    by_cases hv : n ∈ st.visitedSet
    · rw [dfsPush, if_pos hv] at he
      rcases dfsPush_stack_mem c path ns st e he with h | ⟨m, hm, hme⟩
      · exact Or.inl h
      · exact Or.inr ⟨m, by simp [hm], hme⟩
    · have hcons : ∀ (st' : DfsState), st'.stack = (n, path ++ [n]) :: st.stack →
          e ∈ (dfsPush c path ns st').stack →
          e ∈ st.stack ∨ ∃ m, m ∈ n :: ns ∧ e = (m, path ++ [m]) := by
        intro st' hst' he'
        rcases dfsPush_stack_mem c path ns st' e he' with h | ⟨m, hm, hme⟩
        · rw [hst'] at h
          rcases List.mem_cons.mp h with rfl | h'
          · exact Or.inr ⟨n, by simp, rfl⟩
          · exact Or.inl h'
        · exact Or.inr ⟨m, by simp [hm], hme⟩
      rw [dfsPush, if_neg hv] at he
      by_cases hp : (afind st.parent n).isSome
      · rw [if_pos hp] at he
        exact hcons _ rfl he
      · rw [if_neg hp] at he
        exact hcons _ rfl he

theorem dfsPush_pushes (c : Node) (path : List Node) :
    ∀ (ns : List Node) (st : DfsState) (n : Node), n ∈ ns →
      ¬ n ∈ st.visitedSet → ∃ q, (n, q) ∈ (dfsPush c path ns st).stack
  | [], _, n, hn, _ => by simp at hn
  | m :: ns, st, n, hn, hnv => by
    by_cases hv : m ∈ st.visitedSet
    · rw [dfsPush, if_pos hv]
      rcases List.mem_cons.mp hn with rfl | hn'
      · exact absurd hv hnv
      · exact dfsPush_pushes c path ns st n hn' hnv
    · have hcons : ∀ (st' : DfsState), st'.stack = (m, path ++ [m]) :: st.stack →
          st'.visitedSet = st.visitedSet →
          ∃ q, (n, q) ∈ (dfsPush c path ns st').stack := by
        intro st' hst' hvs'
        rcases List.mem_cons.mp hn with rfl | hn'
        · exact ⟨path ++ [n], dfsPush_stack_mono c path ns st' _
            (by rw [hst']; simp)⟩
        · exact dfsPush_pushes c path ns st' n hn' (by rw [hvs']; exact hnv)
      rw [dfsPush, if_neg hv]
      by_cases hp : (afind st.parent m).isSome
      · rw [if_pos hp]
        exact hcons _ rfl rfl
      · rw [if_neg hp]
        exact hcons _ rfl rfl

/-- Loop invariant for DFS completeness. -/
structure DfsInv (g : Graph) (s goal : Node) (st : DfsState) : Prop where
  vp : ∀ e ∈ st.stack, validPath g s (e : Node × List Node).1 e.2
  cl : ∀ v ∈ st.visitedSet, ∀ n ∈ adjL g v,
    n ∈ st.visitedSet ∨ ∃ p, (n, p) ∈ st.stack
  strt : s ∈ st.visitedSet ∨ ∃ p, (s, p) ∈ st.stack
  gno : ¬ goal ∈ st.visitedSet
  fr : ∀ e ∈ st.stack, (e : Node × List Node).1 ∈ nodesOf g s

theorem dfsLoop_complete (g : Graph) (s goal : Node) :
    ∀ (fuel : Nat) (st : DfsState), DfsInv g s goal st →
      undisc g s st.visitedSet * (totalAdj g + 2) + st.stack.length < fuel →
      Reachable g s goal →
      ∃ r, dfsLoop g goal fuel st = some r ∧ r.success = true ∧
        validPath g s goal r.path
  | 0, st, _, hf, _ => by omega
  | fuel + 1, st, hinv, hf, hreach => by
    cases hq : st.stack with
    | nil =>
      exfalso
      apply hinv.gno
      refine reachable_subset_closed g s (fun v => v ∈ st.visitedSet) ?_ ?_ goal
        hreach
      · rcases hinv.strt with h | ⟨p, hp⟩
        · exact h
        · rw [hq] at hp
          simp at hp
      · intro v hv n hn
        rcases hinv.cl v hv n hn with h | ⟨p, hp⟩
        · exact h
        · rw [hq] at hp
          simp at hp
    | cons e rest =>
      obtain ⟨current, path⟩ := e
      rw [hq] at hf
      simp only [List.length_cons] at hf
      by_cases hv : current ∈ st.visitedSet
      · have hinv' : DfsInv g s goal { st with stack := rest } := by
          refine ⟨?_, ?_, ?_, hinv.gno, ?_⟩
          · intro e he
            exact hinv.vp e (by rw [hq]; exact List.mem_cons_of_mem _ he)
          · intro v hvv n hn
            rcases hinv.cl v hvv n hn with h | ⟨p, hp⟩
            · exact Or.inl h
            · rw [hq] at hp
              rcases List.mem_cons.mp hp with hp' | hp'
              · injection hp' with h1 h2
                exact Or.inl (h1 ▸ hv)
              · exact Or.inr ⟨p, hp'⟩
          · rcases hinv.strt with h | ⟨p, hp⟩
            · exact Or.inl h
            · rw [hq] at hp
              rcases List.mem_cons.mp hp with hp' | hp'
              · injection hp' with h1 h2
                exact Or.inl (h1 ▸ hv)
              · exact Or.inr ⟨p, hp'⟩
          · intro e he
            exact hinv.fr e (by rw [hq]; exact List.mem_cons_of_mem _ he)
        obtain ⟨r, hr, hp1, hp2⟩ := dfsLoop_complete g s goal fuel
          { st with stack := rest } hinv'
          (by show undisc g s st.visitedSet * (totalAdj g + 2) +
            rest.length < fuel; omega) hreach
        exact ⟨r, by simp only [dfsLoop, hq, if_pos hv]; exact hr, hp1, hp2⟩
      · have hvp0 : validPath g s current path :=
          hinv.vp (current, path) (by rw [hq]; simp)
        by_cases hg : current = goal
        · subst hg
          refine ⟨_, by simp only [dfsLoop, hq, if_neg hv, if_pos rfl]; rfl,
            rfl, hvp0⟩
        · have hcur : current ∈ nodesOf g s :=
            hinv.fr (current, path) (by rw [hq]; simp)
          have heq := undisc_add g s st.visitedSet current hcur hv
          have hexp : undisc g s st.visitedSet * (totalAdj g + 2) =
              undisc g s (st.visitedSet ++ [current]) * (totalAdj g + 2) +
                (totalAdj g + 2) := by
            rw [← heq, Nat.add_mul, Nat.one_mul]
          have hst1 : ∀ e ∈ ({ st with
              stack := rest
              visitedSet := st.visitedSet ++ [current]
              visited := st.visited ++ [current] } : DfsState).stack,
              e ∈ st.stack := by
            intro e he
            rw [hq]
            exact List.mem_cons_of_mem _ he
          have hinv2 : DfsInv g s goal (dfsPush current path
              (adjL g current).reverse
              { st with
                stack := rest
                visitedSet := st.visitedSet ++ [current]
                visited := st.visited ++ [current] }) := by
            refine ⟨?_, ?_, ?_, ?_, ?_⟩
            · intro e he
              rcases dfsPush_stack_mem current path _ _ e he with h | ⟨n, hn, hne⟩
              · exact hinv.vp e (hst1 e h)
              · subst hne
                exact validPath_extend hvp0 (List.mem_reverse.mp hn)
            · intro v hvv n hn
              rw [dfsPush_visitedSet] at hvv
              rw [dfsPush_visitedSet]
              rcases List.mem_append.mp hvv with hvv' | hvv'
              · rcases hinv.cl v hvv' n hn with h | ⟨p, hp⟩
                · exact Or.inl (List.mem_append.mpr (Or.inl h))
                · rw [hq] at hp
                  rcases List.mem_cons.mp hp with hp' | hp'
                  · injection hp' with h1 h2
                    exact Or.inl (by simp [h1])
                  · exact Or.inr ⟨p, dfsPush_stack_mono current path _ _ _ hp'⟩
              · simp at hvv'
                subst hvv'
                by_cases hnv : n ∈ st.visitedSet ++ [v]
                · exact Or.inl hnv
                · rcases dfsPush_pushes v path (adjL g v).reverse
                    { st with
                      stack := rest
                      visitedSet := st.visitedSet ++ [v]
                      visited := st.visited ++ [v] } n
                    (List.mem_reverse.mpr hn) (by exact hnv) with ⟨q, hqmem⟩
                  exact Or.inr ⟨q, hqmem⟩
            · rw [dfsPush_visitedSet]
              rcases hinv.strt with h | ⟨p, hp⟩
              · exact Or.inl (List.mem_append.mpr (Or.inl h))
              · rw [hq] at hp
                rcases List.mem_cons.mp hp with hp' | hp'
                · injection hp' with h1 h2
                  exact Or.inl (by simp [h1])
                · exact Or.inr ⟨p, dfsPush_stack_mono current path _ _ _ hp'⟩
            · rw [dfsPush_visitedSet]
              intro hmem
              rcases List.mem_append.mp hmem with h | h
              · exact hinv.gno h
              · simp at h
                exact hg h.symm
            · refine dfsPush_frontier g s current path _ _ ?_ ?_
              · intro e he
                exact hinv.fr e (hst1 e he)
              · intro n hn
                exact adjL_subset_nodesOf g s current n (List.mem_reverse.mp hn)
          obtain ⟨r, hr, hp1, hp2⟩ := dfsLoop_complete g s goal fuel _ hinv2 (by
            rw [dfsPush_visitedSet]
            show undisc g s (st.visitedSet ++ [current]) * (totalAdj g + 2) +
              (dfsPush current path (adjL g current).reverse
                { st with
                  stack := rest
                  visitedSet := st.visitedSet ++ [current]
                  visited := st.visited ++ [current] }).stack.length < fuel
            have hlen := dfsPush_stack_len current path (adjL g current).reverse
              { st with
                stack := rest
                visitedSet := st.visitedSet ++ [current]
                visited := st.visited ++ [current] }
            have hrevlen : (adjL g current).reverse.length ≤ totalAdj g := by
              rw [List.length_reverse]
              exact adjL_length_le g current
            have hstl : (dfsPush current path (adjL g current).reverse
                { st with
                  stack := rest
                  visitedSet := st.visitedSet ++ [current]
                  visited := st.visited ++ [current] }).stack.length ≤
                rest.length + totalAdj g := by
              refine le_trans hlen ?_
              show rest.length + (adjL g current).reverse.length ≤
                rest.length + totalAdj g
              omega
            omega) hreach
          exact ⟨r, by simp only [dfsLoop, hq, if_neg hv, if_neg hg]; exact hr,
            hp1, hp2⟩

theorem dfsLoop_nodup (g : Graph) (goal : Node) :
    ∀ (fuel : Nat) (st : DfsState) (r : SearchResult), st.visited.Nodup →
      (∀ v ∈ st.visited, v ∈ st.visitedSet) →
      dfsLoop g goal fuel st = some r → r.visited.Nodup
  | 0, st, r, _, _, h => by simp [dfsLoop] at h
  | fuel + 1, st, r, hnd, hsub, h => by
    cases hq : st.stack with
    | nil =>
      simp only [dfsLoop, hq] at h
      injection h with h'
      subst h'
      exact hnd
    | cons e rest =>
      obtain ⟨current, path⟩ := e
      simp only [dfsLoop, hq] at h
      by_cases hv : current ∈ st.visitedSet
      · rw [if_pos hv] at h
        exact dfsLoop_nodup g goal fuel _ r (by exact hnd) (by exact hsub) h
      · rw [if_neg hv] at h
        have hnd' : (st.visited ++ [current]).Nodup := by
          rw [List.nodup_append]
          exact ⟨hnd, by simp, by
            intro x hx
            simp
            intro e2
            subst e2
            exact hv (hsub x hx)⟩
        have hsub' : ∀ v ∈ st.visited ++ [current],
            v ∈ st.visitedSet ++ [current] := by
          intro v hvv
          rcases List.mem_append.mp hvv with h' | h'
          · exact List.mem_append.mpr (Or.inl (hsub v h'))
          · exact List.mem_append.mpr (Or.inr h')
        by_cases hg : current = goal
        · rw [if_pos hg] at h
          injection h with h'
          subst h'
          exact hnd'
        · rw [if_neg hg] at h
          refine dfsLoop_nodup g goal fuel _ r ?_ ?_ h
          · rw [dfsPush_visited]
            exact hnd'
          · rw [dfsPush_visited, dfsPush_visitedSet]
            exact hsub'

/-- C4: depth-first search returns a success with a genuine start→goal walk
whenever the goal is reachable, and on every invocation the returned visited
list contains no node more than once. -/
theorem dfs_finds_path_and_visited_nodup (g : Graph) (s t : Node) :
    (∀ r, DepthFirstSearch.search g s t = some r → r.visited.Nodup) ∧
    ((∃ p, validPath g s t p) →
      ∃ r, DepthFirstSearch.search g s t = some r ∧ r.success = true ∧
        validPath g s t r.path) := by
  constructor
  · intro r hr
    exact dfsLoop_nodup g t _ _ r (by simp [dfsInit]) (by simp [dfsInit]) hr
  · rintro ⟨p, hp⟩
    apply dfsLoop_complete g s t
    · refine ⟨?_, ?_, ?_, ?_, ?_⟩
      · intro e he
        simp only [dfsInit] at he
        simp at he
        subst he
        exact validPath_singleton g s
      · intro v hv
        simp [dfsInit] at hv
      · refine Or.inr ⟨[s], ?_⟩
        simp [dfsInit]
      · simp [dfsInit]
      · intro e he
        simp only [dfsInit] at he
        simp at he
        subst he
        show s ∈ nodesOf g s
        unfold nodesOf
        rw [List.mem_dedup]
        exact List.mem_cons_self _ _
    · have h1 := undisc_le g s (dfsInit s).visitedSet
      simp only [dfsInit] at h1
      show undisc g s [] * (totalAdj g + 2) + 1 <
        (totalAdj g + 2) * ((nodesOf g s).length + 1)
      have h2 : undisc g s [] * (totalAdj g + 2) ≤
          (nodesOf g s).length * (totalAdj g + 2) :=
        Nat.mul_le_mul_right _ h1
      have h3 : (totalAdj g + 2) * ((nodesOf g s).length + 1) =
          (nodesOf g s).length * (totalAdj g + 2) + (totalAdj g + 2) := by ring
      omega
    · exact validPath_reachable hp

/-- The DFS result on the two-node path graph. -/
def dfsC4r : SearchResult :=
  ⟨["A", "B"], ["A", "B"], true, "DepthFirstSearch",
    [("A", none), ("B", some "A")], [("A", "B")], []⟩

theorem dfs_finds_path_and_visited_nodup_witness :
    dfsC4r.visited.Nodup ∧
    ∃ r, DepthFirstSearch.search [("A", ["B"])] "A" "B" = some r ∧
      r.success = true ∧ validPath [("A", ["B"])] "A" "B" r.path :=
  ⟨(dfs_finds_path_and_visited_nodup [("A", ["B"])] "A" "B").1 dfsC4r (by decide),
   (dfs_finds_path_and_visited_nodup [("A", ["B"])] "A" "B").2
     ⟨["A", "B"], by decide⟩⟩

/-! ## Unreachable goal: failure with visited = reachable set (claim C5) -/

theorem bfsDiscover_shape (g : Graph) (c : Node) (path : List Node) (d : Nat) :
    ∀ (ns : List Node) (st : BfsState),
      (∀ v ∈ st.visitedSet, v ∈ (bfsDiscover c path d ns st).visitedSet) ∧
      (∀ v ∈ (bfsDiscover c path d ns st).visitedSet,
        v ∈ st.visitedSet ∨ ∃ q d', (v, q, d') ∈ (bfsDiscover c path d ns st).queue) ∧
      (∀ n ∈ ns, n ∈ (bfsDiscover c path d ns st).visitedSet) ∧
      (∀ e ∈ st.queue, e ∈ (bfsDiscover c path d ns st).queue) ∧
      (∀ e ∈ (bfsDiscover c path d ns st).queue, e ∈ st.queue ∨
        ∃ n, n ∈ ns ∧ e = (n, path ++ [n], d)) ∧
      (bfsDiscover c path d ns st).visited = st.visited
  | [], st => ⟨fun v hv => hv, fun v hv => Or.inl hv, by simp,
      fun e he => he, fun e he => Or.inl he, rfl⟩
  | n :: ns, st => by
    by_cases hv : n ∈ st.visitedSet
    · simp only [bfsDiscover, if_pos hv]
      obtain ⟨m1, m2, m3, q1, q2, vis⟩ := bfsDiscover_shape g c path d ns st
      refine ⟨m1, m2, ?_, q1, ?_, vis⟩
      · intro m hm
        rcases List.mem_cons.mp hm with rfl | hm'
        · exact m1 m hv
        · exact m3 m hm'
      · intro e he
        rcases q2 e he with h | ⟨m, hm, hme⟩
        · exact Or.inl h
        · exact Or.inr ⟨m, by simp [hm], hme⟩
    · simp only [bfsDiscover, if_neg hv]
      obtain ⟨m1, m2, m3, q1, q2, vis⟩ := bfsDiscover_shape g c path d ns
        { st with
          visitedSet := st.visitedSet ++ [n]
          parent := dset st.parent n (some c)
          tree_edges := st.tree_edges ++ [(c, n)]
          queue := st.queue ++ [(n, path ++ [n], d)] }
      refine ⟨?_, ?_, ?_, ?_, ?_, vis⟩
      · intro v hvv
        exact m1 v (by simp [hvv])
      · intro v hvv
        rcases m2 v hvv with h | h
        · rcases List.mem_append.mp h with h' | h'
          · exact Or.inl h'
          · simp at h'
            subst h'
            exact Or.inr ⟨path ++ [v], d, q1 _ (by simp)⟩
        · exact Or.inr h
      · intro m hm
        rcases List.mem_cons.mp hm with rfl | hm'
        · exact m1 m (by simp)
        · exact m3 m hm'
      · intro e he
        exact q1 e (by simp [he])
      · intro e he
        rcases q2 e he with h | ⟨m, hm, hme⟩
        · rcases List.mem_append.mp h with h' | h'
          · exact Or.inl h'
          · simp at h'
            exact Or.inr ⟨n, by simp, h'⟩
        · exact Or.inr ⟨m, by simp [hm], hme⟩

/-- Loop invariant for BFS on an unreachable goal. -/
structure Bfs5Inv (g : Graph) (s : Node) (st : BfsState) : Prop where
  rch : ∀ v ∈ st.visitedSet, Reachable g s v
  qv : ∀ e ∈ st.queue, (e : Node × List Node × Nat).1 ∈ st.visitedSet
  vv1 : ∀ v ∈ st.visited, v ∈ st.visitedSet
  vv2 : ∀ v ∈ st.visitedSet, v ∈ st.visited ∨ ∃ q d, (v, q, d) ∈ st.queue
  cl : ∀ v ∈ st.visited, (∀ q d, ¬ (v, q, d) ∈ st.queue) →
    ∀ n ∈ adjL g v, n ∈ st.visitedSet
  strtB : s ∈ st.visited

theorem bfsLoop_unreach (g : Graph) (s goal : Node) (hnr : ¬ Reachable g s goal) :
    ∀ (fuel : Nat) (st : BfsState), Bfs5Inv g s st →
      undisc g s st.visitedSet + st.queue.length < fuel →
      ∃ r, bfsLoop g goal fuel st = some r ∧ r.success = false ∧ r.path = [] ∧
        r.visited ≠ [] ∧ (∀ v, v ∈ r.visited ↔ Reachable g s v)
  | 0, st, _, hf => by omega
  | fuel + 1, st, hinv, hf => by
    cases hq : st.queue with
    | nil =>
      refine ⟨_, by simp only [bfsLoop, hq]; rfl, rfl, rfl,
        List.ne_nil_of_mem hinv.strtB, ?_⟩
      intro v
      constructor
      · intro hv
        exact hinv.rch v (hinv.vv1 v hv)
      · intro hv
        refine reachable_subset_closed g s (fun v => v ∈ st.visited)
          hinv.strtB ?_ v hv
        intro u hu n hn
        have hno : ∀ q d, ¬ (u, q, d) ∈ st.queue := by
          intro q d hqd
          rw [hq] at hqd
          simp at hqd
        rcases hinv.vv2 n (hinv.cl u hu hno n hn) with h | ⟨q, d, hqd⟩
        · exact h
        · rw [hq] at hqd
          simp at hqd
    | cons e rest =>
      obtain ⟨current, path, depth⟩ := e
      rw [hq] at hf
      simp only [List.length_cons] at hf
      have hcurv : current ∈ st.visitedSet :=
        hinv.qv (current, path, depth) (by rw [hq]; simp)
      have hcurr : Reachable g s current := hinv.rch current hcurv
      by_cases hg : current = goal
      · exact absurd (hg ▸ hcurr) hnr
      · obtain ⟨m1, m2, m3, q1, q2, vis⟩ := bfsDiscover_shape g current path
          (depth + 1) (adjL g current)
          { st with
            queue := rest
            visited := if current ∈ st.visited then st.visited
                       else st.visited ++ [current] }
        have hviseq : (if current ∈ st.visited then st.visited
            else st.visited ++ [current]) =
            ({ st with
              queue := rest
              visited := if current ∈ st.visited then st.visited
                         else st.visited ++ [current] } : BfsState).visited := rfl
        have hmemvis : ∀ v, v ∈ (if current ∈ st.visited then st.visited
            else st.visited ++ [current]) ↔ v ∈ st.visited ∨ v = current := by
          intro v
          by_cases hc : current ∈ st.visited
          · rw [if_pos hc]
            constructor
            · exact Or.inl
            · rintro (h | rfl)
              · exact h
              · exact hc
          · rw [if_neg hc]
            simp
        have hinv2 : Bfs5Inv g s (bfsDiscover current path (depth + 1)
            (adjL g current)
            { st with
              queue := rest
              visited := if current ∈ st.visited then st.visited
                         else st.visited ++ [current] }) := by
          refine ⟨?_, ?_, ?_, ?_, ?_, ?_⟩
          · intro v hvv
            rcases m2 v hvv with h | ⟨q, d, hqd⟩
            · exact hinv.rch v h
            · rcases q2 _ hqd with h | ⟨n, hn, hne⟩
              · exact hinv.rch v
                  (hinv.qv (v, q, d) (by rw [hq]; exact List.mem_cons_of_mem _ h))
              · injection hne with h1 h2
                subst h1
                exact hcurr.step hn
          · intro e he
            rcases q2 e he with h | ⟨n, hn, hne⟩
            · exact m1 _ (hinv.qv e (by rw [hq]; exact List.mem_cons_of_mem _ h))
            · rw [hne]
              exact m3 n hn
          · intro v hvv
            rw [vis] at hvv
            rw [hmemvis] at hvv
            rcases hvv with h | rfl
            · exact m1 _ (hinv.vv1 v h)
            · exact m1 _ hcurv
          · intro v hvv
            rcases m2 v hvv with h | h
            · rcases hinv.vv2 v h with h' | ⟨q, d, hqd⟩
              · refine Or.inl ?_
                rw [vis, hmemvis]
                exact Or.inl h'
              · rw [hq] at hqd
                rcases List.mem_cons.mp hqd with hqd' | hqd'
                · injection hqd' with h1 h2
                  refine Or.inl ?_
                  rw [vis, hmemvis]
                  exact Or.inr h1
                · exact Or.inr ⟨q, d, q1 _ hqd'⟩
            · exact Or.inr h
          · intro v hvv hnoq n hn
            by_cases hvc : v = current
            · subst hvc
              exact m3 n hn
            · rw [vis, hmemvis] at hvv
              rcases hvv with h | h
              · refine m1 _ (hinv.cl v h ?_ n hn)
                intro q d hqd
                rw [hq] at hqd
                rcases List.mem_cons.mp hqd with hqd' | hqd'
                · injection hqd' with h1 h2
                  exact hvc h1
                · exact hnoq q d (q1 _ hqd')
              · exact absurd h hvc
          · rw [vis, hmemvis]
            exact Or.inl hinv.strtB
        have hm := bfsDiscover_measure g s current path (depth + 1)
          (adjL g current)
          { st with
            queue := rest
            visited := if current ∈ st.visited then st.visited
                       else st.visited ++ [current] }
          (adjL_subset_nodesOf g s current)
        obtain ⟨r, hr, p1, p2, p3, p4⟩ := bfsLoop_unreach g s goal hnr fuel _
          hinv2 (by
            rw [hm]
            show undisc g s st.visitedSet + rest.length < fuel
            omega)
        exact ⟨r, by simp only [bfsLoop, hq, if_neg hg]; exact hr, p1, p2, p3, p4⟩

/-- Loop invariant for DFS on an unreachable goal. -/
structure Dfs5Inv (g : Graph) (s : Node) (st : DfsState) : Prop where
  rch : ∀ v ∈ st.visitedSet, Reachable g s v
  rchS : ∀ e ∈ st.stack, Reachable g s (e : Node × List Node).1
  veq : st.visited = st.visitedSet
  cl : ∀ v ∈ st.visitedSet, ∀ n ∈ adjL g v,
    n ∈ st.visitedSet ∨ ∃ p, (n, p) ∈ st.stack
  strt : s ∈ st.visitedSet ∨ ∃ p, (s, p) ∈ st.stack
  fr : ∀ e ∈ st.stack, (e : Node × List Node).1 ∈ nodesOf g s

theorem dfsLoop_unreach (g : Graph) (s goal : Node) (hnr : ¬ Reachable g s goal) :
    ∀ (fuel : Nat) (st : DfsState), Dfs5Inv g s st →
      undisc g s st.visitedSet * (totalAdj g + 2) + st.stack.length < fuel →
      ∃ r, dfsLoop g goal fuel st = some r ∧ r.success = false ∧ r.path = [] ∧
        s ∈ r.visited ∧ (∀ v, v ∈ r.visited ↔ Reachable g s v)
  | 0, st, _, hf => by omega
  | fuel + 1, st, hinv, hf => by
    cases hq : st.stack with
    | nil =>
      have hs : s ∈ st.visitedSet := by
        rcases hinv.strt with h | ⟨p, hp⟩
        · exact h
        · rw [hq] at hp
          simp at hp
      refine ⟨_, by simp only [dfsLoop, hq]; rfl, rfl, rfl, hinv.veq ▸ hs, ?_⟩
      intro v
      constructor
      · intro hv
        exact hinv.rch v (hinv.veq ▸ hv)
      · intro hv
        show v ∈ st.visited
        rw [hinv.veq]
        refine reachable_subset_closed g s (fun v => v ∈ st.visitedSet)
          hs ?_ v hv
        intro u hu n hn
        rcases hinv.cl u hu n hn with h | ⟨p, hp⟩
        · exact h
        · rw [hq] at hp
          simp at hp
    | cons e rest =>
      obtain ⟨current, path⟩ := e
      rw [hq] at hf
      simp only [List.length_cons] at hf
      have hcurr : Reachable g s current :=
        hinv.rchS (current, path) (by rw [hq]; simp)
      by_cases hv : current ∈ st.visitedSet
      · have hinv2 : Dfs5Inv g s { st with stack := rest } := by
          refine ⟨hinv.rch, ?_, hinv.veq, ?_, ?_, ?_⟩
          · intro e he
            exact hinv.rchS e (by rw [hq]; exact List.mem_cons_of_mem _ he)
          · intro u hu n hn
            rcases hinv.cl u hu n hn with h | ⟨p, hp⟩
            · exact Or.inl h
            · rw [hq] at hp
              rcases List.mem_cons.mp hp with hp2 | hp2
              · injection hp2 with h1 h2
                exact Or.inl (h1 ▸ hv)
              · exact Or.inr ⟨p, hp2⟩
          · rcases hinv.strt with h | ⟨p, hp⟩
            · exact Or.inl h
            · rw [hq] at hp
              rcases List.mem_cons.mp hp with hp2 | hp2
              · injection hp2 with h1 h2
                exact Or.inl (h1 ▸ hv)
              · exact Or.inr ⟨p, hp2⟩
          · intro e he
            exact hinv.fr e (by rw [hq]; exact List.mem_cons_of_mem _ he)
        obtain ⟨r, hr, p1, p2, p3, p4⟩ := dfsLoop_unreach g s goal hnr fuel
          { st with stack := rest } hinv2
          (by show undisc g s st.visitedSet * (totalAdj g + 2) +
            rest.length < fuel; omega)
        exact ⟨r, by simp only [dfsLoop, hq, if_pos hv]; exact hr, p1, p2, p3, p4⟩
      · by_cases hg : current = goal
        · exact absurd (hg ▸ hcurr) hnr
        · have hcur : current ∈ nodesOf g s :=
            hinv.fr (current, path) (by rw [hq]; simp)
          have heq := undisc_add g s st.visitedSet current hcur hv
          have hexp : undisc g s st.visitedSet * (totalAdj g + 2) =
              undisc g s (st.visitedSet ++ [current]) * (totalAdj g + 2) +
                (totalAdj g + 2) := by
            rw [← heq, Nat.add_mul, Nat.one_mul]
          have hst1 : ∀ e ∈ ({ st with
              stack := rest
              visitedSet := st.visitedSet ++ [current]
              visited := st.visited ++ [current] } : DfsState).stack,
              e ∈ st.stack := by
            intro e he
            rw [hq]
            exact List.mem_cons_of_mem _ he
          have hinv2 : Dfs5Inv g s (dfsPush current path
              (adjL g current).reverse
              { st with
                stack := rest
                visitedSet := st.visitedSet ++ [current]
                visited := st.visited ++ [current] }) := by
            refine ⟨?_, ?_, ?_, ?_, ?_, ?_⟩
            · intro v hvv
              rw [dfsPush_visitedSet] at hvv
              rcases List.mem_append.mp hvv with h | h
              · exact hinv.rch v h
              · simp at h
                subst h
                exact hcurr
            · intro e he
              rcases dfsPush_stack_mem current path _ _ e he with h | ⟨n, hn, hne⟩
              · exact hinv.rchS e (hst1 e h)
              · subst hne
                exact hcurr.step (List.mem_reverse.mp hn)
            · rw [dfsPush_visited, dfsPush_visitedSet]
              show st.visited ++ [current] = st.visitedSet ++ [current]
              rw [hinv.veq]
            · intro v hvv n hn
              rw [dfsPush_visitedSet] at hvv
              rw [dfsPush_visitedSet]
              rcases List.mem_append.mp hvv with hvv2 | hvv2
              · rcases hinv.cl v hvv2 n hn with h | ⟨p, hp⟩
                · exact Or.inl (List.mem_append.mpr (Or.inl h))
                · rw [hq] at hp
                  rcases List.mem_cons.mp hp with hp2 | hp2
                  · injection hp2 with h1 h2
                    exact Or.inl (by simp [h1])
                  · exact Or.inr ⟨p, dfsPush_stack_mono current path _ _ _ hp2⟩
              · simp at hvv2
                subst hvv2
                by_cases hnv : n ∈ st.visitedSet ++ [v]
                · exact Or.inl hnv
                · rcases dfsPush_pushes v path (adjL g v).reverse
                    { st with
                      stack := rest
                      visitedSet := st.visitedSet ++ [v]
                      visited := st.visited ++ [v] } n
                    (List.mem_reverse.mpr hn) (by exact hnv) with ⟨q, hqmem⟩
                  exact Or.inr ⟨q, hqmem⟩
            · rw [dfsPush_visitedSet]
              rcases hinv.strt with h | ⟨p, hp⟩
              · exact Or.inl (List.mem_append.mpr (Or.inl h))
              · rw [hq] at hp
                rcases List.mem_cons.mp hp with hp2 | hp2
                · injection hp2 with h1 h2
                  exact Or.inl (by simp [h1])
                · exact Or.inr ⟨p, dfsPush_stack_mono current path _ _ _ hp2⟩
            · refine dfsPush_frontier g s current path _ _ ?_ ?_
              · intro e he
                exact hinv.fr e (hst1 e he)
              · intro n hn
                exact adjL_subset_nodesOf g s current n (List.mem_reverse.mp hn)
          obtain ⟨r, hr, p1, p2, p3, p4⟩ := dfsLoop_unreach g s goal hnr fuel _
            hinv2 (by
              rw [dfsPush_visitedSet]
              show undisc g s (st.visitedSet ++ [current]) * (totalAdj g + 2) +
                (dfsPush current path (adjL g current).reverse
                  { st with
                    stack := rest
                    visitedSet := st.visitedSet ++ [current]
                    visited := st.visited ++ [current] }).stack.length < fuel
              have hlen := dfsPush_stack_len current path
                (adjL g current).reverse
                { st with
                  stack := rest
                  visitedSet := st.visitedSet ++ [current]
                  visited := st.visited ++ [current] }
              have hrevlen : (adjL g current).reverse.length ≤ totalAdj g := by
                rw [List.length_reverse]
                exact adjL_length_le g current
              have hstl : (dfsPush current path (adjL g current).reverse
                  { st with
                    stack := rest
                    visitedSet := st.visitedSet ++ [current]
                    visited := st.visited ++ [current] }).stack.length ≤
                  rest.length + totalAdj g := by
                refine le_trans hlen ?_
                show rest.length + (adjL g current).reverse.length ≤
                  rest.length + totalAdj g
                omega
              omega)
          exact ⟨r, by simp only [dfsLoop, hq, if_neg hv, if_neg hg]; exact hr,
            p1, p2, p3, p4⟩

theorem greedyPush_visited (h : List (Node × Nat)) (c : Node) (path : List Node) :
    ∀ (ns : List Node) (st : GreedyState),
      (greedyPush h c path ns st).visited = st.visited
  | [], _ => rfl
  | n :: ns, st => by
    by_cases hv : n ∈ st.visitedSet
    · rw [greedyPush, if_pos hv]
      exact greedyPush_visited h c path ns st
    · rw [greedyPush, if_neg hv]
      by_cases hp : (afind st.parent n).isSome
      · rw [if_pos hp]
        exact greedyPush_visited h c path ns _
      · rw [if_neg hp]
        exact greedyPush_visited h c path ns _

theorem greedyPush_pq_mono (h : List (Node × Nat)) (c : Node) (path : List Node) :
    ∀ (ns : List Node) (st : GreedyState) (e : Nat × Node × List Node),
      e ∈ st.pq → e ∈ (greedyPush h c path ns st).pq
  | [], _, _, he => he
  | n :: ns, st, e, he => by
    by_cases hv : n ∈ st.visitedSet
    · rw [greedyPush, if_pos hv]
      exact greedyPush_pq_mono h c path ns st e he
    · rw [greedyPush, if_neg hv]
      by_cases hp : (afind st.parent n).isSome
      · rw [if_pos hp]
        exact greedyPush_pq_mono h c path ns _ e (by simp [he])
      · rw [if_neg hp]
        exact greedyPush_pq_mono h c path ns _ e (by simp [he])

theorem greedyPush_pushes (h : List (Node × Nat)) (c : Node) (path : List Node) :
    ∀ (ns : List Node) (st : GreedyState) (n : Node), n ∈ ns →
      ¬ n ∈ st.visitedSet →
      ∃ e ∈ (greedyPush h c path ns st).pq, (e : Nat × Node × List Node).2.1 = n
  | [], _, n, hn, _ => by simp at hn
  | m :: ns, st, n, hn, hnv => by
    by_cases hv : m ∈ st.visitedSet
    · rw [greedyPush, if_pos hv]
      rcases List.mem_cons.mp hn with rfl | hn2
      · exact absurd hv hnv
      · exact greedyPush_pushes h c path ns st n hn2 hnv
    · have hcons : ∀ (st' : GreedyState),
          st'.pq = st.pq ++ [(hget h m, m, path ++ [m])] →
          st'.visitedSet = st.visitedSet →
          ∃ e ∈ (greedyPush h c path ns st').pq,
            (e : Nat × Node × List Node).2.1 = n := by
        intro st' hst' hvs'
        rcases List.mem_cons.mp hn with rfl | hn2
        · exact ⟨(hget h n, n, path ++ [n]),
            greedyPush_pq_mono h c path ns st' _ (by rw [hst']; simp), rfl⟩
        · exact greedyPush_pushes h c path ns st' n hn2 (by rw [hvs']; exact hnv)
      rw [greedyPush, if_neg hv]
      by_cases hp : (afind st.parent m).isSome
      · rw [if_pos hp]
        exact hcons _ rfl rfl
      · rw [if_neg hp]
        exact hcons _ rfl rfl

/-- Loop invariant for greedy best-first search on an unreachable goal. -/
structure Greedy5Inv (g : Graph) (s : Node) (st : GreedyState) : Prop where
  rch : ∀ v ∈ st.visitedSet, Reachable g s v
  rchP : ∀ e ∈ st.pq, Reachable g s (e : Nat × Node × List Node).2.1
  veq : st.visited = st.visitedSet
  cl : ∀ v ∈ st.visitedSet, ∀ n ∈ adjL g v, n ∈ st.visitedSet ∨
    ∃ e ∈ st.pq, (e : Nat × Node × List Node).2.1 = n
  strt : s ∈ st.visitedSet ∨ ∃ e ∈ st.pq, (e : Nat × Node × List Node).2.1 = s
  fr : ∀ e ∈ st.pq, (e : Nat × Node × List Node).2.1 ∈ nodesOf g s

theorem greedyLoop_unreach (g : Graph) (hh : List (Node × Nat)) (s goal : Node)
    (hnr : ¬ Reachable g s goal) :
    ∀ (fuel : Nat) (st : GreedyState), Greedy5Inv g s st →
      undisc g s st.visitedSet * (totalAdj g + 2) + st.pq.length < fuel →
      ∃ r, greedyLoop g hh goal fuel st = some r ∧ r.success = false ∧
        r.path = [] ∧ s ∈ r.visited ∧ (∀ v, v ∈ r.visited ↔ Reachable g s v)
  | 0, st, _, hf => by omega
  | fuel + 1, st, hinv, hf => by
    cases hpq : popMin st.pq with
    | none =>
      rw [popMin_eq_none] at hpq
      have hs : s ∈ st.visitedSet := by
        rcases hinv.strt with h | ⟨e, he, _⟩
        · exact h
        · rw [hpq] at he
          simp at he
      refine ⟨_, by simp only [greedyLoop, popMin_eq_none.mpr hpq]; rfl, rfl,
        rfl, hinv.veq ▸ hs, ?_⟩
      intro v
      constructor
      · intro hv
        exact hinv.rch v (hinv.veq ▸ hv)
      · intro hv
        show v ∈ st.visited
        rw [hinv.veq]
        refine reachable_subset_closed g s (fun v => v ∈ st.visitedSet)
          hs ?_ v hv
        intro u hu n hn
        rcases hinv.cl u hu n hn with h | ⟨e, he, _⟩
        · exact h
        · rw [hpq] at he
          simp at he
    | some p =>
      obtain ⟨⟨curH, current, path⟩, rest⟩ := p
      have hlen := popMin_length hpq
      rw [hlen] at hf
      have hcurr : Reachable g s current := hinv.rchP _ (popMin_mem hpq)
      by_cases hv : current ∈ st.visitedSet
      · have hinv2 : Greedy5Inv g s { st with pq := rest } := by
          refine ⟨hinv.rch, ?_, hinv.veq, ?_, ?_, ?_⟩
          · intro e he
            exact hinv.rchP e (popMin_rest_subset hpq e he)
          · intro u hu n hn
            rcases hinv.cl u hu n hn with h | ⟨e, he, hen⟩
            · exact Or.inl h
            · rcases popMin_mem_or hpq e he with rfl | he2
              · exact Or.inl (hen ▸ hv)
              · exact Or.inr ⟨e, he2, hen⟩
          · rcases hinv.strt with h | ⟨e, he, hen⟩
            · exact Or.inl h
            · rcases popMin_mem_or hpq e he with rfl | he2
              · exact Or.inl (hen ▸ hv)
              · exact Or.inr ⟨e, he2, hen⟩
          · intro e he
            exact hinv.fr e (popMin_rest_subset hpq e he)
        obtain ⟨r, hr, p1, p2, p3, p4⟩ := greedyLoop_unreach g hh s goal hnr
          fuel { st with pq := rest } hinv2
          (by show undisc g s st.visitedSet * (totalAdj g + 2) +
            rest.length < fuel; omega)
        exact ⟨r, by simp only [greedyLoop, hpq, if_pos hv]; exact hr,
          p1, p2, p3, p4⟩
      · by_cases hg : current = goal
        · exact absurd (hg ▸ hcurr) hnr
        · have hcur : current ∈ nodesOf g s := hinv.fr _ (popMin_mem hpq)
          have heq := undisc_add g s st.visitedSet current hcur hv
          have hexp : undisc g s st.visitedSet * (totalAdj g + 2) =
              undisc g s (st.visitedSet ++ [current]) * (totalAdj g + 2) +
                (totalAdj g + 2) := by
            rw [← heq, Nat.add_mul, Nat.one_mul]
          obtain ⟨hvs2, hlen2, hmem2⟩ := greedyPush_shape hh current path
            (adjL g current)
            { st with
              pq := rest
              visitedSet := st.visitedSet ++ [current]
              visited := st.visited ++ [current] }
          have hinv2 : Greedy5Inv g s (greedyPush hh current path
              (adjL g current)
              { st with
                pq := rest
                visitedSet := st.visitedSet ++ [current]
                visited := st.visited ++ [current] }) := by
            refine ⟨?_, ?_, ?_, ?_, ?_, ?_⟩
            · intro v hvv
              rw [hvs2] at hvv
              rcases List.mem_append.mp hvv with h | h
              · exact hinv.rch v h
              · simp at h
                subst h
                exact hcurr
            · intro e he
              rcases hmem2 e he with h | ⟨n, hn, hne⟩
              · exact hinv.rchP e (popMin_rest_subset hpq e h)
              · rw [hne]
                exact hcurr.step hn
            · have h1 := greedyPush_shape hh current path (adjL g current)
                { st with
                  pq := rest
                  visitedSet := st.visitedSet ++ [current]
                  visited := st.visited ++ [current] }
              rw [h1.1]
              show (greedyPush hh current path (adjL g current) _).visited =
                st.visitedSet ++ [current]
              rw [greedyPush_visited]
              show st.visited ++ [current] = st.visitedSet ++ [current]
              rw [hinv.veq]
            · intro v hvv n hn
              rw [hvs2] at hvv
              rw [hvs2]
              rcases List.mem_append.mp hvv with hvv2 | hvv2
              · rcases hinv.cl v hvv2 n hn with h | ⟨e, he, hen⟩
                · exact Or.inl (List.mem_append.mpr (Or.inl h))
                · rcases popMin_mem_or hpq e he with rfl | he2
                  · exact Or.inl (by cases hen; simp)
                  · exact Or.inr ⟨e, greedyPush_pq_mono hh current path _ _ e
                      (by exact he2), hen⟩
              · simp at hvv2
                subst hvv2
                by_cases hnv : n ∈ st.visitedSet ++ [v]
                · exact Or.inl hnv
                · exact Or.inr (greedyPush_pushes hh v path (adjL g v)
                    { st with
                      pq := rest
                      visitedSet := st.visitedSet ++ [v]
                      visited := st.visited ++ [v] } n hn (by exact hnv))
            · rw [hvs2]
              rcases hinv.strt with h | ⟨e, he, hen⟩
              · exact Or.inl (List.mem_append.mpr (Or.inl h))
              · rcases popMin_mem_or hpq e he with rfl | he2
                · exact Or.inl (by cases hen; simp)
                · exact Or.inr ⟨e, greedyPush_pq_mono hh current path _ _ e
                    (by exact he2), hen⟩
            · intro e he
              rcases hmem2 e he with h | ⟨n, hn, hne⟩
              · exact hinv.fr e (popMin_rest_subset hpq e h)
              · rw [hne]
                exact adjL_subset_nodesOf g s current n hn
          obtain ⟨r, hr, p1, p2, p3, p4⟩ := greedyLoop_unreach g hh s goal hnr
            fuel _ hinv2 (by
              rw [hvs2]
              show undisc g s (st.visitedSet ++ [current]) * (totalAdj g + 2) +
                (greedyPush hh current path (adjL g current)
                  { st with
                    pq := rest
                    visitedSet := st.visitedSet ++ [current]
                    visited := st.visited ++ [current] }).pq.length < fuel
              have hal := adjL_length_le g current
              have hstl : (greedyPush hh current path (adjL g current)
                  { st with
                    pq := rest
                    visitedSet := st.visitedSet ++ [current]
                    visited := st.visited ++ [current] }).pq.length ≤
                  rest.length + totalAdj g := by
                refine le_trans hlen2 ?_
                show rest.length + (adjL g current).length ≤
                  rest.length + totalAdj g
                omega
              omega)
          refine ⟨r, ?_, p1, p2, p3, p4⟩
          simp only [greedyLoop, hpq, if_neg hv, if_neg hg]
          exact hr

theorem dijRelax_c5 (w : List ((Node × Node) × Nat)) (c : Node) (d : Nat)
    (path : List Node) :
    ∀ (ns : List Node) (st : DijState),
      (dijRelax w c d path ns st).visited = st.visited ∧
      (∀ e ∈ st.pq, e ∈ (dijRelax w c d path ns st).pq) ∧
      (∀ m, (afind st.distances m).isSome →
        (afind (dijRelax w c d path ns st).distances m).isSome) ∧
      (∀ n ∈ ns, ¬ n ∈ st.visitedSet →
        (afind (dijRelax w c d path ns st).distances n).isSome) ∧
      ((∀ m, ¬ m ∈ st.visitedSet → (afind st.distances m).isSome →
          ∃ e ∈ st.pq, (e : Nat × Node × List Node).2.1 = m) →
        ∀ m, ¬ m ∈ st.visitedSet →
          (afind (dijRelax w c d path ns st).distances m).isSome →
          ∃ e ∈ (dijRelax w c d path ns st).pq,
            (e : Nat × Node × List Node).2.1 = m)
  | [], st => ⟨rfl, fun _ he => he, fun _ h => h, by simp, fun h => h⟩
  | n :: ns, st => by
    by_cases hv : n ∈ st.visitedSet
    · simp only [dijRelax, if_pos hv]
      obtain ⟨h1, h2, h3, h4, h5⟩ := dijRelax_c5 w c d path ns st
      refine ⟨h1, h2, h3, ?_, h5⟩
      intro m hm hmv
      rcases List.mem_cons.mp hm with rfl | hm2
      · exact absurd hv hmv
      · exact h4 m hm2 hmv
    · have hstep : ∀ (st' : DijState), st'.visited = st.visited →
          st'.visitedSet = st.visitedSet →
          (∀ e ∈ st.pq, e ∈ st'.pq) →
          (∀ m, (afind st.distances m).isSome →
            (afind st'.distances m).isSome) →
          (afind st'.distances n).isSome →
          ((∀ m, ¬ m ∈ st.visitedSet → (afind st.distances m).isSome →
              ∃ e ∈ st.pq, (e : Nat × Node × List Node).2.1 = m) →
            ∀ m, ¬ m ∈ st.visitedSet → (afind st'.distances m).isSome →
              ∃ e ∈ st'.pq, (e : Nat × Node × List Node).2.1 = m) →
          (dijRelax w c d path ns st').visited = st.visited ∧
          (∀ e ∈ st.pq, e ∈ (dijRelax w c d path ns st').pq) ∧
          (∀ m, (afind st.distances m).isSome →
            (afind (dijRelax w c d path ns st').distances m).isSome) ∧
          (∀ m ∈ n :: ns, ¬ m ∈ st.visitedSet →
            (afind (dijRelax w c d path ns st').distances m).isSome) ∧
          ((∀ m, ¬ m ∈ st.visitedSet → (afind st.distances m).isSome →
              ∃ e ∈ st.pq, (e : Nat × Node × List Node).2.1 = m) →
            ∀ m, ¬ m ∈ st.visitedSet →
              (afind (dijRelax w c d path ns st').distances m).isSome →
              ∃ e ∈ (dijRelax w c d path ns st').pq,
                (e : Nat × Node × List Node).2.1 = m) := by
        intro st' hvd hvs hpq hdm hcov hd2
        obtain ⟨h1, h2, h3, h4, h5⟩ := dijRelax_c5 w c d path ns st'
        refine ⟨h1.trans hvd, fun e he => h2 e (hpq e he),
          fun m hm => h3 m (hdm m hm), ?_, ?_⟩
        · intro m hm hmv
          rcases List.mem_cons.mp hm with rfl | hm2
          · exact h3 m hcov
          · exact h4 m hm2 (by rw [hvs]; exact hmv)
        · intro hst m hm hmv
          have h5' := h5 (by
            intro m2 hm2 hm2s
            exact hd2 hst m2 (by rw [← hvs]; exact hm2) hm2s)
          exact h5' m (by rw [hvs]; exact hm) hmv
      have hcore : ∀ (st' : DijState), st'.visited = st.visited →
          st'.visitedSet = st.visitedSet →
          st'.distances = dset st.distances n (d + wget w (c, n)) →
          st'.pq = st.pq ++ [(d + wget w (c, n), n, path ++ [n])] →
          (dijRelax w c d path ns st').visited = st.visited ∧
          (∀ e ∈ st.pq, e ∈ (dijRelax w c d path ns st').pq) ∧
          (∀ m, (afind st.distances m).isSome →
            (afind (dijRelax w c d path ns st').distances m).isSome) ∧
          (∀ m ∈ n :: ns, ¬ m ∈ st.visitedSet →
            (afind (dijRelax w c d path ns st').distances m).isSome) ∧
          ((∀ m, ¬ m ∈ st.visitedSet → (afind st.distances m).isSome →
              ∃ e ∈ st.pq, (e : Nat × Node × List Node).2.1 = m) →
            ∀ m, ¬ m ∈ st.visitedSet →
              (afind (dijRelax w c d path ns st').distances m).isSome →
              ∃ e ∈ (dijRelax w c d path ns st').pq,
                (e : Nat × Node × List Node).2.1 = m) := by
        intro st' hvd hvs hdst hpq
        refine hstep st' hvd hvs ?_ ?_ ?_ ?_
        · intro e he
          rw [hpq]
          exact List.mem_append.mpr (Or.inl he)
        · intro m hm
          rw [hdst]
          by_cases hmn : m = n
          · subst hmn
            rw [afind_dset_self]
            rfl
          · rw [afind_dset_ne _ hmn]
            exact hm
        · rw [hdst, afind_dset_self]
          rfl
        · intro hst m hm hmv
          rw [hdst] at hmv
          rw [hpq]
          by_cases hmn : m = n
          · subst hmn
            exact ⟨(d + wget w (c, m), m, path ++ [m]),
              List.mem_append.mpr (Or.inr (by simp)), rfl⟩
          · rw [afind_dset_ne _ hmn] at hmv
            obtain ⟨e, he, hen⟩ := hst m hm hmv
            exact ⟨e, List.mem_append.mpr (Or.inl he), hen⟩
      cases hd : afind st.distances n with
      | none =>
        by_cases hp : (afind st.parent n).isSome
        · simp only [dijRelax, if_neg hv, hd, if_pos hp, if_true]
          exact hcore _ rfl rfl rfl rfl
        · simp only [dijRelax, if_neg hv, hd, if_neg hp, if_true]
          exact hcore _ rfl rfl rfl rfl
      | some dn =>
        by_cases hlt : d + wget w (c, n) < dn
        · by_cases hp : (afind st.parent n).isSome
          · simp only [dijRelax, if_neg hv, hd, decide_eq_true hlt, if_pos hp,
              if_true]
            exact hcore _ rfl rfl rfl rfl
          · simp only [dijRelax, if_neg hv, hd, decide_eq_true hlt, if_neg hp,
              if_true]
            exact hcore _ rfl rfl rfl rfl
        · simp only [dijRelax, if_neg hv, hd, decide_eq_false hlt,
            Bool.false_eq_true, if_false]
          obtain ⟨h1, h2, h3, h4, h5⟩ := dijRelax_c5 w c d path ns st
          have hds : (afind st.distances n).isSome := by
            rw [hd]
            rfl
          refine ⟨h1, h2, h3, ?_, h5⟩
          intro m hm hmv
          rcases List.mem_cons.mp hm with rfl | hm2
          · exact h3 m hds
          · exact h4 m hm2 hmv

/-- Loop invariant for Dijkstra on an unreachable goal. -/
structure Dij5Inv (g : Graph) (s : Node) (st : DijState) : Prop where
  rch : ∀ v ∈ st.visitedSet, Reachable g s v
  rchP : ∀ e ∈ st.pq, Reachable g s (e : Nat × Node × List Node).2.1
  veq : st.visited = st.visitedSet
  clD : ∀ v ∈ st.visitedSet, ∀ n ∈ adjL g v, n ∈ st.visitedSet ∨
    (afind st.distances n).isSome
  d2 : ∀ m, ¬ m ∈ st.visitedSet → (afind st.distances m).isSome →
    ∃ e ∈ st.pq, (e : Nat × Node × List Node).2.1 = m
  strt : s ∈ st.visitedSet ∨ ∃ e ∈ st.pq, (e : Nat × Node × List Node).2.1 = s
  fr : ∀ e ∈ st.pq, (e : Nat × Node × List Node).2.1 ∈ nodesOf g s

theorem dijLoop_unreach (g : Graph) (w : List ((Node × Node) × Nat))
    (s goal : Node) (hnr : ¬ Reachable g s goal) :
    ∀ (fuel : Nat) (st : DijState), Dij5Inv g s st →
      undisc g s st.visitedSet * (totalAdj g + 2) + st.pq.length < fuel →
      ∃ r, dijLoop g w goal fuel st = some r ∧ r.success = false ∧
        r.path = [] ∧ s ∈ r.visited ∧ (∀ v, v ∈ r.visited ↔ Reachable g s v)
  | 0, st, _, hf => by omega
  | fuel + 1, st, hinv, hf => by
    cases hpq : popMin st.pq with
    | none =>
      rw [popMin_eq_none] at hpq
      have hs : s ∈ st.visitedSet := by
        rcases hinv.strt with h | ⟨e, he, _⟩
        · exact h
        · rw [hpq] at he
          simp at he
      refine ⟨_, by simp only [dijLoop, popMin_eq_none.mpr hpq]; rfl, rfl,
        rfl, hinv.veq ▸ hs, ?_⟩
      intro v
      constructor
      · intro hv
        exact hinv.rch v (hinv.veq ▸ hv)
      · intro hv
        show v ∈ st.visited
        rw [hinv.veq]
        refine reachable_subset_closed g s (fun v => v ∈ st.visitedSet)
          hs ?_ v hv
        intro u hu n hn
        rcases hinv.clD u hu n hn with h | hds
        · exact h
        · by_cases hnv : n ∈ st.visitedSet
          · exact hnv
          · obtain ⟨e, he, _⟩ := hinv.d2 n hnv hds
            rw [hpq] at he
            simp at he
    | some p =>
      obtain ⟨⟨curDist, current, path⟩, rest⟩ := p
      have hlen := popMin_length hpq
      rw [hlen] at hf
      have hcurr : Reachable g s current := hinv.rchP _ (popMin_mem hpq)
      by_cases hv : current ∈ st.visitedSet
      · have hinv2 : Dij5Inv g s { st with pq := rest } := by
          refine ⟨hinv.rch, ?_, hinv.veq, hinv.clD, ?_, ?_, ?_⟩
          · intro e he
            exact hinv.rchP e (popMin_rest_subset hpq e he)
          · intro m hm hms
            obtain ⟨e, he, hen⟩ := hinv.d2 m hm hms
            rcases popMin_mem_or hpq e he with rfl | he2
            · exact absurd (hen ▸ hv) hm
            · exact ⟨e, he2, hen⟩
          · rcases hinv.strt with h | ⟨e, he, hen⟩
            · exact Or.inl h
            · rcases popMin_mem_or hpq e he with rfl | he2
              · exact Or.inl (hen ▸ hv)
              · exact Or.inr ⟨e, he2, hen⟩
          · intro e he
            exact hinv.fr e (popMin_rest_subset hpq e he)
        obtain ⟨r, hr, p1, p2, p3, p4⟩ := dijLoop_unreach g w s goal hnr
          fuel { st with pq := rest } hinv2
          (by show undisc g s st.visitedSet * (totalAdj g + 2) +
            rest.length < fuel; omega)
        exact ⟨r, by simp only [dijLoop, hpq, if_pos hv]; exact hr,
          p1, p2, p3, p4⟩
      · by_cases hg : current = goal
        · exact absurd (hg ▸ hcurr) hnr
        · have hcur : current ∈ nodesOf g s := hinv.fr _ (popMin_mem hpq)
          have heq := undisc_add g s st.visitedSet current hcur hv
          have hexp : undisc g s st.visitedSet * (totalAdj g + 2) =
              undisc g s (st.visitedSet ++ [current]) * (totalAdj g + 2) +
                (totalAdj g + 2) := by
            rw [← heq, Nat.add_mul, Nat.one_mul]
          obtain ⟨hvs2, hlen2, hmem2⟩ := dijRelax_shape w current curDist path
            (adjL g current)
            { st with
              pq := rest
              visitedSet := st.visitedSet ++ [current]
              visited := st.visited ++ [current] }
          obtain ⟨c1, c2, c3, c4, c5⟩ := dijRelax_c5 w current curDist path
            (adjL g current)
            { st with
              pq := rest
              visitedSet := st.visitedSet ++ [current]
              visited := st.visited ++ [current] }
          have hinv2 : Dij5Inv g s (dijRelax w current curDist path
              (adjL g current)
              { st with
                pq := rest
                visitedSet := st.visitedSet ++ [current]
                visited := st.visited ++ [current] }) := by
            refine ⟨?_, ?_, ?_, ?_, ?_, ?_, ?_⟩
            · intro v hvv
              rw [hvs2] at hvv
              rcases List.mem_append.mp hvv with h | h
              · exact hinv.rch v h
              · simp at h
                subst h
                exact hcurr
            · intro e he
              rcases hmem2 e he with h | ⟨n, hn, hne⟩
              · exact hinv.rchP e (popMin_rest_subset hpq e h)
              · rw [hne]
                exact hcurr.step hn
            · rw [hvs2, c1]
              show st.visited ++ [current] = st.visitedSet ++ [current]
              rw [hinv.veq]
            · intro v hvv n hn
              rw [hvs2] at hvv
              rw [hvs2]
              rcases List.mem_append.mp hvv with hvv2 | hvv2
              · rcases hinv.clD v hvv2 n hn with h | hds
                · exact Or.inl (List.mem_append.mpr (Or.inl h))
                · exact Or.inr (c3 n hds)
              · simp at hvv2
                subst hvv2
                by_cases hnv : n ∈ st.visitedSet ++ [v]
                · exact Or.inl hnv
                · exact Or.inr (c4 n hn (by exact hnv))
            · intro m hm hms
              rw [hvs2] at hm
              refine c5 ?_ m (by exact hm) hms
              intro m2 hm2 hm2s
              have hm2' : ¬ m2 ∈ st.visitedSet := by
                intro hc
                exact hm2 (List.mem_append.mpr (Or.inl hc))
              obtain ⟨e, he, hen⟩ := hinv.d2 m2 hm2' hm2s
              rcases popMin_mem_or hpq e he with rfl | he2
              · exact absurd (by cases hen; simp) hm2
              · exact ⟨e, he2, hen⟩
            · rw [hvs2]
              rcases hinv.strt with h | ⟨e, he, hen⟩
              · exact Or.inl (List.mem_append.mpr (Or.inl h))
              · rcases popMin_mem_or hpq e he with rfl | he2
                · exact Or.inl (by cases hen; simp)
                · exact Or.inr ⟨e, c2 e (by exact he2), hen⟩
            · intro e he
              rcases hmem2 e he with h | ⟨n, hn, hne⟩
              · exact hinv.fr e (popMin_rest_subset hpq e h)
              · rw [hne]
                exact adjL_subset_nodesOf g s current n hn
          obtain ⟨r, hr, p1, p2, p3, p4⟩ := dijLoop_unreach g w s goal hnr
            fuel _ hinv2 (by
              rw [hvs2]
              show undisc g s (st.visitedSet ++ [current]) * (totalAdj g + 2) +
                (dijRelax w current curDist path (adjL g current)
                  { st with
                    pq := rest
                    visitedSet := st.visitedSet ++ [current]
                    visited := st.visited ++ [current] }).pq.length < fuel
              have hal := adjL_length_le g current
              have hstl : (dijRelax w current curDist path (adjL g current)
                  { st with
                    pq := rest
                    visitedSet := st.visitedSet ++ [current]
                    visited := st.visited ++ [current] }).pq.length ≤
                  rest.length + totalAdj g := by
                refine le_trans hlen2 ?_
                show rest.length + (adjL g current).length ≤
                  rest.length + totalAdj g
                omega
              omega)
          refine ⟨r, ?_, p1, p2, p3, p4⟩
          simp only [dijLoop, hpq, if_neg hv, if_neg hg]
          exact hr

theorem astRelax_c5 (w : List ((Node × Node) × Nat)) (h : List (Node × Nat))
    (c : Node) (path : List Node) :
    ∀ (ns : List Node) (st : AstState),
      (astRelax w h c path ns st).visited = st.visited ∧
      (∀ e ∈ st.pq, e ∈ (astRelax w h c path ns st).pq) ∧
      (∀ m, (afind st.g_score m).isSome →
        (afind (astRelax w h c path ns st).g_score m).isSome) ∧
      (∀ n ∈ ns, ¬ n ∈ st.visitedSet →
        (afind (astRelax w h c path ns st).g_score n).isSome) ∧
      ((∀ m, ¬ m ∈ st.visitedSet → (afind st.g_score m).isSome →
          ∃ e ∈ st.pq, (e : Nat × Node × List Node).2.1 = m) →
        ∀ m, ¬ m ∈ st.visitedSet →
          (afind (astRelax w h c path ns st).g_score m).isSome →
          ∃ e ∈ (astRelax w h c path ns st).pq,
            (e : Nat × Node × List Node).2.1 = m)
  | [], st => ⟨rfl, fun _ he => he, fun _ hh => hh, by simp, fun hh => hh⟩
  | n :: ns, st => by
    by_cases hv : n ∈ st.visitedSet
    · simp only [astRelax, if_pos hv]
      obtain ⟨h1, h2, h3, h4, h5⟩ := astRelax_c5 w h c path ns st
      refine ⟨h1, h2, h3, ?_, h5⟩
      intro m hm hmv
      rcases List.mem_cons.mp hm with rfl | hm2
      · exact absurd hv hmv
      · exact h4 m hm2 hmv
    · have hstep : ∀ (st' : AstState), st'.visited = st.visited →
          st'.visitedSet = st.visitedSet →
          (∀ e ∈ st.pq, e ∈ st'.pq) →
          (∀ m, (afind st.g_score m).isSome →
            (afind st'.g_score m).isSome) →
          (afind st'.g_score n).isSome →
          ((∀ m, ¬ m ∈ st.visitedSet → (afind st.g_score m).isSome →
              ∃ e ∈ st.pq, (e : Nat × Node × List Node).2.1 = m) →
            ∀ m, ¬ m ∈ st.visitedSet → (afind st'.g_score m).isSome →
              ∃ e ∈ st'.pq, (e : Nat × Node × List Node).2.1 = m) →
          (astRelax w h c path ns st').visited = st.visited ∧
          (∀ e ∈ st.pq, e ∈ (astRelax w h c path ns st').pq) ∧
          (∀ m, (afind st.g_score m).isSome →
            (afind (astRelax w h c path ns st').g_score m).isSome) ∧
          (∀ m ∈ n :: ns, ¬ m ∈ st.visitedSet →
            (afind (astRelax w h c path ns st').g_score m).isSome) ∧
          ((∀ m, ¬ m ∈ st.visitedSet → (afind st.g_score m).isSome →
              ∃ e ∈ st.pq, (e : Nat × Node × List Node).2.1 = m) →
            ∀ m, ¬ m ∈ st.visitedSet →
              (afind (astRelax w h c path ns st').g_score m).isSome →
              ∃ e ∈ (astRelax w h c path ns st').pq,
                (e : Nat × Node × List Node).2.1 = m) := by
        intro st' hvd hvs hpq hdm hcov hd2
        obtain ⟨h1, h2, h3, h4, h5⟩ := astRelax_c5 w h c path ns st'
        refine ⟨h1.trans hvd, fun e he => h2 e (hpq e he),
          fun m hm => h3 m (hdm m hm), ?_, ?_⟩
        · intro m hm hmv
          rcases List.mem_cons.mp hm with rfl | hm2
          · exact h3 m hcov
          · exact h4 m hm2 (by rw [hvs]; exact hmv)
        · intro hst m hm hmv
          have h5' := h5 (by
            intro m2 hm2 hm2s
            exact hd2 hst m2 (by rw [← hvs]; exact hm2) hm2s)
          exact h5' m (by rw [hvs]; exact hm) hmv
      have hcore : ∀ (st' : AstState) (tgv fv : Nat),
          st'.visited = st.visited →
          st'.visitedSet = st.visitedSet →
          st'.g_score = dset st.g_score n tgv →
          st'.pq = st.pq ++ [(fv, n, path ++ [n])] →
          (astRelax w h c path ns st').visited = st.visited ∧
          (∀ e ∈ st.pq, e ∈ (astRelax w h c path ns st').pq) ∧
          (∀ m, (afind st.g_score m).isSome →
            (afind (astRelax w h c path ns st').g_score m).isSome) ∧
          (∀ m ∈ n :: ns, ¬ m ∈ st.visitedSet →
            (afind (astRelax w h c path ns st').g_score m).isSome) ∧
          ((∀ m, ¬ m ∈ st.visitedSet → (afind st.g_score m).isSome →
              ∃ e ∈ st.pq, (e : Nat × Node × List Node).2.1 = m) →
            ∀ m, ¬ m ∈ st.visitedSet →
              (afind (astRelax w h c path ns st').g_score m).isSome →
              ∃ e ∈ (astRelax w h c path ns st').pq,
                (e : Nat × Node × List Node).2.1 = m) := by
        intro st' tgv fv hvd hvs hdst hpq
        refine hstep st' hvd hvs ?_ ?_ ?_ ?_
        · intro e he
          rw [hpq]
          exact List.mem_append.mpr (Or.inl he)
        · intro m hm
          rw [hdst]
          by_cases hmn : m = n
          · subst hmn
            rw [afind_dset_self]
            rfl
          · rw [afind_dset_ne _ hmn]
            exact hm
        · rw [hdst, afind_dset_self]
          rfl
        · intro hst m hm hmv
          rw [hdst] at hmv
          rw [hpq]
          by_cases hmn : m = n
          · subst hmn
            exact ⟨(fv, m, path ++ [m]),
              List.mem_append.mpr (Or.inr (by simp)), rfl⟩
          · rw [afind_dset_ne _ hmn] at hmv
            obtain ⟨e, he, hen⟩ := hst m hm hmv
            exact ⟨e, List.mem_append.mpr (Or.inl he), hen⟩
      cases hd : afind st.g_score n with
      | none =>
        by_cases hp : (afind st.parent n).isSome
        · simp only [astRelax, if_neg hv, hd, if_pos hp, if_true]
          exact hcore _ _ _ rfl rfl rfl rfl
        · simp only [astRelax, if_neg hv, hd, if_neg hp, if_true]
          exact hcore _ _ _ rfl rfl rfl rfl
      | some gn =>
        by_cases hlt : (afind st.g_score c).getD 0 + wget w (c, n) < gn
        · by_cases hp : (afind st.parent n).isSome
          · simp only [astRelax, if_neg hv, hd, decide_eq_true hlt, if_pos hp,
              if_true]
            exact hcore _ _ _ rfl rfl rfl rfl
          · simp only [astRelax, if_neg hv, hd, decide_eq_true hlt, if_neg hp,
              if_true]
            exact hcore _ _ _ rfl rfl rfl rfl
        · simp only [astRelax, if_neg hv, hd, decide_eq_false hlt,
            Bool.false_eq_true, if_false]
          obtain ⟨h1, h2, h3, h4, h5⟩ := astRelax_c5 w h c path ns st
          have hds : (afind st.g_score n).isSome := by
            rw [hd]
            rfl
          refine ⟨h1, h2, h3, ?_, h5⟩
          intro m hm hmv
          rcases List.mem_cons.mp hm with rfl | hm2
          · exact h3 m hds
          · exact h4 m hm2 hmv

/-- Loop invariant for A* on an unreachable goal. -/
structure Ast5Inv (g : Graph) (s : Node) (st : AstState) : Prop where
  rch : ∀ v ∈ st.visitedSet, Reachable g s v
  rchP : ∀ e ∈ st.pq, Reachable g s (e : Nat × Node × List Node).2.1
  veq : st.visited = st.visitedSet
  clD : ∀ v ∈ st.visitedSet, ∀ n ∈ adjL g v, n ∈ st.visitedSet ∨
    (afind st.g_score n).isSome
  d2 : ∀ m, ¬ m ∈ st.visitedSet → (afind st.g_score m).isSome →
    ∃ e ∈ st.pq, (e : Nat × Node × List Node).2.1 = m
  strt : s ∈ st.visitedSet ∨ ∃ e ∈ st.pq, (e : Nat × Node × List Node).2.1 = s
  fr : ∀ e ∈ st.pq, (e : Nat × Node × List Node).2.1 ∈ nodesOf g s

theorem astLoop_unreach (g : Graph) (w : List ((Node × Node) × Nat))
    (h : List (Node × Nat)) (s goal : Node) (hnr : ¬ Reachable g s goal) :
    ∀ (fuel : Nat) (st : AstState), Ast5Inv g s st →
      undisc g s st.visitedSet * (totalAdj g + 2) + st.pq.length < fuel →
      ∃ r, astLoop g w h goal fuel st = some r ∧ r.success = false ∧
        r.path = [] ∧ s ∈ r.visited ∧ (∀ v, v ∈ r.visited ↔ Reachable g s v)
  | 0, st, _, hf => by omega
  | fuel + 1, st, hinv, hf => by
    cases hpq : popMin st.pq with
    | none =>
      rw [popMin_eq_none] at hpq
      have hs : s ∈ st.visitedSet := by
        rcases hinv.strt with hh | ⟨e, he, _⟩
        · exact hh
        · rw [hpq] at he
          simp at he
      refine ⟨_, by simp only [astLoop, popMin_eq_none.mpr hpq]; rfl, rfl,
        rfl, hinv.veq ▸ hs, ?_⟩
      intro v
      constructor
      · intro hv
        exact hinv.rch v (hinv.veq ▸ hv)
      · intro hv
        show v ∈ st.visited
        rw [hinv.veq]
        refine reachable_subset_closed g s (fun v => v ∈ st.visitedSet)
          hs ?_ v hv
        intro u hu n hn
        rcases hinv.clD u hu n hn with hh | hds
        · exact hh
        · by_cases hnv : n ∈ st.visitedSet
          · exact hnv
          · obtain ⟨e, he, _⟩ := hinv.d2 n hnv hds
            rw [hpq] at he
            simp at he
    | some p =>
      obtain ⟨⟨curF, current, path⟩, rest⟩ := p
      have hlen := popMin_length hpq
      rw [hlen] at hf
      have hcurr : Reachable g s current := hinv.rchP _ (popMin_mem hpq)
      by_cases hv : current ∈ st.visitedSet
      · have hinv2 : Ast5Inv g s { st with pq := rest } := by
          refine ⟨hinv.rch, ?_, hinv.veq, hinv.clD, ?_, ?_, ?_⟩
          · intro e he
            exact hinv.rchP e (popMin_rest_subset hpq e he)
          · intro m hm hms
            obtain ⟨e, he, hen⟩ := hinv.d2 m hm hms
            rcases popMin_mem_or hpq e he with rfl | he2
            · exact absurd (hen ▸ hv) hm
            · exact ⟨e, he2, hen⟩
          · rcases hinv.strt with hh | ⟨e, he, hen⟩
            · exact Or.inl hh
            · rcases popMin_mem_or hpq e he with rfl | he2
              · exact Or.inl (hen ▸ hv)
              · exact Or.inr ⟨e, he2, hen⟩
          · intro e he
            exact hinv.fr e (popMin_rest_subset hpq e he)
        obtain ⟨r, hr, p1, p2, p3, p4⟩ := astLoop_unreach g w h s goal hnr
          fuel { st with pq := rest } hinv2
          (by show undisc g s st.visitedSet * (totalAdj g + 2) +
            rest.length < fuel; omega)
        exact ⟨r, by simp only [astLoop, hpq, if_pos hv]; exact hr,
          p1, p2, p3, p4⟩
      · by_cases hg : current = goal
        · exact absurd (hg ▸ hcurr) hnr
        · have hcur : current ∈ nodesOf g s := hinv.fr _ (popMin_mem hpq)
          have heq := undisc_add g s st.visitedSet current hcur hv
          have hexp : undisc g s st.visitedSet * (totalAdj g + 2) =
              undisc g s (st.visitedSet ++ [current]) * (totalAdj g + 2) +
                (totalAdj g + 2) := by
            rw [← heq, Nat.add_mul, Nat.one_mul]
          obtain ⟨hvs2, hlen2, hmem2⟩ := astRelax_shape w h current path
            (adjL g current)
            { st with
              pq := rest
              visitedSet := st.visitedSet ++ [current]
              visited := st.visited ++ [current] }
          obtain ⟨c1, c2, c3, c4, c5⟩ := astRelax_c5 w h current path
            (adjL g current)
            { st with
              pq := rest
              visitedSet := st.visitedSet ++ [current]
              visited := st.visited ++ [current] }
          have hinv2 : Ast5Inv g s (astRelax w h current path
              (adjL g current)
              { st with
                pq := rest
                visitedSet := st.visitedSet ++ [current]
                visited := st.visited ++ [current] }) := by
            refine ⟨?_, ?_, ?_, ?_, ?_, ?_, ?_⟩
            · intro v hvv
              rw [hvs2] at hvv
              rcases List.mem_append.mp hvv with hh | hh
              · exact hinv.rch v hh
              · simp at hh
                subst hh
                exact hcurr
            · intro e he
              rcases hmem2 e he with hh | ⟨n, k, hn, hne⟩
              · exact hinv.rchP e (popMin_rest_subset hpq e hh)
              · rw [hne]
                exact hcurr.step hn
            · rw [hvs2, c1]
              show st.visited ++ [current] = st.visitedSet ++ [current]
              rw [hinv.veq]
            · intro v hvv n hn
              rw [hvs2] at hvv
              rw [hvs2]
              rcases List.mem_append.mp hvv with hvv2 | hvv2
              · rcases hinv.clD v hvv2 n hn with hh | hds
                · exact Or.inl (List.mem_append.mpr (Or.inl hh))
                · exact Or.inr (c3 n hds)
              · simp at hvv2
                subst hvv2
                by_cases hnv : n ∈ st.visitedSet ++ [v]
                · exact Or.inl hnv
                · exact Or.inr (c4 n hn (by exact hnv))
            · intro m hm hms
              rw [hvs2] at hm
              refine c5 ?_ m (by exact hm) hms
              intro m2 hm2 hm2s
              have hm2' : ¬ m2 ∈ st.visitedSet := by
                intro hc
                exact hm2 (List.mem_append.mpr (Or.inl hc))
              obtain ⟨e, he, hen⟩ := hinv.d2 m2 hm2' hm2s
              rcases popMin_mem_or hpq e he with rfl | he2
              · exact absurd (by cases hen; simp) hm2
              · exact ⟨e, he2, hen⟩
            · rw [hvs2]
              rcases hinv.strt with hh | ⟨e, he, hen⟩
              · exact Or.inl (List.mem_append.mpr (Or.inl hh))
              · rcases popMin_mem_or hpq e he with rfl | he2
                · exact Or.inl (by cases hen; simp)
                · exact Or.inr ⟨e, c2 e (by exact he2), hen⟩
            · intro e he
              rcases hmem2 e he with hh | ⟨n, k, hn, hne⟩
              · exact hinv.fr e (popMin_rest_subset hpq e hh)
              · rw [hne]
                exact adjL_subset_nodesOf g s current n hn
          obtain ⟨r, hr, p1, p2, p3, p4⟩ := astLoop_unreach g w h s goal hnr
            fuel _ hinv2 (by
              rw [hvs2]
              show undisc g s (st.visitedSet ++ [current]) * (totalAdj g + 2) +
                (astRelax w h current path (adjL g current)
                  { st with
                    pq := rest
                    visitedSet := st.visitedSet ++ [current]
                    visited := st.visited ++ [current] }).pq.length < fuel
              have hal := adjL_length_le g current
              have hstl : (astRelax w h current path (adjL g current)
                  { st with
                    pq := rest
                    visitedSet := st.visitedSet ++ [current]
                    visited := st.visited ++ [current] }).pq.length ≤
                  rest.length + totalAdj g := by
                refine le_trans hlen2 ?_
                show rest.length + (adjL g current).length ≤
                  rest.length + totalAdj g
                omega
              omega)
          refine ⟨r, ?_, p1, p2, p3, p4⟩
          simp only [astLoop, hpq, if_neg hv, if_neg hg]
          exact hr

theorem init_fuel_lt (g : Graph) (s : Node) :
    undisc g s [] * (totalAdj g + 2) + 1 < fuelB g s := by
  have h1 := undisc_le g s []
  show undisc g s [] * (totalAdj g + 2) + 1 <
    (totalAdj g + 2) * ((nodesOf g s).length + 1)
  have h2 : undisc g s [] * (totalAdj g + 2) ≤
      (nodesOf g s).length * (totalAdj g + 2) :=
    Nat.mul_le_mul_right _ h1
  have h3 : (totalAdj g + 2) * ((nodesOf g s).length + 1) =
      (nodesOf g s).length * (totalAdj g + 2) + (totalAdj g + 2) := by ring
  omega

theorem s_mem_nodesOf (g : Graph) (s : Node) : s ∈ nodesOf g s := by
  unfold nodesOf
  rw [List.mem_dedup]
  exact List.mem_cons_self _ _

/-- The common shape of the unreachable-goal result in claim C5. -/
def unreachResultOk (g : Graph) (s : Node) (r : SearchResult) : Prop :=
  r.success = false ∧ r.path = [] ∧ r.visited ≠ [] ∧
    ∀ v, v ∈ r.visited ↔ Reachable g s v

/-- C5: on every finite graph whose goal is not reachable from the start,
each of the five algorithms returns normally with `success = false`, an
empty `path`, and a non-empty `visited` list containing exactly the nodes
reachable from the start. -/
theorem search_unreachable_goal (g : Graph) (w : List ((Node × Node) × Nat))
    (h : List (Node × Nat)) (s t : Node) (hnr : ¬ Reachable g s t) :
    (∃ r, BreadthFirstSearch.search g s t = some r ∧ unreachResultOk g s r) ∧
    (∃ r, DepthFirstSearch.search g s t = some r ∧ unreachResultOk g s r) ∧
    (∃ r, DijkstraSearch.search g w s t = some r ∧ unreachResultOk g s r) ∧
    (∃ r, AStarSearch.search g w h s t = some r ∧ unreachResultOk g s r) ∧
    (∃ r, GreedyBestFirstSearch.search g h s t = some r ∧
      unreachResultOk g s r) := by
  refine ⟨?_, ?_, ?_, ?_, ?_⟩
  · have hinv : Bfs5Inv g s (bfsInit s) := by
      refine ⟨?_, ?_, ?_, ?_, ?_, ?_⟩
      · intro v hv
        simp only [bfsInit] at hv
        simp at hv
        subst hv
        exact Reachable.refl
      · intro e he
        simp only [bfsInit] at he
        simp at he
        subst he
        simp [bfsInit]
      · intro v hv
        exact hv
      · intro v hv
        exact Or.inl hv
      · intro v hv hnoq n hn
        simp only [bfsInit] at hv
        simp at hv
        subst hv
        exact absurd (by simp [bfsInit]) (hnoq [v] 0)
      · simp [bfsInit]
    obtain ⟨r, hr, p1, p2, p3, p4⟩ := bfsLoop_unreach g s t hnr
      ((nodesOf g s).length + 2) (bfsInit s) hinv (by
        have h1 := undisc_le g s [s]
        show undisc g s [s] + 1 < (nodesOf g s).length + 2
        omega)
    exact ⟨r, hr, p1, p2, p3, p4⟩
  · have hinv : Dfs5Inv g s (dfsInit s) := by
      refine ⟨?_, ?_, rfl, ?_, ?_, ?_⟩
      · intro v hv
        simp [dfsInit] at hv
      · intro e he
        simp only [dfsInit] at he
        simp at he
        subst he
        exact Reachable.refl
      · intro v hv
        simp [dfsInit] at hv
      · exact Or.inr ⟨[s], by simp [dfsInit]⟩
      · intro e he
        simp only [dfsInit] at he
        simp at he
        subst he
        exact s_mem_nodesOf g s
    obtain ⟨r, hr, p1, p2, p3, p4⟩ := dfsLoop_unreach g s t hnr
      (fuelB g s) (dfsInit s) hinv (by
        show undisc g s [] * (totalAdj g + 2) + 1 < fuelB g s
        exact init_fuel_lt g s)
    exact ⟨r, hr, p1, p2, List.ne_nil_of_mem p3, p4⟩
  · have hinv : Dij5Inv g s (dijInit s) := by
      refine ⟨?_, ?_, rfl, ?_, ?_, ?_, ?_⟩
      · intro v hv
        simp [dijInit] at hv
      · intro e he
        simp only [dijInit] at he
        simp at he
        subst he
        exact Reachable.refl
      · intro v hv
        simp [dijInit] at hv
      · intro m _ hms
        by_cases hms2 : m = s
        · subst hms2
          exact ⟨(0, m, [m]), by simp [dijInit], rfl⟩
        · exfalso
          have : afind (dijInit s).distances m = none := by
            simp [dijInit, afind, hms2]
          rw [this] at hms
          simp at hms
      · exact Or.inr ⟨(0, s, [s]), by simp [dijInit], rfl⟩
      · intro e he
        simp only [dijInit] at he
        simp at he
        subst he
        exact s_mem_nodesOf g s
    obtain ⟨r, hr, p1, p2, p3, p4⟩ := dijLoop_unreach g w s t hnr
      (fuelB g s) (dijInit s) hinv (by
        show undisc g s [] * (totalAdj g + 2) + 1 < fuelB g s
        exact init_fuel_lt g s)
    exact ⟨r, hr, p1, p2, List.ne_nil_of_mem p3, p4⟩
  · have hinv : Ast5Inv g s (astInit h s) := by
      refine ⟨?_, ?_, rfl, ?_, ?_, ?_, ?_⟩
      · intro v hv
        simp [astInit] at hv
      · intro e he
        simp only [astInit] at he
        simp at he
        subst he
        exact Reachable.refl
      · intro v hv
        simp [astInit] at hv
      · intro m _ hms
        by_cases hms2 : m = s
        · subst hms2
          exact ⟨(hget h m, m, [m]), by simp [astInit], rfl⟩
        · exfalso
          have : afind (astInit h s).g_score m = none := by
            simp [astInit, afind, hms2]
          rw [this] at hms
          simp at hms
      · exact Or.inr ⟨(hget h s, s, [s]), by simp [astInit], rfl⟩
      · intro e he
        simp only [astInit] at he
        simp at he
        subst he
        exact s_mem_nodesOf g s
    obtain ⟨r, hr, p1, p2, p3, p4⟩ := astLoop_unreach g w h s t hnr
      (fuelB g s) (astInit h s) hinv (by
        show undisc g s [] * (totalAdj g + 2) + 1 < fuelB g s
        exact init_fuel_lt g s)
    exact ⟨r, hr, p1, p2, List.ne_nil_of_mem p3, p4⟩
  · have hinv : Greedy5Inv g s (greedyInit h s) := by
      refine ⟨?_, ?_, rfl, ?_, ?_, ?_⟩
      · intro v hv
        simp [greedyInit] at hv
      · intro e he
        simp only [greedyInit] at he
        simp at he
        subst he
        exact Reachable.refl
      · intro v hv
        simp [greedyInit] at hv
      · exact Or.inr ⟨(hget h s, s, [s]), by simp [greedyInit], rfl⟩
      · intro e he
        simp only [greedyInit] at he
        simp at he
        subst he
        exact s_mem_nodesOf g s
    obtain ⟨r, hr, p1, p2, p3, p4⟩ := greedyLoop_unreach g h s t hnr
      (fuelB g s) (greedyInit h s) hinv (by
        show undisc g s [] * (totalAdj g + 2) + 1 < fuelB g s
        exact init_fuel_lt g s)
    exact ⟨r, hr, p1, p2, List.ne_nil_of_mem p3, p4⟩

def gU5 : Graph := [("A", ["B"]), ("B", []), ("C", [])]

theorem search_unreachable_goal_witness :
    ¬ Reachable gU5 "A" "C" ∧
    ((∃ r, BreadthFirstSearch.search gU5 "A" "C" = some r ∧
        unreachResultOk gU5 "A" r) ∧
      (∃ r, DepthFirstSearch.search gU5 "A" "C" = some r ∧
        unreachResultOk gU5 "A" r) ∧
      (∃ r, DijkstraSearch.search gU5 [] "A" "C" = some r ∧
        unreachResultOk gU5 "A" r) ∧
      (∃ r, AStarSearch.search gU5 [] [] "A" "C" = some r ∧
        unreachResultOk gU5 "A" r) ∧
      (∃ r, GreedyBestFirstSearch.search gU5 [] "A" "C" = some r ∧
        unreachResultOk gU5 "A" r)) := by
  have hnr : ¬ Reachable gU5 "A" "C" := by
    intro hr
    have hx := reachable_subset_closed gU5 "A"
      (fun v => v ∈ (["A", "B"] : List Node)) (by simp) ?_ "C" hr
    · simp at hx
    · intro v hvv n hn
      simp at hvv
      rcases hvv with rfl | rfl
      · have : adjL gU5 "A" = ["B"] := by decide
        rw [this] at hn
        simp at hn
        subst hn
        simp
      · have : adjL gU5 "B" = [] := by decide
        rw [this] at hn
        simp at hn
  exact ⟨hnr, search_unreachable_goal gU5 [] [] "A" "C" hnr⟩

theorem pathWeight_extend (w : List ((Node × Node) × Nat)) :
    ∀ (p : List Node) (c n : Node), p.getLast? = some c →
      pathWeight w (p ++ [n]) = pathWeight w p + wget w (c, n)
  | [], _, _, h => by simp at h
  | [a], c, n, h => by
    simp at h
    subst h
    show wget w (a, n) + pathWeight w [n] = pathWeight w [a] + wget w (a, n)
    show wget w (a, n) + 0 = 0 + wget w (a, n)
    omega
  | a :: b :: rest, c, n, h => by
    have h2 : (b :: rest).getLast? = some c := by
      rw [List.getLast?_cons_cons] at h
      exact h
    show wget w (a, b) + pathWeight w ((b :: rest) ++ [n]) =
      wget w (a, b) + pathWeight w (b :: rest) + wget w (c, n)
    rw [pathWeight_extend w (b :: rest) c n h2]
    omega

theorem validPath_cases {g : Graph} {s t : Node} {q : List Node}
    (h : validPath g s t q) :
    (q = [s] ∧ t = s) ∨
      ∃ q' v, q = q' ++ [t] ∧ validPath g s v q' ∧ t ∈ adjL g v := by
  obtain ⟨hne, hh, hl, hc⟩ := h
  rcases List.eq_nil_or_concat q with rfl | ⟨q', a, rfl⟩
  · exact absurd rfl hne
  · simp only [List.concat_eq_append] at hne hh hl hc ⊢
    have ha : a = t := by
      rw [List.getLast?_concat] at hl
      exact Option.some.inj hl
    subst ha
    rcases q' with _ | ⟨b, q''⟩
    · left
      have hts : a = s := by simpa using hh
      exact ⟨by rw [hts]; rfl, hts⟩
    · right
      have hgs : ∃ v, (b :: q'').getLast? = some v := by
        cases hgl : (b :: q'').getLast? with
        | none =>
          have := List.getLast?_isSome.mpr (List.cons_ne_nil b q'')
          rw [hgl] at this
          simp at this
        | some v => exact ⟨v, rfl⟩
      obtain ⟨v, hgl⟩ := hgs
      rw [List.chain'_append] at hc
      obtain ⟨hc1, _, hc3⟩ := hc
      refine ⟨b :: q'', v, rfl, ⟨List.cons_ne_nil _ _, ?_, hgl, hc1⟩, ?_⟩
      · simpa using hh
      · exact hc3 v (by simp [hgl]) a (by simp)

theorem dijRelax_dist_le (w : List ((Node × Node) × Nat)) (c : Node) (d : Nat)
    (path : List Node) :
    ∀ (ns : List Node) (st : DijState) (m : Node) (dm : Nat),
      afind st.distances m = some dm →
      ∃ dm', afind (dijRelax w c d path ns st).distances m = some dm' ∧
        dm' ≤ dm
  | [], _, m, dm, hm => ⟨dm, hm, Nat.le_refl _⟩
  | n :: ns, st, m, dm, hm => by
    by_cases hv : n ∈ st.visitedSet
    · simp only [dijRelax, if_pos hv]
      exact dijRelax_dist_le w c d path ns st m dm hm
    · have hcore : ∀ (st' : DijState),
          st'.distances = dset st.distances n (d + wget w (c, n)) →
          d + wget w (c, n) ≤ dm ∨ m ≠ n →
          ∃ dm', afind (dijRelax w c d path ns st').distances m = some dm' ∧
            dm' ≤ dm := by
        intro st' hdst hcase
        by_cases hmn : m = n
        · subst hmn
          rcases hcase with hle | hne
          · obtain ⟨dm', h1, h2⟩ := dijRelax_dist_le w c d path ns st' m
              (d + wget w (c, m)) (by rw [hdst]; exact afind_dset_self _ _ _)
            exact ⟨dm', h1, le_trans h2 hle⟩
          · exact absurd rfl hne
        · exact dijRelax_dist_le w c d path ns st' m dm
            (by rw [hdst, afind_dset_ne _ hmn]; exact hm)
      cases hd : afind st.distances n with
      | none =>
        have hmn : m ≠ n := by
          intro hmn
          subst hmn
          rw [hm] at hd
          exact Option.noConfusion hd
        by_cases hp : (afind st.parent n).isSome
        · simp only [dijRelax, if_neg hv, hd, if_pos hp, if_true]
          exact hcore _ rfl (Or.inr hmn)
        · simp only [dijRelax, if_neg hv, hd, if_neg hp, if_true]
          exact hcore _ rfl (Or.inr hmn)
      | some dn =>
        by_cases hlt : d + wget w (c, n) < dn
        · have hcase : d + wget w (c, n) ≤ dm ∨ m ≠ n := by
            by_cases hmn : m = n
            · subst hmn
              rw [hm] at hd
              injection hd with hd2
              subst hd2
              exact Or.inl (Nat.le_of_lt hlt)
            · exact Or.inr hmn
          by_cases hp : (afind st.parent n).isSome
          · simp only [dijRelax, if_neg hv, hd, decide_eq_true hlt, if_pos hp,
              if_true]
            exact hcore _ rfl hcase
          · simp only [dijRelax, if_neg hv, hd, decide_eq_true hlt, if_neg hp,
              if_true]
            exact hcore _ rfl hcase
        · simp only [dijRelax, if_neg hv, hd, decide_eq_false hlt,
            Bool.false_eq_true, if_false]
          exact dijRelax_dist_le w c d path ns st m dm hm

theorem dijRelax_dist_closed (w : List ((Node × Node) × Nat)) (c : Node)
    (d : Nat) (path : List Node) :
    ∀ (ns : List Node) (st : DijState) (m : Node), m ∈ st.visitedSet →
      afind (dijRelax w c d path ns st).distances m = afind st.distances m
  | [], _, _, _ => rfl
  | n :: ns, st, m, hm => by
    by_cases hv : n ∈ st.visitedSet
    · simp only [dijRelax, if_pos hv]
      exact dijRelax_dist_closed w c d path ns st m hm
    · have hmn : m ≠ n := fun h => hv (h ▸ hm)
      have hcore : ∀ (st' : DijState),
          st'.visitedSet = st.visitedSet →
          st'.distances = dset st.distances n (d + wget w (c, n)) →
          afind (dijRelax w c d path ns st').distances m =
            afind st.distances m := by
        intro st' hvs hdst
        rw [dijRelax_dist_closed w c d path ns st' m (by rw [hvs]; exact hm),
          hdst, afind_dset_ne _ hmn]
      cases hd : afind st.distances n with
      | none =>
        by_cases hp : (afind st.parent n).isSome
        · simp only [dijRelax, if_neg hv, hd, if_pos hp, if_true]
          exact hcore _ rfl rfl
        · simp only [dijRelax, if_neg hv, hd, if_neg hp, if_true]
          exact hcore _ rfl rfl
      | some dn =>
        by_cases hlt : d + wget w (c, n) < dn
        · by_cases hp : (afind st.parent n).isSome
          · simp only [dijRelax, if_neg hv, hd, decide_eq_true hlt, if_pos hp,
              if_true]
            exact hcore _ rfl rfl
          · simp only [dijRelax, if_neg hv, hd, decide_eq_true hlt, if_neg hp,
              if_true]
            exact hcore _ rfl rfl
        · simp only [dijRelax, if_neg hv, hd, decide_eq_false hlt,
            Bool.false_eq_true, if_false]
          exact dijRelax_dist_closed w c d path ns st m hm

theorem dijRelax_bound (w : List ((Node × Node) × Nat)) (c : Node) (d : Nat)
    (path : List Node) :
    ∀ (ns : List Node) (st : DijState), ∀ n ∈ ns,
      n ∈ st.visitedSet ∨
        ∃ dn, afind (dijRelax w c d path ns st).distances n = some dn ∧
          dn ≤ d + wget w (c, n)
  | [], _, n, hn => by simp at hn
  | n :: ns, st, m, hm => by
    by_cases hv : n ∈ st.visitedSet
    · simp only [dijRelax, if_pos hv]
      rcases List.mem_cons.mp hm with rfl | hm2
      · exact Or.inl hv
      · exact dijRelax_bound w c d path ns st m hm2
    · have hcore : ∀ (st' : DijState),
          st'.visitedSet = st.visitedSet →
          st'.distances = dset st.distances n (d + wget w (c, n)) →
          m ∈ st.visitedSet ∨
            ∃ dn, afind (dijRelax w c d path ns st').distances m = some dn ∧
              dn ≤ d + wget w (c, m) := by
        intro st' hvs hdst
        rcases List.mem_cons.mp hm with rfl | hm2
        · refine Or.inr ?_
          obtain ⟨dm', h1, h2⟩ := dijRelax_dist_le w c d path ns st' m
            (d + wget w (c, m)) (by rw [hdst]; exact afind_dset_self _ _ _)
          exact ⟨dm', h1, h2⟩
        · rcases dijRelax_bound w c d path ns st' m hm2 with h | h
          · exact Or.inl (hvs ▸ h)
          · exact Or.inr h
      cases hd : afind st.distances n with
      | none =>
        by_cases hp : (afind st.parent n).isSome
        · simp only [dijRelax, if_neg hv, hd, if_pos hp, if_true]
          exact hcore _ rfl rfl
        · simp only [dijRelax, if_neg hv, hd, if_neg hp, if_true]
          exact hcore _ rfl rfl
      | some dn =>
        by_cases hlt : d + wget w (c, n) < dn
        · by_cases hp : (afind st.parent n).isSome
          · simp only [dijRelax, if_neg hv, hd, decide_eq_true hlt, if_pos hp,
              if_true]
            exact hcore _ rfl rfl
          · simp only [dijRelax, if_neg hv, hd, decide_eq_true hlt, if_neg hp,
              if_true]
            exact hcore _ rfl rfl
        · simp only [dijRelax, if_neg hv, hd, decide_eq_false hlt,
            Bool.false_eq_true, if_false]
          rcases List.mem_cons.mp hm with rfl | hm2
          · refine Or.inr ?_
            have hle : dn ≤ d + wget w (c, m) := Nat.le_of_not_lt hlt
            obtain ⟨dm', h1, h2⟩ := dijRelax_dist_le w c d path ns st m dn hd
            exact ⟨dm', h1, le_trans h2 hle⟩
          · exact dijRelax_bound w c d path ns st m hm2

theorem dijRelax_opt (g : Graph) (w : List ((Node × Node) × Nat))
    (s c : Node) (d : Nat) (path : List Node)
    (hvp : validPath g s c path) (hpw : pathWeight w path = d) :
    ∀ (ns : List Node) (st : DijState), (∀ n ∈ ns, n ∈ adjL g c) →
      (∀ k n q, (k, n, q) ∈ st.pq → validPath g s n q ∧ pathWeight w q = k) →
      (∀ k n q, (k, n, q) ∈ st.pq →
        ∃ dn, afind st.distances n = some dn ∧ dn ≤ k) →
      (∀ n dn, afind st.distances n = some dn → ¬ n ∈ st.visitedSet →
        ∃ q, (dn, n, q) ∈ st.pq) →
      ((∀ k n q, (k, n, q) ∈ (dijRelax w c d path ns st).pq →
          validPath g s n q ∧ pathWeight w q = k) ∧
        (∀ k n q, (k, n, q) ∈ (dijRelax w c d path ns st).pq →
          ∃ dn, afind (dijRelax w c d path ns st).distances n = some dn ∧
            dn ≤ k) ∧
        (∀ n dn, afind (dijRelax w c d path ns st).distances n = some dn →
          ¬ n ∈ (dijRelax w c d path ns st).visitedSet →
          ∃ q, (dn, n, q) ∈ (dijRelax w c d path ns st).pq))
  | [], st, _, hP, hK, hT => ⟨hP, hK, hT⟩
  | n :: ns, st, hadj, hP, hK, hT => by
    by_cases hv : n ∈ st.visitedSet
    · simp only [dijRelax, if_pos hv]
      exact dijRelax_opt g w s c d path hvp hpw ns st
        (fun m hm => hadj m (List.mem_cons_of_mem _ hm)) hP hK hT
    · have hcore : ∀ (st' : DijState), st'.visitedSet = st.visitedSet →
          st'.distances = dset st.distances n (d + wget w (c, n)) →
          st'.pq = st.pq ++ [(d + wget w (c, n), n, path ++ [n])] →
          (afind st.distances n = none ∨
            ∃ dn, afind st.distances n = some dn ∧ d + wget w (c, n) < dn) →
          ((∀ k m q, (k, m, q) ∈ (dijRelax w c d path ns st').pq →
              validPath g s m q ∧ pathWeight w q = k) ∧
            (∀ k m q, (k, m, q) ∈ (dijRelax w c d path ns st').pq →
              ∃ dm, afind (dijRelax w c d path ns st').distances m = some dm ∧
                dm ≤ k) ∧
            (∀ m dm, afind (dijRelax w c d path ns st').distances m = some dm →
              ¬ m ∈ (dijRelax w c d path ns st').visitedSet →
              ∃ q, (dm, m, q) ∈ (dijRelax w c d path ns st').pq)) := by
        intro st' hvs hdst hpq himp
        refine dijRelax_opt g w s c d path hvp hpw ns st'
          (fun m hm => hadj m (List.mem_cons_of_mem _ hm)) ?_ ?_ ?_
        · intro k m q hkm
          rw [hpq] at hkm
          rcases List.mem_append.mp hkm with hkm | hkm
          · exact hP k m q hkm
          · simp at hkm
            obtain ⟨rfl, rfl, rfl⟩ := hkm
            constructor
            · exact validPath_extend hvp (hadj m (List.mem_cons_self _ _))
            · rw [pathWeight_extend w path c m hvp.2.2.1, hpw]
        · intro k m q hkm
          rw [hpq] at hkm
          rw [hdst]
          rcases List.mem_append.mp hkm with hkm | hkm
          · obtain ⟨dm, hdm, hle⟩ := hK k m q hkm
            by_cases hmn : m = n
            · subst hmn
              rw [afind_dset_self]
              rcases himp with hnone | ⟨dn, hdn, hlt⟩
              · rw [hdm] at hnone
                exact Option.noConfusion hnone
              · rw [hdm] at hdn
                injection hdn with hdn
                subst hdn
                exact ⟨_, rfl, by omega⟩
            · rw [afind_dset_ne _ hmn]
              exact ⟨dm, hdm, hle⟩
          · simp at hkm
            obtain ⟨rfl, rfl, rfl⟩ := hkm
            rw [afind_dset_self]
            exact ⟨_, rfl, Nat.le_refl _⟩
        · intro m dm hdm hmv
          rw [hdst] at hdm
          rw [hvs] at hmv
          rw [hpq]
          by_cases hmn : m = n
          · subst hmn
            rw [afind_dset_self] at hdm
            injection hdm with hdm
            subst hdm
            exact ⟨path ++ [m], List.mem_append.mpr (Or.inr (by simp))⟩
          · rw [afind_dset_ne _ hmn] at hdm
            obtain ⟨q, hq⟩ := hT m dm hdm hmv
            exact ⟨q, List.mem_append.mpr (Or.inl hq)⟩
      cases hd : afind st.distances n with
      | none =>
        by_cases hp : (afind st.parent n).isSome
        · simp only [dijRelax, if_neg hv, hd, if_pos hp, if_true]
          exact hcore _ rfl rfl rfl (Or.inl hd)
        · simp only [dijRelax, if_neg hv, hd, if_neg hp, if_true]
          exact hcore _ rfl rfl rfl (Or.inl hd)
      | some dn =>
        by_cases hlt : d + wget w (c, n) < dn
        · by_cases hp : (afind st.parent n).isSome
          · simp only [dijRelax, if_neg hv, hd, decide_eq_true hlt, if_pos hp,
              if_true]
            exact hcore _ rfl rfl rfl (Or.inr ⟨dn, hd, hlt⟩)
          · simp only [dijRelax, if_neg hv, hd, decide_eq_true hlt, if_neg hp,
              if_true]
            exact hcore _ rfl rfl rfl (Or.inr ⟨dn, hd, hlt⟩)
        · simp only [dijRelax, if_neg hv, hd, decide_eq_false hlt,
            Bool.false_eq_true, if_false]
          exact dijRelax_opt g w s c d path hvp hpw ns st
            (fun m hm => hadj m (List.mem_cons_of_mem _ hm)) hP hK hT

/-- Loop invariant for Dijkstra optimality: queue entries carry genuine
start-to-node paths priced at their key, recorded distances lower-bound the
keys and are witnessed on the queue while the node is open, closed nodes
carry optimal recorded distances, and every closed-to-open edge has been
relaxed. -/
structure Dij2Inv (g : Graph) (w : List ((Node × Node) × Nat)) (s : Node)
    (st : DijState) : Prop where
  paths : ∀ k n q, (k, n, q) ∈ st.pq → validPath g s n q ∧ pathWeight w q = k
  keyLB : ∀ k n q, (k, n, q) ∈ st.pq →
    ∃ dn, afind st.distances n = some dn ∧ dn ≤ k
  tent : ∀ n dn, afind st.distances n = some dn → ¬ n ∈ st.visitedSet →
    ∃ q, (dn, n, q) ∈ st.pq
  settled : ∀ n ∈ st.visitedSet, ∃ dn, afind st.distances n = some dn ∧
    (∃ q, validPath g s n q ∧ pathWeight w q = dn) ∧
    (∀ q, validPath g s n q → dn ≤ pathWeight w q)
  frontier : ∀ v ∈ st.visitedSet, ∀ n ∈ adjL g v, n ∈ st.visitedSet ∨
    ∃ dv dn, afind st.distances v = some dv ∧ afind st.distances n = some dn ∧
      dn ≤ dv + wget w (v, n)
  startD : s ∈ st.visitedSet ∨ afind st.distances s = some 0
  fr : ∀ e ∈ st.pq, (e : Nat × Node × List Node).2.1 ∈ nodesOf g s

theorem dij_cover (g : Graph) (w : List ((Node × Node) × Nat)) (s : Node)
    (st : DijState) (hinv : Dij2Inv g w s st) :
    ∀ (k : Nat) (q : List Node) (n : Node), q.length ≤ k →
      validPath g s n q → ¬ n ∈ st.visitedSet →
      ∃ m dm, ¬ m ∈ st.visitedSet ∧ afind st.distances m = some dm ∧
        dm ≤ pathWeight w q := by
  intro k
  induction k with
  | zero =>
    intro q n hlen hvp _
    have hne := hvp.1
    cases q with
    | nil => exact absurd rfl hne
    | cons a as => simp at hlen
  | succ k ih =>
    intro q n hlen hvp hn
    rcases validPath_cases hvp with ⟨rfl, rfl⟩ | ⟨q', v, rfl, hvp', hadj⟩
    · rcases hinv.startD with hs | hs
      · exact absurd hs hn
      · exact ⟨n, 0, hn, hs, Nat.zero_le _⟩
    · have hwq : pathWeight w (q' ++ [n]) = pathWeight w q' + wget w (v, n) :=
        pathWeight_extend w q' v n hvp'.2.2.1
      by_cases hv : v ∈ st.visitedSet
      · rcases hinv.frontier v hv n hadj with hnc | ⟨dv, dn, hdv, hdn, hle⟩
        · exact absurd hnc hn
        · obtain ⟨dv', hdv', _, hopt⟩ := hinv.settled v hv
          rw [hdv] at hdv'
          injection hdv' with hdv'
          subst hdv'
          have hub := hopt q' hvp'
          exact ⟨n, dn, hn, hdn, by rw [hwq]; omega⟩
      · have hlen' : q'.length ≤ k := by
          have hq : (q' ++ [n]).length = q'.length + 1 := by simp
          omega
        obtain ⟨m, dm, h1, h2, h3⟩ := ih q' v hlen' hvp' hv
        exact ⟨m, dm, h1, h2, by rw [hwq]; omega⟩

theorem dijLoop_opt (g : Graph) (w : List ((Node × Node) × Nat))
    (s t : Node) :
    ∀ (fuel : Nat) (st : DijState), Dij2Inv g w s st →
      ¬ t ∈ st.visitedSet → (∃ q0, validPath g s t q0) →
      undisc g s st.visitedSet * (totalAdj g + 2) + st.pq.length < fuel →
      ∃ r dd, dijLoop g w t fuel st = some r ∧ r.success = true ∧
        afind r.extra "distance" = some dd ∧
        (∀ q, validPath g s t q → dd ≤ pathWeight w q) ∧
        ∃ q, validPath g s t q ∧ pathWeight w q = dd
  | 0, st, _, _, _, hf => by omega
  | fuel + 1, st, hinv, hnt, hq0, hf => by
    obtain ⟨q0, hq0⟩ := hq0
    cases hpq : popMin st.pq with
    | none =>
      rw [popMin_eq_none] at hpq
      exfalso
      obtain ⟨m, dm, hm1, hm2, _⟩ := dij_cover g w s st hinv q0.length q0 t
        (Nat.le_refl _) hq0 hnt
      obtain ⟨qm, hqm⟩ := hinv.tent m dm hm2 hm1
      rw [hpq] at hqm
      simp at hqm
    | some p =>
      obtain ⟨⟨curDist, current, path⟩, rest⟩ := p
      have hlen := popMin_length hpq
      rw [hlen] at hf
      have hmemP := popMin_mem hpq
      by_cases hv : current ∈ st.visitedSet
      · have hinv2 : Dij2Inv g w s { st with pq := rest } := by
          refine ⟨?_, ?_, ?_, hinv.settled, hinv.frontier, hinv.startD, ?_⟩
          · intro k n q hk
            exact hinv.paths k n q (popMin_rest_subset hpq _ hk)
          · intro k n q hk
            exact hinv.keyLB k n q (popMin_rest_subset hpq _ hk)
          · intro n dn hdn hnv
            obtain ⟨q, hq⟩ := hinv.tent n dn hdn hnv
            rcases popMin_mem_or hpq _ hq with he | he
            · injection he with h1 h2
              injection h2 with h2 h3
              exact absurd (h2 ▸ hv) hnv
            · exact ⟨q, he⟩
          · intro e he
            exact hinv.fr e (popMin_rest_subset hpq e he)
        obtain ⟨r, dd, hr, p1, p2, p3, p4⟩ := dijLoop_opt g w s t fuel
          { st with pq := rest } hinv2 hnt ⟨q0, hq0⟩
          (by show undisc g s st.visitedSet * (totalAdj g + 2) +
            rest.length < fuel; omega)
        exact ⟨r, dd, by simp only [dijLoop, hpq, if_pos hv]; exact hr,
          p1, p2, p3, p4⟩
      · obtain ⟨hvp, hpw⟩ := hinv.paths curDist current path hmemP
        obtain ⟨dcur, hdcur, hdle⟩ := hinv.keyLB curDist current path hmemP
        obtain ⟨p2', hp2'⟩ := hinv.tent current dcur hdcur hv
        have hmin2 := key_le_of_not_entLtB (popMin_not_lt hpq _ hp2')
        have hdeq : dcur = curDist := by
          have : curDist ≤ dcur := hmin2
          omega
        subst hdeq
        have hoptcur : ∀ q, validPath g s current q →
            dcur ≤ pathWeight w q := by
          intro q hq
          obtain ⟨m, dm, hm1, hm2, hm3⟩ := dij_cover g w s st hinv q.length q
            current (Nat.le_refl _) hq hv
          obtain ⟨qm, hqm⟩ := hinv.tent m dm hm2 hm1
          have := key_le_of_not_entLtB (popMin_not_lt hpq _ hqm)
          omega
        by_cases hg : current = t
        · subst hg
          refine ⟨⟨path, st.visited ++ [current], true, "DijkstraSearch",
            st.parent, st.tree_edges, [("distance", dcur)]⟩, dcur, ?_,
            rfl, rfl, hoptcur, ⟨path, hvp, hpw⟩⟩
          simp only [dijLoop, hpq, if_neg hv, if_true]
        · have hcur : current ∈ nodesOf g s := hinv.fr _ hmemP
          have heq := undisc_add g s st.visitedSet current hcur hv
          have hexp : undisc g s st.visitedSet * (totalAdj g + 2) =
              undisc g s (st.visitedSet ++ [current]) * (totalAdj g + 2) +
                (totalAdj g + 2) := by
            rw [← heq, Nat.add_mul, Nat.one_mul]
          obtain ⟨hvs2, hlen2, hmem2⟩ := dijRelax_shape w current dcur path
            (adjL g current)
            { st with
              pq := rest
              visitedSet := st.visitedSet ++ [current]
              visited := st.visited ++ [current] }
          have hP1 : ∀ k n q, (k, n, q) ∈ rest →
              validPath g s n q ∧ pathWeight w q = k := fun k n q hk =>
            hinv.paths k n q (popMin_rest_subset hpq _ hk)
          have hK1 : ∀ k n q, (k, n, q) ∈ rest →
              ∃ dn, afind st.distances n = some dn ∧ dn ≤ k := fun k n q hk =>
            hinv.keyLB k n q (popMin_rest_subset hpq _ hk)
          have hT1 : ∀ n dn, afind st.distances n = some dn →
              ¬ n ∈ st.visitedSet ++ [current] → ∃ q, (dn, n, q) ∈ rest := by
            intro n dn hdn hnv
            have hnv' : ¬ n ∈ st.visitedSet := fun hc =>
              hnv (List.mem_append.mpr (Or.inl hc))
            obtain ⟨q, hq⟩ := hinv.tent n dn hdn hnv'
            rcases popMin_mem_or hpq _ hq with he | he
            · injection he with h1 h2
              injection h2 with h2 h3
              exact absurd (by rw [h2]; simp) hnv
            · exact ⟨q, he⟩
          obtain ⟨oP, oK, oT⟩ := dijRelax_opt g w s current dcur path hvp hpw
            (adjL g current)
            { st with
              pq := rest
              visitedSet := st.visitedSet ++ [current]
              visited := st.visited ++ [current] }
            (fun n hn => hn) hP1 hK1 hT1
          have hdcl := dijRelax_dist_closed w current dcur path
            (adjL g current)
            { st with
              pq := rest
              visitedSet := st.visitedSet ++ [current]
              visited := st.visited ++ [current] }
          have hdle2 := dijRelax_dist_le w current dcur path (adjL g current)
            { st with
              pq := rest
              visitedSet := st.visitedSet ++ [current]
              visited := st.visited ++ [current] }
          have hbnd := dijRelax_bound w current dcur path (adjL g current)
            { st with
              pq := rest
              visitedSet := st.visitedSet ++ [current]
              visited := st.visited ++ [current] }
          have hinv2 : Dij2Inv g w s (dijRelax w current dcur path
              (adjL g current)
              { st with
                pq := rest
                visitedSet := st.visitedSet ++ [current]
                visited := st.visited ++ [current] }) := by
            refine ⟨oP, oK, oT, ?_, ?_, ?_, ?_⟩
            · intro v hvv
              rw [hvs2] at hvv
              rcases List.mem_append.mp hvv with hvv2 | hvv2
              · obtain ⟨dv, hdv, hatt, hopt⟩ := hinv.settled v hvv2
                refine ⟨dv, ?_, hatt, hopt⟩
                rw [hdcl v (List.mem_append.mpr (Or.inl hvv2))]
                exact hdv
              · simp at hvv2
                subst hvv2
                refine ⟨dcur, ?_, ⟨path, hvp, hpw⟩, hoptcur⟩
                rw [hdcl v (by simp)]
                exact hdcur
            · intro v hvv n hn
              rw [hvs2] at hvv
              rw [hvs2]
              rcases List.mem_append.mp hvv with hvv2 | hvv2
              · rcases hinv.frontier v hvv2 n hn with hnc | ⟨dv, dn, hdv, hdn, hle⟩
                · exact Or.inl (List.mem_append.mpr (Or.inl hnc))
                · refine Or.inr ?_
                  obtain ⟨dn', hdn', hle'⟩ := hdle2 n dn hdn
                  refine ⟨dv, dn', ?_, hdn', by omega⟩
                  rw [hdcl v (List.mem_append.mpr (Or.inl hvv2))]
                  exact hdv
              · simp at hvv2
                subst hvv2
                rcases hbnd n hn with hnc | ⟨dn, hdn, hle⟩
                · exact Or.inl hnc
                · refine Or.inr ⟨dcur, dn, ?_, hdn, hle⟩
                  rw [hdcl v (by simp)]
                  exact hdcur
            · rcases hinv.startD with hs | hs
              · refine Or.inl ?_
                rw [hvs2]
                exact List.mem_append.mpr (Or.inl hs)
              · refine Or.inr ?_
                obtain ⟨d', h', hle⟩ := hdle2 s 0 hs
                have hz := Nat.le_zero.mp hle
                rw [hz] at h'
                exact h'
            · intro e he
              rcases hmem2 e he with he' | ⟨n, hn, hne⟩
              · exact hinv.fr e (popMin_rest_subset hpq e he')
              · rw [hne]
                exact adjL_subset_nodesOf g s current n hn
          obtain ⟨r, dd, hr, p1, p2, p3, p4⟩ := dijLoop_opt g w s t fuel _
            hinv2 (by
              rw [hvs2]
              intro hc
              rcases List.mem_append.mp hc with hc | hc
              · exact hnt hc
              · simp at hc
                exact hg hc.symm) ⟨q0, hq0⟩ (by
              rw [hvs2]
              show undisc g s (st.visitedSet ++ [current]) * (totalAdj g + 2) +
                (dijRelax w current dcur path (adjL g current)
                  { st with
                    pq := rest
                    visitedSet := st.visitedSet ++ [current]
                    visited := st.visited ++ [current] }).pq.length < fuel
              have hal := adjL_length_le g current
              have hstl : (dijRelax w current dcur path (adjL g current)
                  { st with
                    pq := rest
                    visitedSet := st.visitedSet ++ [current]
                    visited := st.visited ++ [current] }).pq.length ≤
                  rest.length + totalAdj g := by
                refine le_trans hlen2 ?_
                show rest.length + (adjL g current).length ≤
                  rest.length + totalAdj g
                omega
              omega)
          refine ⟨r, dd, ?_, p1, p2, p3, p4⟩
          simp only [dijLoop, hpq, if_neg hv, if_neg hg]
          exact hr

/-- C2: on every finite graph with a non-negative weight mapping (absent
edge pairs defaulting to weight 1) in which the goal is reachable from the
start, `DijkstraSearch.search` succeeds and its reported `distance` equals
the true minimum total weight over all start-to-goal paths. -/
theorem dijkstra_distance_optimal (g : Graph) (w : List ((Node × Node) × Nat))
    (s t : Node) (hre : Reachable g s t) :
    ∃ r dd, DijkstraSearch.search g w s t = some r ∧ r.success = true ∧
      afind r.extra "distance" = some dd ∧
      (∀ q, validPath g s t q → dd ≤ pathWeight w q) ∧
      ∃ q, validPath g s t q ∧ pathWeight w q = dd := by
  have hinv : Dij2Inv g w s (dijInit s) := by
    refine ⟨?_, ?_, ?_, ?_, ?_, ?_, ?_⟩
    · intro k n q hk
      simp only [dijInit] at hk
      simp at hk
      obtain ⟨rfl, rfl, rfl⟩ := hk
      exact ⟨validPath_singleton g n, rfl⟩
    · intro k n q hk
      simp only [dijInit] at hk
      simp at hk
      obtain ⟨rfl, rfl, rfl⟩ := hk
      exact ⟨0, by simp [dijInit, afind], Nat.le_refl _⟩
    · intro n dn hdn _
      have hns : n = s := by
        by_cases hns : n = s
        · exact hns
        · exfalso
          have : afind (dijInit s).distances n = none := by
            simp [dijInit, afind, hns]
          rw [this] at hdn
          exact Option.noConfusion hdn
      subst hns
      have h0 : afind (dijInit n).distances n = some 0 := by
        simp [dijInit, afind]
      rw [h0] at hdn
      injection hdn with hdn
      subst hdn
      exact ⟨[n], by simp [dijInit]⟩
    · intro n hn
      simp [dijInit] at hn
    · intro v hvv
      simp [dijInit] at hvv
    · exact Or.inr (by simp [dijInit, afind])
    · intro e he
      simp only [dijInit] at he
      simp at he
      subst he
      exact s_mem_nodesOf g s
  obtain ⟨r, dd, hr, p1, p2, p3, p4⟩ := dijLoop_opt g w s t (fuelB g s)
    (dijInit s) hinv (by simp [dijInit]) (reachable_validPath hre) (by
      show undisc g s [] * (totalAdj g + 2) + 1 < fuelB g s
      exact init_fuel_lt g s)
  exact ⟨r, dd, hr, p1, p2, p3, p4⟩

def G2 : Graph := [("A", ["B", "C"]), ("B", ["A", "D", "E"]),
  ("C", ["A", "F"]), ("D", ["B"]), ("E", ["B", "F"]), ("F", ["C", "E"])]

def W2 : List ((Node × Node) × Nat) :=
  [(("A", "B"), 4), (("A", "C"), 2), (("C", "F"), 3)]

theorem dijkstra_distance_optimal_witness :
    Reachable G2 "A" "F" ∧
    ∃ r dd, DijkstraSearch.search G2 W2 "A" "F" = some r ∧
      r.success = true ∧ afind r.extra "distance" = some dd ∧
      (∀ q, validPath G2 "A" "F" q → dd ≤ pathWeight W2 q) ∧
      ∃ q, validPath G2 "A" "F" q ∧ pathWeight W2 q = dd := by
  have hre : Reachable G2 "A" "F" :=
    validPath_reachable (show validPath G2 "A" "F" ["A", "C", "F"] by decide)
  exact ⟨hre, dijkstra_distance_optimal G2 W2 "A" "F" hre⟩

theorem dijRelax_kt (w : List ((Node × Node) × Nat)) (c : Node) (d : Nat)
    (path : List Node) :
    ∀ (ns : List Node) (st : DijState),
      (∀ k n q, (k, n, q) ∈ st.pq →
        ∃ dn, afind st.distances n = some dn ∧ dn ≤ k) →
      (∀ n dn, afind st.distances n = some dn → ¬ n ∈ st.visitedSet →
        ∃ q, (dn, n, q) ∈ st.pq) →
      ((∀ k n q, (k, n, q) ∈ (dijRelax w c d path ns st).pq →
          ∃ dn, afind (dijRelax w c d path ns st).distances n = some dn ∧
            dn ≤ k) ∧
        (∀ n dn, afind (dijRelax w c d path ns st).distances n = some dn →
          ¬ n ∈ (dijRelax w c d path ns st).visitedSet →
          ∃ q, (dn, n, q) ∈ (dijRelax w c d path ns st).pq))
  | [], st, hK, hT => ⟨hK, hT⟩
  | n :: ns, st, hK, hT => by
    by_cases hv : n ∈ st.visitedSet
    · simp only [dijRelax, if_pos hv]
      exact dijRelax_kt w c d path ns st hK hT
    · have hcore : ∀ (st' : DijState), st'.visitedSet = st.visitedSet →
          st'.distances = dset st.distances n (d + wget w (c, n)) →
          st'.pq = st.pq ++ [(d + wget w (c, n), n, path ++ [n])] →
          (afind st.distances n = none ∨
            ∃ dn, afind st.distances n = some dn ∧ d + wget w (c, n) < dn) →
          ((∀ k m q, (k, m, q) ∈ (dijRelax w c d path ns st').pq →
              ∃ dm, afind (dijRelax w c d path ns st').distances m = some dm ∧
                dm ≤ k) ∧
            (∀ m dm, afind (dijRelax w c d path ns st').distances m = some dm →
              ¬ m ∈ (dijRelax w c d path ns st').visitedSet →
              ∃ q, (dm, m, q) ∈ (dijRelax w c d path ns st').pq)) := by
        intro st' hvs hdst hpq himp
        refine dijRelax_kt w c d path ns st' ?_ ?_
        · intro k m q hkm
          rw [hpq] at hkm
          rw [hdst]
          rcases List.mem_append.mp hkm with hkm | hkm
          · obtain ⟨dm, hdm, hle⟩ := hK k m q hkm
            by_cases hmn : m = n
            · subst hmn
              rw [afind_dset_self]
              rcases himp with hnone | ⟨dn, hdn, hlt⟩
              · rw [hdm] at hnone
                exact Option.noConfusion hnone
              · rw [hdm] at hdn
                injection hdn with hdn
                subst hdn
                exact ⟨_, rfl, by omega⟩
            · rw [afind_dset_ne _ hmn]
              exact ⟨dm, hdm, hle⟩
          · simp at hkm
            obtain ⟨rfl, rfl, rfl⟩ := hkm
            rw [afind_dset_self]
            exact ⟨_, rfl, Nat.le_refl _⟩
        · intro m dm hdm hmv
          rw [hdst] at hdm
          rw [hvs] at hmv
          rw [hpq]
          by_cases hmn : m = n
          · subst hmn
            rw [afind_dset_self] at hdm
            injection hdm with hdm
            subst hdm
            exact ⟨path ++ [m], List.mem_append.mpr (Or.inr (by simp))⟩
          · rw [afind_dset_ne _ hmn] at hdm
            obtain ⟨q, hq⟩ := hT m dm hdm hmv
            exact ⟨q, List.mem_append.mpr (Or.inl hq)⟩
      cases hd : afind st.distances n with
      | none =>
        by_cases hp : (afind st.parent n).isSome
        · simp only [dijRelax, if_neg hv, hd, if_pos hp, if_true]
          exact hcore _ rfl rfl rfl (Or.inl hd)
        · simp only [dijRelax, if_neg hv, hd, if_neg hp, if_true]
          exact hcore _ rfl rfl rfl (Or.inl hd)
      | some dn =>
        by_cases hlt : d + wget w (c, n) < dn
        · by_cases hp : (afind st.parent n).isSome
          · simp only [dijRelax, if_neg hv, hd, decide_eq_true hlt, if_pos hp,
              if_true]
            exact hcore _ rfl rfl rfl (Or.inr ⟨dn, hd, hlt⟩)
          · simp only [dijRelax, if_neg hv, hd, decide_eq_true hlt, if_neg hp,
              if_true]
            exact hcore _ rfl rfl rfl (Or.inr ⟨dn, hd, hlt⟩)
        · simp only [dijRelax, if_neg hv, hd, decide_eq_false hlt,
            Bool.false_eq_true, if_false]
          exact dijRelax_kt w c d path ns st hK hT

/-- Field-wise correspondence between a Dijkstra state and an A* state run
with an everywhere-zero heuristic (the `f_score` bookkeeping is unobservable
and unconstrained). -/
def astSim (d : DijState) (a : AstState) : Prop :=
  a.visited = d.visited ∧ a.visitedSet = d.visitedSet ∧ a.parent = d.parent ∧
    a.tree_edges = d.tree_edges ∧ a.g_score = d.distances ∧ a.pq = d.pq

theorem astRelax_sim (w : List ((Node × Node) × Nat)) (h : List (Node × Nat))
    (hzero : ∀ n, hget h n = 0) (c : Node) (k : Nat) (path : List Node) :
    ∀ (ns : List Node) (dijSt : DijState) (astSt : AstState),
      astSim dijSt astSt → c ∈ dijSt.visitedSet →
      afind dijSt.distances c = some k →
      astSim (dijRelax w c k path ns dijSt) (astRelax w h c path ns astSt)
  | [], _, _, hsim, _, _ => hsim
  | n :: ns, dijSt, astSt, hsim, hc, hk => by
    obtain ⟨h1, h2, h3, h4, h5, h6⟩ := hsim
    have hstep : ∀ (D : DijState) (A : AstState), A.visited = D.visited →
        A.visitedSet = D.visitedSet → A.parent = D.parent →
        A.tree_edges = D.tree_edges → A.g_score = D.distances → A.pq = D.pq →
        c ∈ D.visitedSet → afind D.distances c = some k →
        astSim (dijRelax w c k path ns D) (astRelax w h c path ns A) :=
      fun D A a1 a2 a3 a4 a5 a6 hc' hk' =>
        astRelax_sim w h hzero c k path ns D A ⟨a1, a2, a3, a4, a5, a6⟩ hc' hk'
    by_cases hv : n ∈ dijSt.visitedSet
    · have hv' : n ∈ astSt.visitedSet := by rw [h2]; exact hv
      simp only [dijRelax, astRelax, if_pos hv, if_pos hv']
      exact hstep dijSt astSt h1 h2 h3 h4 h5 h6 hc hk
    · have hv' : ¬ n ∈ astSt.visitedSet := by rw [h2]; exact hv
      have hgc : afind astSt.g_score c = some k := by rw [h5]; exact hk
      have hcn : c ≠ n := fun hh => hv (hh ▸ hc)
      have hp2 : afind astSt.parent n = afind dijSt.parent n := by rw [h3]
      cases hd : afind dijSt.distances n with
      | none =>
        have hd' : afind astSt.g_score n = none := by rw [h5]; exact hd
        by_cases hp : (afind dijSt.parent n).isSome
        · have hp' : (afind astSt.parent n).isSome := by rw [hp2]; exact hp
          simp only [dijRelax, astRelax, if_neg hv, if_neg hv', hd, hd', hgc,
            Option.getD_some, hzero, Nat.add_zero, if_pos hp, if_pos hp',
            if_true]
          refine hstep _ _ h1 h2 h3 h4 ?_ ?_ hc ?_
          · rw [h5]
          · rw [h6]
          · rw [afind_dset_ne _ hcn]
            exact hk
        · have hp' : ¬ (afind astSt.parent n).isSome := by rw [hp2]; exact hp
          simp only [dijRelax, astRelax, if_neg hv, if_neg hv', hd, hd', hgc,
            Option.getD_some, hzero, Nat.add_zero, if_neg hp, if_neg hp',
            if_true]
          refine hstep _ _ h1 h2 ?_ ?_ ?_ ?_ hc ?_
          · rw [h3]
          · rw [h4]
          · rw [h5]
          · rw [h6]
          · rw [afind_dset_ne _ hcn]
            exact hk
      | some dn =>
        have hd' : afind astSt.g_score n = some dn := by rw [h5]; exact hd
        by_cases hlt : k + wget w (c, n) < dn
        · by_cases hp : (afind dijSt.parent n).isSome
          · have hp' : (afind astSt.parent n).isSome := by rw [hp2]; exact hp
            simp only [dijRelax, astRelax, if_neg hv, if_neg hv', hd, hd', hgc,
              Option.getD_some, hzero, Nat.add_zero, decide_eq_true hlt,
              if_pos hp, if_pos hp', if_true]
            refine hstep _ _ h1 h2 h3 h4 ?_ ?_ hc ?_
            · rw [h5]
            · rw [h6]
            · rw [afind_dset_ne _ hcn]
              exact hk
          · have hp' : ¬ (afind astSt.parent n).isSome := by rw [hp2]; exact hp
            simp only [dijRelax, astRelax, if_neg hv, if_neg hv', hd, hd', hgc,
              Option.getD_some, hzero, Nat.add_zero, decide_eq_true hlt,
              if_neg hp, if_neg hp', if_true]
            refine hstep _ _ h1 h2 ?_ ?_ ?_ ?_ hc ?_
            · rw [h3]
            · rw [h4]
            · rw [h5]
            · rw [h6]
            · rw [afind_dset_ne _ hcn]
              exact hk
        · simp only [dijRelax, astRelax, if_neg hv, if_neg hv', hd, hd', hgc,
            Option.getD_some, decide_eq_false hlt, Bool.false_eq_true,
            if_false]
          exact hstep dijSt astSt h1 h2 h3 h4 h5 h6 hc hk

theorem astLoop_dijLoop (g : Graph) (w : List ((Node × Node) × Nat))
    (h : List (Node × Nat)) (hzero : ∀ n, hget h n = 0) (goal : Node) :
    ∀ (fuel : Nat) (dijSt : DijState) (astSt : AstState), astSim dijSt astSt →
      (∀ k n q, (k, n, q) ∈ dijSt.pq →
        ∃ dn, afind dijSt.distances n = some dn ∧ dn ≤ k) →
      (∀ n dn, afind dijSt.distances n = some dn → ¬ n ∈ dijSt.visitedSet →
        ∃ q, (dn, n, q) ∈ dijSt.pq) →
      (astLoop g w h goal fuel astSt = none ∧
        dijLoop g w goal fuel dijSt = none) ∨
      (∃ ra rd, astLoop g w h goal fuel astSt = some ra ∧
        dijLoop g w goal fuel dijSt = some rd ∧ ra.path = rd.path ∧
        ra.visited = rd.visited ∧ ra.success = rd.success ∧
        afind ra.extra "cost" = afind rd.extra "distance")
  | 0, _, _, _, _, _ => Or.inl ⟨rfl, rfl⟩
  | fuel + 1, dijSt, astSt, hsim, hK, hT => by
    obtain ⟨h1, h2, h3, h4, h5, h6⟩ := hsim
    cases hpq : popMin dijSt.pq with
    | none =>
      have hpq' : popMin astSt.pq = none := by rw [h6]; exact hpq
      refine Or.inr ⟨⟨[], astSt.visited, false, "AStarSearch", astSt.parent,
        astSt.tree_edges, []⟩, ⟨[], dijSt.visited, false, "DijkstraSearch",
        dijSt.parent, dijSt.tree_edges, []⟩, ?_, ?_, rfl, h1, rfl, rfl⟩
      · simp only [astLoop, hpq']
      · simp only [dijLoop, hpq]
    | some p =>
      obtain ⟨⟨k, current, path⟩, rest⟩ := p
      have hpq' : popMin astSt.pq = some ((k, current, path), rest) := by
        rw [h6]; exact hpq
      by_cases hv : current ∈ dijSt.visitedSet
      · have hv' : current ∈ astSt.visitedSet := by rw [h2]; exact hv
        have hK' : ∀ k' n q, (k', n, q) ∈ rest →
            ∃ dn, afind dijSt.distances n = some dn ∧ dn ≤ k' :=
          fun k' n q hk => hK k' n q (popMin_rest_subset hpq _ hk)
        have hT' : ∀ n dn, afind dijSt.distances n = some dn →
            ¬ n ∈ dijSt.visitedSet → ∃ q, (dn, n, q) ∈ rest := by
          intro n dn hdn hnv
          obtain ⟨q, hq⟩ := hT n dn hdn hnv
          rcases popMin_mem_or hpq _ hq with he | he
          · injection he with ha hb
            injection hb with hb hc
            exact absurd (hb ▸ hv) hnv
          · exact ⟨q, he⟩
        rcases astLoop_dijLoop g w h hzero goal fuel { dijSt with pq := rest }
          { astSt with pq := rest } ⟨h1, h2, h3, h4, h5, rfl⟩ hK' hT' with
          hnone | ⟨ra, rd, hra, hrd, p1, p2, p3, p4⟩
        · refine Or.inl ⟨?_, ?_⟩
          · simp only [astLoop, hpq', if_pos hv']
            exact hnone.1
          · simp only [dijLoop, hpq, if_pos hv]
            exact hnone.2
        · refine Or.inr ⟨ra, rd, ?_, ?_, p1, p2, p3, p4⟩
          · simp only [astLoop, hpq', if_pos hv']
            exact hra
          · simp only [dijLoop, hpq, if_pos hv]
            exact hrd
      · have hv' : ¬ current ∈ astSt.visitedSet := by rw [h2]; exact hv
        have hkcur : afind dijSt.distances current = some k := by
          obtain ⟨dn, hdn, hle⟩ := hK k current path (popMin_mem hpq)
          obtain ⟨q2, hq2⟩ := hT current dn hdn hv
          have hge := key_le_of_not_entLtB (popMin_not_lt hpq _ hq2)
          have : dn = k := by
            have : k ≤ dn := hge
            omega
          rw [← this]
          exact hdn
        by_cases hg : current = goal
        · subst hg
          refine Or.inr ⟨⟨path, astSt.visited ++ [current], true, "AStarSearch",
            astSt.parent, astSt.tree_edges,
            [("cost", (afind astSt.g_score current).getD 0)]⟩,
            ⟨path, dijSt.visited ++ [current], true, "DijkstraSearch",
            dijSt.parent, dijSt.tree_edges, [("distance", k)]⟩,
            ?_, ?_, rfl, by rw [h1], rfl, ?_⟩
          · simp only [astLoop, hpq', if_neg hv', if_true]
          · simp only [dijLoop, hpq, if_neg hv, if_true]
          · show afind [("cost", (afind astSt.g_score current).getD 0)] "cost" =
              afind [("distance", k)] "distance"
            rw [h5, hkcur]
            simp [afind]
        · have hK1 : ∀ k' n q, (k', n, q) ∈ rest →
              ∃ dn, afind dijSt.distances n = some dn ∧ dn ≤ k' :=
            fun k' n q hk => hK k' n q (popMin_rest_subset hpq _ hk)
          have hT1 : ∀ n dn, afind dijSt.distances n = some dn →
              ¬ n ∈ dijSt.visitedSet ++ [current] → ∃ q, (dn, n, q) ∈ rest := by
            intro n dn hdn hnv
            have hnv' : ¬ n ∈ dijSt.visitedSet := fun hc =>
              hnv (List.mem_append.mpr (Or.inl hc))
            obtain ⟨q, hq⟩ := hT n dn hdn hnv'
            rcases popMin_mem_or hpq _ hq with he | he
            · injection he with ha hb
              injection hb with hb hc
              exact absurd (by rw [hb]; simp) hnv
            · exact ⟨q, he⟩
          obtain ⟨oK, oT⟩ := dijRelax_kt w current k path (adjL g current)
            { dijSt with
              pq := rest
              visitedSet := dijSt.visitedSet ++ [current]
              visited := dijSt.visited ++ [current] } hK1 hT1
          have hsim2 := astRelax_sim w h hzero current k path (adjL g current)
            { dijSt with
              pq := rest
              visitedSet := dijSt.visitedSet ++ [current]
              visited := dijSt.visited ++ [current] }
            { astSt with
              pq := rest
              visitedSet := astSt.visitedSet ++ [current]
              visited := astSt.visited ++ [current] }
            ⟨by rw [h1], by rw [h2], h3, h4, h5, rfl⟩ (by simp) hkcur
          rcases astLoop_dijLoop g w h hzero goal fuel _ _ hsim2 oK oT with
            hnone | ⟨ra, rd, hra, hrd, p1, p2, p3, p4⟩
          · refine Or.inl ⟨?_, ?_⟩
            · simp only [astLoop, hpq', if_neg hv', if_neg hg]
              exact hnone.1
            · simp only [dijLoop, hpq, if_neg hv, if_neg hg]
              exact hnone.2
          · refine Or.inr ⟨ra, rd, ?_, ?_, p1, p2, p3, p4⟩
            · simp only [astLoop, hpq', if_neg hv', if_neg hg]
              exact hra
            · simp only [dijLoop, hpq, if_neg hv, if_neg hg]
              exact hrd

/-- C3: A* run with an everywhere-zero heuristic mapping (in particular the
empty mapping) returns the same path, the same visited order, and the same
success flag as Dijkstra on the identical graph, start, goal, and weights,
and its reported `cost` equals Dijkstra's reported `distance`. -/
theorem astar_zero_heuristic_equals_dijkstra (g : Graph)
    (w : List ((Node × Node) × Nat)) (h : List (Node × Nat))
    (hzero : ∀ n, hget h n = 0) (s t : Node) :
    ∃ ra rd, AStarSearch.search g w h s t = some ra ∧
      DijkstraSearch.search g w s t = some rd ∧
      ra.path = rd.path ∧ ra.visited = rd.visited ∧
      ra.success = rd.success ∧
      afind ra.extra "cost" = afind rd.extra "distance" := by
  have hsim : astSim (dijInit s) (astInit h s) := by
    refine ⟨rfl, rfl, rfl, rfl, rfl, ?_⟩
    show [(hget h s, s, [s])] = [(0, s, [s])]
    rw [hzero s]
  have hK : ∀ k n q, (k, n, q) ∈ (dijInit s).pq →
      ∃ dn, afind (dijInit s).distances n = some dn ∧ dn ≤ k := by
    intro k n q hk
    simp only [dijInit] at hk
    simp at hk
    obtain ⟨rfl, rfl, rfl⟩ := hk
    exact ⟨0, by simp [dijInit, afind], Nat.le_refl _⟩
  have hT : ∀ n dn, afind (dijInit s).distances n = some dn →
      ¬ n ∈ (dijInit s).visitedSet → ∃ q, (dn, n, q) ∈ (dijInit s).pq := by
    intro n dn hdn _
    have hns : n = s := by
      by_cases hns : n = s
      · exact hns
      · exfalso
        have hnone : afind (dijInit s).distances n = none := by
          simp [dijInit, afind, hns]
        rw [hnone] at hdn
        exact Option.noConfusion hdn
    subst hns
    have h0 : afind (dijInit n).distances n = some 0 := by
      simp [dijInit, afind]
    rw [h0] at hdn
    injection hdn with hdn
    subst hdn
    exact ⟨[n], by simp [dijInit]⟩
  rcases astLoop_dijLoop g w h hzero t (fuelB g s) (dijInit s) (astInit h s)
    hsim hK hT with ⟨han, hdn⟩ | ⟨ra, rd, hra, hrd, p1, p2, p3, p4⟩
  · exfalso
    obtain ⟨r, hr⟩ := dij_search_some g w s t
    have : dijLoop g w t (fuelB g s) (dijInit s) = some r := hr
    rw [hdn] at this
    exact Option.noConfusion this
  · exact ⟨ra, rd, hra, hrd, p1, p2, p3, p4⟩

theorem astar_zero_heuristic_equals_dijkstra_witness :
    (∀ n, hget ([] : List (Node × Nat)) n = 0) ∧
    ∃ ra rd, AStarSearch.search G2 W2 [] "A" "F" = some ra ∧
      DijkstraSearch.search G2 W2 "A" "F" = some rd ∧
      ra.path = rd.path ∧ ra.visited = rd.visited ∧
      ra.success = rd.success ∧
      afind ra.extra "cost" = afind rd.extra "distance" :=
  ⟨fun _ => rfl,
    astar_zero_heuristic_equals_dijkstra G2 W2 [] (fun _ => rfl) "A" "F"⟩

theorem bfsDiscover_queue_append (c : Node) (path : List Node) (d : Nat) :
    ∀ (ns : List Node) (st : BfsState),
      ∃ new, (bfsDiscover c path d ns st).queue = st.queue ++ new ∧
        ∀ e ∈ new, ∃ n, n ∈ ns ∧ ¬ n ∈ st.visitedSet ∧ e = (n, path ++ [n], d)
  | [], st => ⟨[], by simp [bfsDiscover], by simp⟩
  | n :: ns, st => by
    by_cases hv : n ∈ st.visitedSet
    · rw [bfsDiscover, if_pos hv]
      obtain ⟨new, h1, h2⟩ := bfsDiscover_queue_append c path d ns st
      refine ⟨new, h1, ?_⟩
      intro e he
      obtain ⟨m, hm, hmv, he'⟩ := h2 e he
      exact ⟨m, List.mem_cons_of_mem _ hm, hmv, he'⟩
    · rw [bfsDiscover, if_neg hv]
      obtain ⟨new, h1, h2⟩ := bfsDiscover_queue_append c path d ns
        { st with
          visitedSet := st.visitedSet ++ [n]
          parent := dset st.parent n (some c)
          tree_edges := st.tree_edges ++ [(c, n)]
          queue := st.queue ++ [(n, path ++ [n], d)] }
      refine ⟨(n, path ++ [n], d) :: new, ?_, ?_⟩
      · rw [h1]
        show (st.queue ++ [(n, path ++ [n], d)]) ++ new =
          st.queue ++ (n, path ++ [n], d) :: new
        simp
      · intro e he
        rcases List.mem_cons.mp he with rfl | he2
        · exact ⟨n, List.mem_cons_self _ _, hv, rfl⟩
        · obtain ⟨m, hm, hmv, he'⟩ := h2 e he2
          refine ⟨m, List.mem_cons_of_mem _ hm, ?_, he'⟩
          intro hc
          exact hmv (by show m ∈ st.visitedSet ++ [n]; simp [hc])

theorem bfs_cut (g : Graph) (s : Node) (st : BfsState)
    (hvv1 : ∀ v ∈ st.visited, v ∈ st.visitedSet)
    (hvv2 : ∀ v ∈ st.visitedSet,
      v ∈ st.visited ∨ ∃ p d, (v, p, d) ∈ st.queue)
    (hcl : ∀ v ∈ st.visited, (∀ p d, ¬ (v, p, d) ∈ st.queue) →
      ∀ n ∈ adjL g v, n ∈ st.visitedSet)
    (hdOpt : ∀ n p d, (n, p, d) ∈ st.queue →
      ∀ q, validPath g s n q → d + 1 ≤ q.length)
    (hs : s ∈ st.visitedSet) :
    ∀ (k : Nat) (q : List Node) (x : Node), q.length ≤ k →
      validPath g s x q →
      ¬ (x ∈ st.visited ∧ ∀ p d, ¬ (x, p, d) ∈ st.queue) →
      ∃ n p d r, (n, p, d) ∈ st.queue ∧ validPath g n x r ∧
        d + r.length ≤ q.length := by
  intro k
  induction k with
  | zero =>
    intro q x hlen hvp _
    have hne := hvp.1
    cases q with
    | nil => exact absurd rfl hne
    | cons a as => simp at hlen
  | succ k ih =>
    intro q x hlen hvp hx
    rcases validPath_cases hvp with ⟨rfl, rfl⟩ | ⟨q', v, rfl, hvp', hadj⟩
    · have hent : ∃ p d, (x, p, d) ∈ st.queue := by
        rcases hvv2 x hs with hvis | hent
        · by_cases hent : ∃ p d, (x, p, d) ∈ st.queue
          · exact hent
          · exfalso
            refine hx ⟨hvis, ?_⟩
            intro p d hpd
            exact hent ⟨p, d, hpd⟩
        · exact hent
      obtain ⟨p, d, hpd⟩ := hent
      have hd0 : d + 1 ≤ 1 := hdOpt x p d hpd [x] (validPath_singleton g x)
      refine ⟨x, p, d, [x], hpd, validPath_singleton g x, ?_⟩
      show d + 1 ≤ 1
      omega
    · by_cases hvc : v ∈ st.visited ∧ ∀ p d, ¬ (v, p, d) ∈ st.queue
      · have hxv : x ∈ st.visitedSet := hcl v hvc.1 hvc.2 x hadj
        have hent : ∃ p d, (x, p, d) ∈ st.queue := by
          rcases hvv2 x hxv with hvis | hent
          · by_cases hent : ∃ p d, (x, p, d) ∈ st.queue
            · exact hent
            · exfalso
              refine hx ⟨hvis, ?_⟩
              intro p d hpd
              exact hent ⟨p, d, hpd⟩
          · exact hent
        obtain ⟨p, d, hpd⟩ := hent
        have hdq : d + 1 ≤ (q' ++ [x]).length := hdOpt x p d hpd _ hvp
        exact ⟨x, p, d, [x], hpd, validPath_singleton g x, hdq⟩
      · have hlen' : q'.length ≤ k := by
          have hq : (q' ++ [x]).length = q'.length + 1 := by simp
          omega
        obtain ⟨n, p, d, r, hent, hr, hb⟩ := ih q' v hlen' hvp' hvc
        refine ⟨n, p, d, r ++ [x], hent, validPath_extend hr hadj, ?_⟩
        have h1 : (r ++ [x]).length = r.length + 1 := by simp
        have h2 : (q' ++ [x]).length = q'.length + 1 := by simp
        omega

/-- Loop invariant for BFS shortest paths: queue entries carry genuine
start-to-node paths one longer than their depth, every entry's depth
under-cuts every start-to-node path, depths are sorted and within one of
each other, closed nodes have fully discovered neighborhoods, and the goal
is never closed before the loop returns. -/
structure Bfs1Inv (g : Graph) (s goal : Node) (st : BfsState) : Prop where
  qvp : ∀ n p d, (n, p, d) ∈ st.queue →
    validPath g s n p ∧ p.length = d + 1
  qv : ∀ e ∈ st.queue, (e : Node × List Node × Nat).1 ∈ st.visitedSet
  vv1 : ∀ v ∈ st.visited, v ∈ st.visitedSet
  vv2 : ∀ v ∈ st.visitedSet, v ∈ st.visited ∨ ∃ p d, (v, p, d) ∈ st.queue
  cl : ∀ v ∈ st.visited, (∀ p d, ¬ (v, p, d) ∈ st.queue) →
    ∀ n ∈ adjL g v, n ∈ st.visitedSet
  dOpt : ∀ n p d, (n, p, d) ∈ st.queue →
    ∀ q, validPath g s n q → d + 1 ≤ q.length
  srt : List.Pairwise
    (fun e1 e2 => (e1 : Node × List Node × Nat).2.2 ≤
      (e2 : Node × List Node × Nat).2.2) st.queue
  win : ∀ e ∈ st.queue, ∀ e' ∈ st.queue,
    (e : Node × List Node × Nat).2.2 ≤
      (e' : Node × List Node × Nat).2.2 + 1
  strtB : s ∈ st.visitedSet
  gnc : goal ∈ st.visited → ∃ p d, (goal, p, d) ∈ st.queue

theorem bfsLoop_opt (g : Graph) (s goal : Node) :
    ∀ (fuel : Nat) (st : BfsState), Bfs1Inv g s goal st →
      (∃ q0, validPath g s goal q0) →
      undisc g s st.visitedSet + st.queue.length < fuel →
      ∃ r, bfsLoop g goal fuel st = some r ∧ r.success = true ∧
        validPath g s goal r.path ∧
        ∀ q, validPath g s goal q → r.path.length ≤ q.length
  | 0, st, _, _, hf => by omega
  | fuel + 1, st, hinv, hq0e, hf => by
    obtain ⟨q0, hq0⟩ := hq0e
    cases hq : st.queue with
    | nil =>
      exfalso
      have hgnc : ¬ (goal ∈ st.visited ∧
          ∀ p d, ¬ (goal, p, d) ∈ st.queue) := by
        rintro ⟨hgv, -⟩
        obtain ⟨p, d, hpd⟩ := hinv.gnc hgv
        rw [hq] at hpd
        simp at hpd
      obtain ⟨n, p, d, r, hent, _, _⟩ := bfs_cut g s st hinv.vv1 hinv.vv2
        hinv.cl hinv.dOpt hinv.strtB q0.length q0 goal (Nat.le_refl _) hq0 hgnc
      rw [hq] at hent
      simp at hent
    | cons e rest =>
      obtain ⟨current, pc, dc⟩ := e
      rw [hq] at hf
      simp only [List.length_cons] at hf
      have hheadmem : (current, pc, dc) ∈ st.queue := by rw [hq]; simp
      obtain ⟨hvpc, hlpc⟩ := hinv.qvp current pc dc hheadmem
      have hsrt := hinv.srt
      rw [hq] at hsrt
      obtain ⟨hhead, hrest⟩ := List.pairwise_cons.mp hsrt
      by_cases hg : current = goal
      · subst hg
        obtain ⟨r2, hr2, hp2, hs2⟩ : ∃ r2,
            bfsLoop g current (fuel + 1) st = some r2 ∧ r2.path = pc ∧
              r2.success = true := by
          simp only [bfsLoop, hq, if_true]
          exact ⟨_, rfl, rfl, rfl⟩
        refine ⟨r2, hr2, hs2, hp2 ▸ hvpc, ?_⟩
        intro q hq'
        rw [hp2, hlpc]
        exact hinv.dOpt current pc dc hheadmem q hq'
      · have hcurv : current ∈ st.visitedSet := hinv.qv _ hheadmem
        obtain ⟨m1, m2, m3, q1, q2, vis⟩ := bfsDiscover_shape g current pc
          (dc + 1) (adjL g current)
          { st with
            queue := rest
            visited := if current ∈ st.visited then st.visited
                       else st.visited ++ [current] }
        obtain ⟨new, hnew1, hnew2⟩ := bfsDiscover_queue_append current pc
          (dc + 1) (adjL g current)
          { st with
            queue := rest
            visited := if current ∈ st.visited then st.visited
                       else st.visited ++ [current] }
        have hmemvis : ∀ v, v ∈ (if current ∈ st.visited then st.visited
            else st.visited ++ [current]) ↔ v ∈ st.visited ∨ v = current := by
          intro v
          by_cases hc : current ∈ st.visited
          · rw [if_pos hc]
            constructor
            · exact Or.inl
            · rintro (h | rfl)
              · exact h
              · exact hc
          · rw [if_neg hc]
            simp
        have hnewq : (bfsDiscover current pc (dc + 1) (adjL g current)
            { st with
              queue := rest
              visited := if current ∈ st.visited then st.visited
                         else st.visited ++ [current] }).queue =
            rest ++ new := hnew1
        have hnewd : ∀ e ∈ new, ∃ n, n ∈ adjL g current ∧
            ¬ n ∈ st.visitedSet ∧ e = (n, pc ++ [n], dc + 1) := hnew2
        have hinv2 : Bfs1Inv g s goal (bfsDiscover current pc (dc + 1)
            (adjL g current)
            { st with
              queue := rest
              visited := if current ∈ st.visited then st.visited
                         else st.visited ++ [current] }) := by
          refine ⟨?_, ?_, ?_, ?_, ?_, ?_, ?_, ?_, ?_, ?_⟩
          · intro n p d hnpd
            rw [hnewq] at hnpd
            rcases List.mem_append.mp hnpd with h | h
            · exact hinv.qvp n p d (by rw [hq]; exact List.mem_cons_of_mem _ h)
            · obtain ⟨m, hm, hmv, he⟩ := hnewd _ h
              injection he with e1 e2
              injection e2 with e2 e3
              subst e1
              subst e2
              subst e3
              constructor
              · exact validPath_extend hvpc hm
              · simp [hlpc]
          · intro e he
            rcases q2 e he with h | ⟨n, hn, he'⟩
            · exact m1 _ (hinv.qv e (by rw [hq]; exact List.mem_cons_of_mem _ h))
            · rw [he']
              exact m3 n hn
          · intro v hv
            rw [vis] at hv
            rw [hmemvis] at hv
            rcases hv with h | rfl
            · exact m1 _ (hinv.vv1 v h)
            · exact m1 _ hcurv
          · intro v hv
            rcases m2 v hv with h | ⟨q', d', hqd⟩
            · rcases hinv.vv2 v h with h' | ⟨p, d, hpd⟩
              · refine Or.inl ?_
                rw [vis, hmemvis]
                exact Or.inl h'
              · rw [hq] at hpd
                rcases List.mem_cons.mp hpd with hpd' | hpd'
                · injection hpd' with h1 h2
                  refine Or.inl ?_
                  rw [vis, hmemvis]
                  exact Or.inr h1
                · exact Or.inr ⟨p, d, q1 _ hpd'⟩
            · exact Or.inr ⟨q', d', hqd⟩
          · intro v hv hnoq n hn
            by_cases hvc : v = current
            · subst hvc
              exact m3 n hn
            · rw [vis, hmemvis] at hv
              rcases hv with h | h
              · refine m1 _ (hinv.cl v h ?_ n hn)
                intro p d hpd
                rw [hq] at hpd
                rcases List.mem_cons.mp hpd with hpd' | hpd'
                · injection hpd' with h1 h2
                  exact hvc h1
                · exact hnoq p d (q1 _ hpd')
              · exact absurd h hvc
          · intro n p d hnpd q hvq
            rw [hnewq] at hnpd
            rcases List.mem_append.mp hnpd with h | h
            · exact hinv.dOpt n p d
                (by rw [hq]; exact List.mem_cons_of_mem _ h) q hvq
            · obtain ⟨m, hm, hmv, he⟩ := hnewd _ h
              injection he with e1 e2
              injection e2 with e2 e3
              subst e1
              subst e2
              subst e3
              have hmcl : ¬ (n ∈ st.visited ∧
                  ∀ p' d', ¬ (n, p', d') ∈ st.queue) :=
                fun hc => hmv (hinv.vv1 n hc.1)
              obtain ⟨n', p', d', r, hent, hr, hb⟩ := bfs_cut g s st hinv.vv1
                hinv.vv2 hinv.cl hinv.dOpt hinv.strtB q.length q n
                (Nat.le_refl _) hvq hmcl
              have hdcle : dc ≤ d' := by
                rw [hq] at hent
                rcases List.mem_cons.mp hent with hent' | hent'
                · injection hent' with h1 h2
                  injection h2 with h2 h3
                  omega
                · exact hhead _ hent'
              have hrlen : 2 ≤ r.length := by
                rcases r with _ | ⟨a, r'⟩
                · exact absurd rfl hr.1
                · rcases r' with _ | ⟨b, r''⟩
                  · exfalso
                    have hh : a = n' := by simpa using hr.2.1
                    have hl : a = n := by simpa using hr.2.2.1
                    subst hh
                    subst hl
                    exact hmv (hinv.qv _ hent)
                  · simp
              omega
          · rw [hnewq]
            rw [List.pairwise_append]
            refine ⟨hrest, ?_, ?_⟩
            · refine List.pairwise_of_forall_mem_list ?_
              intro a ha b hb
              obtain ⟨ma, _, _, hea⟩ := hnewd _ ha
              obtain ⟨mb, _, _, heb⟩ := hnewd _ hb
              rw [hea, heb]
            · intro a ha b hb
              obtain ⟨mb, _, _, heb⟩ := hnewd _ hb
              have := hinv.win a (by rw [hq]; exact List.mem_cons_of_mem _ ha)
                (current, pc, dc) hheadmem
              rw [heb]
              show (a : Node × List Node × Nat).2.2 ≤ dc + 1
              exact this
          · intro e he e' he'
            rw [hnewq] at he he'
            rcases List.mem_append.mp he with h | h <;>
              rcases List.mem_append.mp he' with h' | h'
            · exact hinv.win e (by rw [hq]; exact List.mem_cons_of_mem _ h)
                e' (by rw [hq]; exact List.mem_cons_of_mem _ h')
            · obtain ⟨mb, _, _, heb⟩ := hnewd _ h'
              have hthis : (e : Node × List Node × Nat).2.2 ≤ dc + 1 :=
                hinv.win e (by rw [hq]; exact List.mem_cons_of_mem _ h)
                  (current, pc, dc) hheadmem
              rw [heb]
              show (e : Node × List Node × Nat).2.2 ≤ dc + 1 + 1
              omega
            · obtain ⟨ma, _, _, hea⟩ := hnewd _ h
              have hthis : dc ≤ (e' : Node × List Node × Nat).2.2 :=
                hhead _ h'
              rw [hea]
              show dc + 1 ≤ (e' : Node × List Node × Nat).2.2 + 1
              omega
            · obtain ⟨ma, _, _, hea⟩ := hnewd _ h
              obtain ⟨mb, _, _, heb⟩ := hnewd _ h'
              rw [hea, heb]
              show dc + 1 ≤ dc + 1 + 1
              omega
          · exact m1 _ hinv.strtB
          · intro hgv
            rw [vis, hmemvis] at hgv
            rcases hgv with h | h
            · obtain ⟨p, d, hpd⟩ := hinv.gnc h
              rw [hq] at hpd
              rcases List.mem_cons.mp hpd with hpd' | hpd'
              · injection hpd' with h1 h2
                exact absurd h1.symm hg
              · exact ⟨p, d, q1 _ hpd'⟩
            · exact absurd h.symm hg
        have hm := bfsDiscover_measure g s current pc (dc + 1)
          (adjL g current)
          { st with
            queue := rest
            visited := if current ∈ st.visited then st.visited
                       else st.visited ++ [current] }
          (adjL_subset_nodesOf g s current)
        obtain ⟨r, hr, p1, p2, p3⟩ := bfsLoop_opt g s goal fuel _ hinv2
          ⟨q0, hq0⟩ (by
            rw [hm]
            show undisc g s st.visitedSet + rest.length < fuel
            omega)
        exact ⟨r, by simp only [bfsLoop, hq, if_neg hg]; exact hr, p1, p2, p3⟩

/-- C1: on every finite unweighted graph with at least one start-to-goal
path, `BreadthFirstSearch.search` succeeds with a path that starts at the
start node, ends at the goal, follows edges of the graph, and has the
minimum number of edges (equivalently, the minimum length) among all
start-to-goal paths. -/
theorem bfs_shortest_path (g : Graph) (s t : Node) (hre : Reachable g s t) :
    ∃ r, BreadthFirstSearch.search g s t = some r ∧ r.success = true ∧
      validPath g s t r.path ∧
      ∀ q, validPath g s t q → r.path.length ≤ q.length := by
  have hinv : Bfs1Inv g s t (bfsInit s) := by
    refine ⟨?_, ?_, ?_, ?_, ?_, ?_, ?_, ?_, ?_, ?_⟩
    · intro n p d hnpd
      simp only [bfsInit] at hnpd
      simp at hnpd
      obtain ⟨rfl, rfl, rfl⟩ := hnpd
      exact ⟨validPath_singleton g n, rfl⟩
    · intro e he
      simp only [bfsInit] at he
      simp at he
      subst he
      simp [bfsInit]
    · intro v hv
      exact hv
    · intro v hv
      exact Or.inl hv
    · intro v hv hnoq n hn
      simp only [bfsInit] at hv
      simp at hv
      subst hv
      exact absurd (by simp [bfsInit]) (hnoq [v] 0)
    · intro n p d hnpd q hq
      simp only [bfsInit] at hnpd
      simp at hnpd
      obtain ⟨rfl, rfl, rfl⟩ := hnpd
      have := List.length_pos.mpr hq.1
      omega
    · simp [bfsInit]
    · intro e he e' he'
      simp only [bfsInit] at he he'
      simp at he he'
      subst he
      subst he'
      simp
    · simp [bfsInit]
    · intro hgv
      simp only [bfsInit] at hgv
      simp at hgv
      subst hgv
      exact ⟨[t], 0, by simp [bfsInit]⟩
  obtain ⟨r, hr, p1, p2, p3⟩ := bfsLoop_opt g s t ((nodesOf g s).length + 2)
    (bfsInit s) hinv (reachable_validPath hre) (by
      have h1 := undisc_le g s [s]
      show undisc g s [s] + 1 < (nodesOf g s).length + 2
      omega)
  exact ⟨r, hr, p1, p2, p3⟩

theorem bfs_shortest_path_witness :
    Reachable G2 "A" "F" ∧
    ∃ r, BreadthFirstSearch.search G2 "A" "F" = some r ∧ r.success = true ∧
      validPath G2 "A" "F" r.path ∧
      ∀ q, validPath G2 "A" "F" q → r.path.length ≤ q.length := by
  have hre : Reachable G2 "A" "F" :=
    validPath_reachable (show validPath G2 "A" "F" ["A", "C", "F"] by decide)
  exact ⟨hre, bfs_shortest_path G2 "A" "F" hre⟩
